import Mathlib

/-!
# Red-black tree set (`src/main.cpp`): embedding and verification

The C++ program keeps its nodes on the heap and links them with raw
`Parent` / `Left` / `Right` pointers.  The embedding keeps exactly that shape:

* an address is a `Nat`, a nullable pointer is an `Option Nat`;
* the heap is a function from addresses to `Option TreeNode` (`none` = not allocated);
* `new` hands out the address `fresh` and increments it, `delete` clears the cell;
* every member function of `TreeSet` is a state-passing function into `Option`;
  `none` stands for a run that does not return normally: a null or dangling pointer
  is dereferenced, a `DebugAssert` fails (`DebugMode` is 1), or the fuel of a loop or
  recursion is used up;
* `int Data` is an `Int` (keys are only compared and copied); the `int` counters of
  `Count` / `GetMaxHeight` are `Nat` (they would need more than 2^31 live nodes to wrap).
-/

/-! ## Data model -/

/-- Colour of a node (`enum class TreeNodeColor`). -/
inductive TreeNodeColor where
  | Red
  | Black
  deriving DecidableEq, Repr

/-- Rotation selector (`enum class TreeNodeRotateMode`). -/
inductive TreeNodeRotateMode where
  | RR
  | LL
  | RL
  | LR
  deriving DecidableEq, Repr

/-- One heap cell (`struct TreeNode`): key, colour and the three links. -/
structure TreeNode where
  Data : Int
  Color : TreeNodeColor
  Parent : Option Nat
  Left : Option Nat
  Right : Option Nat
  deriving DecidableEq, Repr

/-- The memory: which node lives at which address. -/
abbrev Heap := Nat → Option TreeNode

/-- Store `n` at address `p`. -/
def Heap.write (h : Heap) (p : Nat) (n : TreeNode) : Heap :=
  fun q => if q = p then some n else h q

/-- Release address `p` (`delete`). -/
def Heap.free (h : Heap) (p : Nat) : Heap :=
  fun q => if q = p then none else h q

/-- The object `TreeSet`: the heap it owns, its root pointer `m_pRoot`, and the next
address `new` will return. -/
structure TreeSet where
  heap : Heap
  m_pRoot : Option Nat
  fresh : Nat

/-- Constructor `TreeSet() : m_pRoot(nullptr)`. -/
def TreeSet.empty : TreeSet := ⟨fun _ => none, none, 0⟩

/-! ## `TreeNode` member functions -/

/-- `TreeNode::Any`: the left child if there is one, else the right child. -/
def TreeNode.Any (n : TreeNode) : Option Nat :=
  match n.Left with
  | some l => some l
  | none => n.Right

/-- `TreeNode::AnyWithChildrenCount`: a child together with the number of children. -/
def TreeNode.AnyWithChildrenCount (n : TreeNode) : Option Nat × Nat :=
  match n.Left, n.Right with
  | some l, some _ => (some l, 2)
  | some l, none => (some l, 1)
  | none, some r => (some r, 1)
  | none, none => (none, 0)

/-- `TreeNode::Count`: number of children. -/
def TreeNode.Count (n : TreeNode) : Nat :=
  match n.Left, n.Right with
  | some _, some _ => 2
  | some _, none => 1
  | none, some _ => 1
  | none, none => 0

/-! ## Field assignments through a pointer -/

/-- Assignment `p->Color = c`. -/
def TreeSet.setColor (s : TreeSet) (p : Nat) (c : TreeNodeColor) : Option TreeSet :=
  match s.heap p with
  | none => none
  | some n => some { s with heap := s.heap.write p { n with Color := c } }

/-- Assignment `p->Data = d`. -/
def TreeSet.setData (s : TreeSet) (p : Nat) (d : Int) : Option TreeSet :=
  match s.heap p with
  | none => none
  | some n => some { s with heap := s.heap.write p { n with Data := d } }

/-- Assignment `p->Parent = v`. -/
def TreeSet.setParent (s : TreeSet) (p : Nat) (v : Option Nat) : Option TreeSet :=
  match s.heap p with
  | none => none
  | some n => some { s with heap := s.heap.write p { n with Parent := v } }

/-- Assignment `p->Left = v`. -/
def TreeSet.setLeft (s : TreeSet) (p : Nat) (v : Option Nat) : Option TreeSet :=
  match s.heap p with
  | none => none
  | some n => some { s with heap := s.heap.write p { n with Left := v } }

/-- Assignment `p->Right = v`. -/
def TreeSet.setRight (s : TreeSet) (p : Nat) (v : Option Nat) : Option TreeSet :=
  match s.heap p with
  | none => none
  | some n => some { s with heap := s.heap.write p { n with Right := v } }

/-- `TreeNode::IsLeft` called on the node at `p`: `Parent->Left == this`. -/
def TreeSet.IsLeft (s : TreeSet) (p : Nat) : Option Bool :=
  match s.heap p with
  | none => none
  | some n =>
    match n.Parent with
    | none => none
    | some q =>
      match s.heap q with
      | none => none
      | some pn => some (decide (pn.Left = some p))

/-- `TreeNode::IsRight` called on the node at `p`: `Parent->Right == this`. -/
def TreeSet.IsRight (s : TreeSet) (p : Nat) : Option Bool :=
  match s.heap p with
  | none => none
  | some n =>
    match n.Parent with
    | none => none
    | some q =>
      match s.heap q with
      | none => none
      | some pn => some (decide (pn.Right = some p))

/-! ## Searching -/

/-- The `while` loop of `TreeSet::FindNode`, started at `pCur`.  The outer `Option` is
the run (fuel, dangling pointer), the inner one the returned pointer. -/
def FindNodeLoop : Nat → Heap → Option Nat → Int → Option (Option Nat)
  | 0, _, _, _ => none
  | _ + 1, _, none, _ => some none
  | fuel + 1, h, some c, data =>
    match h c with
    | none => none
    | some n =>
      if data = n.Data then some (some c)
      else if data > n.Data then FindNodeLoop fuel h n.Right data
      else FindNodeLoop fuel h n.Left data

/-- The `while` loop of `TreeSet::FindBiggestNode`. -/
def FindBiggestNodeLoop : Nat → Heap → Option Nat → Option (Option Nat)
  | 0, _, _ => none
  | _ + 1, _, none => some none
  | fuel + 1, h, some c =>
    match h c with
    | none => none
    | some n =>
      match n.Right with
      | none => some (some c)
      | some r => FindBiggestNodeLoop fuel h (some r)

/-- The `while` loop of `TreeSet::FindParentDataInserted` with its two locals. -/
def FindParentDataInsertedLoop : Nat → Heap → Option Nat → Option Nat → Int → Option (Option Nat)
  | 0, _, _, _, _ => none
  | _ + 1, _, pParent, none, _ => some pParent
  | fuel + 1, h, _, some c, data =>
    match h c with
    | none => none
    | some n =>
      if data > n.Data then FindParentDataInsertedLoop fuel h (some c) n.Right data
      else FindParentDataInsertedLoop fuel h (some c) n.Left data

/-- Fuel given to every loop and recursion of a public operation.  No more than
`fresh` nodes are alive, so every downward walk takes at most `fresh + 1` steps and
every fixup at most three calls per level. -/
def TreeSet.fuel (s : TreeSet) : Nat := 3 * s.fresh + 4

/-- `TreeSet::FindNode`. -/
def TreeSet.FindNode (s : TreeSet) (data : Int) : Option (Option Nat) :=
  FindNodeLoop s.fuel s.heap s.m_pRoot data

/-- `TreeSet::FindParentDataInserted`. -/
def TreeSet.FindParentDataInserted (s : TreeSet) (data : Int) : Option (Option Nat) :=
  FindParentDataInsertedLoop s.fuel s.heap none s.m_pRoot data

/-- `TreeSet::Search`: `FindNode(data) != nullptr`. -/
def TreeSet.Search (s : TreeSet) (data : Int) : Option Bool :=
  (s.FindNode data).map Option.isSome

/-! ## Rotations -/

/-- `TreeSet::RotateLL`: the left child of `node` takes the place of `node`. -/
def TreeSet.RotateLL (s : TreeSet) (node : Nat) : Option TreeSet := do
  let cur ← s.heap node
  let pParent := cur.Parent
  let pChild ← cur.Left
  let ch ← s.heap pChild
  let pChildRight := ch.Right
  let s1 ← (match pParent with
    | some pp => do
      let pn ← s.heap pp
      if pn.Left = some node then s.setLeft pp (some pChild) else s.setRight pp (some pChild)
    | none => some s)
  let s2 ← s1.setParent pChild pParent
  let s3 ← s2.setLeft node pChildRight
  let s4 ← (match pChildRight with
    | some cr => s3.setParent cr (some node)
    | none => some s3)
  let s5 ← s4.setRight pChild (some node)
  let s6 ← s5.setParent node (some pChild)
  if s6.m_pRoot = some node then some { s6 with m_pRoot := some pChild } else some s6

/-- `TreeSet::RotateRR`: the right child of `node` takes the place of `node`. -/
def TreeSet.RotateRR (s : TreeSet) (node : Nat) : Option TreeSet := do
  let cur ← s.heap node
  let pParent := cur.Parent
  let pChild ← cur.Right
  let ch ← s.heap pChild
  let pChildLeft := ch.Left
  let s1 ← (match pParent with
    | some pp => do
      let pn ← s.heap pp
      if pn.Left = some node then s.setLeft pp (some pChild) else s.setRight pp (some pChild)
    | none => some s)
  let s2 ← s1.setParent pChild pParent
  let s3 ← s2.setRight node pChildLeft
  let s4 ← (match pChildLeft with
    | some cl => s3.setParent cl (some node)
    | none => some s3)
  let s5 ← s4.setLeft pChild (some node)
  let s6 ← s5.setParent node (some pChild)
  if s6.m_pRoot = some node then some { s6 with m_pRoot := some pChild } else some s6

/-- `TreeSet::RotateLR`. -/
def TreeSet.RotateLR (s : TreeSet) (cur : Nat) : Option TreeSet := do
  let n ← s.heap cur
  let l ← n.Left
  let s1 ← s.RotateRR l
  s1.RotateLL cur

/-- `TreeSet::RotateRL`. -/
def TreeSet.RotateRL (s : TreeSet) (cur : Nat) : Option TreeSet := do
  let n ← s.heap cur
  let r ← n.Right
  let s1 ← s.RotateLL r
  s1.RotateRR cur

/-- `TreeSet::RotateNode`: dispatch on the mode. -/
def TreeSet.RotateNode (s : TreeSet) (node : Nat) (mode : TreeNodeRotateMode) : Option TreeSet :=
  match mode with
  | .RR => s.RotateRR node
  | .LL => s.RotateLL node
  | .RL => s.RotateRL node
  | .LR => s.RotateLR node

/-! ## Insertion -/

/-- Colour read through a nullable pointer, an absent node counting as Black. -/
def TreeSet.colorOrBlack (s : TreeSet) (p : Option Nat) : Option TreeNodeColor :=
  match p with
  | none => some .Black
  | some q => (s.heap q).map (fun n => n.Color)

/-- `TreeSet::InsertFixup`.  The recursion of the source is bounded by the fuel. -/
def TreeSet.InsertFixup : Nat → TreeSet → Nat → Option TreeSet
  | 0, _, _ => none
  | fuel + 1, s, child =>
    if s.m_pRoot = some child then s.setColor child .Black
    else do
      let cn ← s.heap child
      let pParent ← cn.Parent
      let pn ← s.heap pParent
      let eParentColor := pn.Color
      if eParentColor ≠ .Red ∨ cn.Color ≠ .Red then some s
      else do
        -- `DebugAssertMsg(pGrandParent, ...)`
        let pGrandParent ← pn.Parent
        let gn ← s.heap pGrandParent
        let pUncle := if gn.Left = some pParent then gn.Right else gn.Left
        let eUncleColor ← s.colorOrBlack pUncle
        if eUncleColor = .Black then do
          if (← s.IsLeft pParent) then do
            if (← s.IsLeft child) then do
              -- Case 1-1
              let s1 ← s.setColor pGrandParent .Red
              let s2 ← s1.setColor pParent .Black
              let s3 ← s2.RotateLL pGrandParent
              if s3.m_pRoot = some pGrandParent then some { s3 with m_pRoot := some pParent }
              else some s3
            else do
              -- Case 1-3
              let s1 ← s.RotateRR pParent
              TreeSet.InsertFixup fuel s1 pParent
          else do
            if (← s.IsRight child) then do
              -- Case 1-2
              let s1 ← s.setColor pGrandParent .Red
              let s2 ← s1.setColor pParent .Black
              let s3 ← s2.RotateRR pGrandParent
              if s3.m_pRoot = some pGrandParent then some { s3 with m_pRoot := some pParent }
              else some s3
            else do
              -- Case 1-4
              let s1 ← s.RotateLL pParent
              TreeSet.InsertFixup fuel s1 pParent
        else do
          -- Case 2
          let u ← pUncle
          let s1 ← s.setColor u .Black
          let s2 ← s1.setColor pParent .Black
          let s3 ← s2.setColor pGrandParent .Red
          TreeSet.InsertFixup fuel s3 pGrandParent

/-- Allocation `dbg_new TreeNode{ data }`: a Red node without links at the fresh address. -/
def TreeSet.newNode (s : TreeSet) (data : Int) : Nat × TreeSet :=
  (s.fresh, { s with heap := s.heap.write s.fresh ⟨data, .Red, none, none, none⟩,
                     fresh := s.fresh + 1 })

/-- `TreeSet::Insert`: the returned flag and the tree afterwards. -/
def TreeSet.Insert (s : TreeSet) (data : Int) : Option (Bool × TreeSet) :=
  match s.m_pRoot with
  | none =>
    let (pNewNode, s1) := s.newNode data
    (TreeSet.InsertFixup s1.fuel { s1 with m_pRoot := some pNewNode } pNewNode).map
      (fun s2 => (true, s2))
  | some _ =>
    match s.FindParentDataInserted data with
    | none => none
    | some none => some (false, s)
    | some (some pParent) => do
      let (pNewNode, s1) := s.newNode data
      let s2 ← s1.setParent pNewNode (some pParent)
      let pn ← s2.heap pParent
      let s3 ← (if data > pn.Data then s2.setRight pParent (some pNewNode)
                else s2.setLeft pParent (some pNewNode))
      let s4 ← TreeSet.InsertFixup s3.fuel s3 pNewNode
      some (true, s4)

/-! ## Removal -/

/-- `TreeSet::DeleteNode`.  `JCORE_DELETE_SAFE(m_pRoot)` deletes the root node and
resets `m_pRoot` to null. -/
def TreeSet.DeleteNode (s : TreeSet) (node : Nat) : Option TreeSet :=
  if s.m_pRoot = some node then
    some { s with heap := s.heap.free node, m_pRoot := none }
  else do
    let n ← s.heap node
    let s1 ← (match n.Parent with
      | some par => do
        let pn ← s.heap par
        if pn.Left = some node then s.setLeft par none
        else if pn.Right = some node then s.setRight par none
        else some s
      | none => some s)
    some { s1 with heap := s1.heap.free node }

/-- `TreeSet::ConnectPredecessorChildToParent`. -/
def TreeSet.ConnectPredecessorChildToParent (s : TreeSet) (predecessor predecessorLeftChild : Nat) :
    Option TreeSet := do
  let isR ← s.IsRight predecessor
  let pn ← s.heap predecessor
  let par ← pn.Parent
  if isR then do
    let s1 ← s.setRight par (some predecessorLeftChild)
    s1.setParent predecessorLeftChild (some par)
  else do
    let s1 ← s.setLeft par (some predecessorLeftChild)
    s1.setParent predecessorLeftChild (some par)

/-- The record `TreeNodeFamily` gathered around a node. -/
structure TreeNodeFamily where
  Parent : Nat
  Sibling : Nat
  NephewLine : Option Nat
  NephewTri : Option Nat
  ParentColor : TreeNodeColor
  SiblingColor : TreeNodeColor
  NephewLineColor : TreeNodeColor
  NephewTriColor : TreeNodeColor

/-- Constructor `TreeNodeFamily::TreeNodeFamily(child)`; both assertions (parent and
sibling exist) end the run when they fail. -/
def TreeSet.family (s : TreeSet) (child : Nat) : Option TreeNodeFamily := do
  let bRightChild ← s.IsRight child
  let cn ← s.heap child
  let parent ← cn.Parent
  let pn ← s.heap parent
  let sibling ← (if bRightChild then pn.Left else pn.Right)
  let sn ← s.heap sibling
  let sl ← s.IsLeft sibling
  let nephewLine := if sl then sn.Left else sn.Right
  let nephewTri := if sl then sn.Right else sn.Left
  let triColor ← s.colorOrBlack nephewTri
  let lineColor ← s.colorOrBlack nephewLine
  some ⟨parent, sibling, nephewLine, nephewTri, pn.Color, sn.Color, lineColor, triColor⟩

/-- `TreeSet::RemoveFixupExtraBlack`.  The recursion of the source is bounded by the fuel. -/
def TreeSet.RemoveFixupExtraBlack : Nat → TreeSet → Nat → Option TreeSet
  | 0, _, _ => none
  | fuel + 1, s, child =>
    if s.m_pRoot = some child then some s
    else do
      let bRightChild ← s.IsRight child
      let f ← s.family child
      if f.ParentColor = .Black then do
        if f.SiblingColor = .Red then do
          let s1 ← s.setColor f.Parent .Red
          let s2 ← s1.setColor f.Sibling .Black
          let s3 ← s2.RotateNode f.Parent (if bRightChild then .LL else .RR)
          TreeSet.RemoveFixupExtraBlack fuel s3 child
        else if f.NephewTriColor = .Black ∧ f.NephewLineColor = .Black then do
          let s1 ← s.setColor f.Sibling .Red
          TreeSet.RemoveFixupExtraBlack fuel s1 f.Parent
        else if f.NephewLineColor = .Red then do
          let nl ← f.NephewLine
          let s1 ← s.setColor nl .Black
          s1.RotateNode f.Parent (if bRightChild then .LL else .RR)
        else if f.NephewTriColor = .Red then do
          let nt ← f.NephewTri
          let s1 ← s.setColor nt .Black
          let s2 ← s1.setColor f.Sibling .Red
          let s3 ← s2.RotateNode f.Sibling (if bRightChild then .RR else .LL)
          TreeSet.RemoveFixupExtraBlack fuel s3 child
        else some s
      else if f.SiblingColor ≠ .Black then none
      else if f.NephewTriColor = .Black ∧ f.NephewLineColor = .Black then do
        let s1 ← s.setColor f.Sibling .Red
        s1.setColor f.Parent .Black
      else if f.NephewLineColor = .Red then do
        let nl ← f.NephewLine
        let s1 ← s.setColor nl .Black
        let s2 ← s1.setColor f.Sibling .Red
        let s3 ← s2.setColor f.Parent .Black
        s3.RotateNode f.Parent (if bRightChild then .LL else .RR)
      else if f.NephewTriColor = .Red then do
        let nt ← f.NephewTri
        let s1 ← s.setColor nt .Black
        let s2 ← s1.setColor f.Sibling .Red
        let s3 ← s2.RotateNode f.Sibling (if bRightChild then .RR else .LL)
        TreeSet.RemoveFixupExtraBlack fuel s3 child
      else some s

/-- `TreeSet::RemoveFixup`; its three `DebugAssert`s end the run when they fail. -/
def TreeSet.RemoveFixup (s : TreeSet) (child : Nat) : Option TreeSet := do
  let cn ← s.heap child
  if cn.Color = .Red then some s
  else
    match cn.Any with
    | some pChild => do
      let chn ← s.heap pChild
      if cn.Count ≠ 1 then none
      else if cn.Color ≠ .Black then none
      else if chn.Color ≠ .Red then none
      else s.setColor pChild .Black
    | none =>
      if s.m_pRoot = some child then some s
      else TreeSet.RemoveFixupExtraBlack s.fuel s child

/-- Branch `iCount == 2` of `TreeSet::Remove`: the predecessor's key is copied into
`pDelNode`, the predecessor's left child (if any) is linked to the predecessor's parent,
and the predecessor becomes the node to delete. -/
def TreeSet.removeTwoChildren (s : TreeSet) (pDelNode : Nat) (dn : TreeNode) :
    Option (TreeSet × Nat) := do
  let pPredecessor ← (← FindBiggestNodeLoop s.fuel s.heap dn.Left)
  let pred ← s.heap pPredecessor
  let s1 ← s.setData pDelNode pred.Data
  let pred1 ← s1.heap pPredecessor
  let s2 ← (match pred1.Left with
    | some pl => s1.ConnectPredecessorChildToParent pPredecessor pl
    | none => some s1)
  some (s2, pPredecessor)

/-- Branch `iCount == 1` of `TreeSet::Remove`: the only child is linked to the parent of
`pDelNode`, or becomes the root when there is no parent. -/
def TreeSet.removeOneChild (s : TreeSet) (pDelNode : Nat) (dn : TreeNode)
    (pChild : Option Nat) : Option (TreeSet × Nat) := do
  let pParent := dn.Parent
  let c ← pChild
  let s1 ← s.setParent c pParent
  let s2 ← (match pParent with
    | some par => do
      let pn ← s1.heap par
      if pn.Left = some pDelNode then s1.setLeft par pChild else s1.setRight par pChild
    | none => some { s1 with m_pRoot := pChild })
  some (s2, pDelNode)

/-- `TreeSet::Remove`: the returned flag and the tree afterwards. -/
def TreeSet.Remove (s : TreeSet) (data : Int) : Option (Bool × TreeSet) :=
  match s.FindNode data with
  | none => none
  | some none => some (false, s)
  | some (some pDelNode) => do
    let dn ← s.heap pDelNode
    let (pChild, iCount) := dn.AnyWithChildrenCount
    let (s1, pDel) ← (
      if iCount = 2 then s.removeTwoChildren pDelNode dn
      else if iCount = 1 then s.removeOneChild pDelNode dn pChild
      else some (s, pDelNode))
    let s2 ← s1.RemoveFixup pDel
    let s3 ← s2.DeleteNode pDel
    some (true, s3)

/-! ## Observers -/

/-- `TreeSet::CountRecursive`, the running total passed through. -/
def CountRecursive : Nat → Heap → Option Nat → Nat → Option Nat
  | 0, _, _, _ => none
  | _ + 1, _, none, count => some count
  | fuel + 1, h, some p, count => do
    let n ← h p
    let c1 ← CountRecursive fuel h n.Left (count + 1)
    CountRecursive fuel h n.Right c1

/-- `TreeSet::Count`. -/
def TreeSet.Count (s : TreeSet) : Option Nat :=
  CountRecursive s.fuel s.heap s.m_pRoot 0

/-- `TreeSet::GetMaxHeightRecursive`, the running maximum passed through. -/
def GetMaxHeightRecursive : Nat → Heap → Option Nat → Nat → Nat → Option Nat
  | 0, _, _, _, _ => none
  | _ + 1, _, none, height, maxHeight => some (max maxHeight height)
  | fuel + 1, h, some p, height, maxHeight => do
    let n ← h p
    let m1 ← GetMaxHeightRecursive fuel h n.Left (height + 1) maxHeight
    GetMaxHeightRecursive fuel h n.Right (height + 1) m1

/-- `TreeSet::GetMaxHeight`. -/
def TreeSet.GetMaxHeight (s : TreeSet) : Option Nat :=
  GetMaxHeightRecursive s.fuel s.heap s.m_pRoot 1 0

/-- In-order traversal of the nodes below a pointer: left subtree, node, right subtree. -/
def InOrderNodes : Nat → Heap → Option Nat → Option (List TreeNode)
  | 0, _, _ => none
  | _ + 1, _, none => some []
  | fuel + 1, h, some p => do
    let n ← h p
    let l ← InOrderNodes fuel h n.Left
    let r ← InOrderNodes fuel h n.Right
    some (l ++ n :: r)

/-- The in-order key sequence of the whole tree. -/
def TreeSet.InOrder (s : TreeSet) : Option (List Int) :=
  (InOrderNodes s.fuel s.heap s.m_pRoot).map (fun ns => ns.map (fun n => n.Data))

/-! ## Abstract picture of the heap

The pointer structure below `m_pRoot` is described by a finite tree that records, for
every node, its address, colour and key.  `Represents s T` says that the heap of `s`
contains exactly the cells this picture prescribes (parent links included); all
invariants of the red-black tree are phrased on the picture. -/

/-- Finite picture of the nodes below a pointer: address, colour, left, key, right. -/
inductive RBT where
  | nil
  | node (a : Nat) (c : TreeNodeColor) (l : RBT) (k : Int) (r : RBT)
  deriving Repr

namespace RBT

/-- Pointer to the root of the picture (null for the empty picture). -/
def ptr : RBT → Option Nat
  | nil => none
  | node a _ _ _ _ => some a

/-- Colour read through the pointer, an absent node counting as Black. -/
def color : RBT → TreeNodeColor
  | nil => .Black
  | node _ c _ _ _ => c

/-- Addresses in in-order. -/
def addrs : RBT → List Nat
  | nil => []
  | node a _ l _ r => l.addrs ++ a :: r.addrs

/-- Keys in in-order. -/
def keys : RBT → List Int
  | nil => []
  | node _ _ l k r => l.keys ++ k :: r.keys

/-- Key and colour of every node in in-order. -/
def keyColors : RBT → List (Int × TreeNodeColor)
  | nil => []
  | node _ c l k r => l.keyColors ++ (k, c) :: r.keyColors

/-- Number of nodes. -/
def size : RBT → Nat
  | nil => 0
  | node _ _ l _ r => l.size + 1 + r.size

/-- Number of nodes on the longest path from the root to a leaf. -/
def height : RBT → Nat
  | nil => 0
  | node _ _ l _ r => max l.height r.height + 1

/-- Number of Black nodes on the leftmost path down to an absent child. -/
def bh : RBT → Nat
  | nil => 0
  | node _ c l _ _ => l.bh + (if c = .Black then 1 else 0)

/-- At every node both subtrees have the same black count. -/
def Balanced : RBT → Prop
  | nil => True
  | node _ _ l _ r => l.bh = r.bh ∧ l.Balanced ∧ r.Balanced

/-- No Red node has a Red child. -/
def NoRedRed : RBT → Prop
  | nil => True
  | node _ c l _ r => (c = .Red → l.color = .Black ∧ r.color = .Black) ∧ l.NoRedRed ∧ r.NoRedRed

/-- Strict binary-search-tree order at every node:
keys on the left are smaller, keys on the right are larger. -/
def BST : RBT → Prop
  | nil => True
  | node _ _ l k r => (∀ x ∈ l.keys, x < k) ∧ (∀ x ∈ r.keys, k < x) ∧ l.BST ∧ r.BST

/-- The black counts of all paths from the root down to an absent-child position. -/
def pathBlacks : RBT → List Nat
  | nil => [0]
  | node _ c l _ r => (l.pathBlacks ++ r.pathBlacks).map (fun n => n + (if c = .Black then 1 else 0))

/-- The picture itself and the pictures below each of its nodes. -/
def subtrees : RBT → List RBT
  | nil => [nil]
  | node a c l k r => node a c l k r :: (l.subtrees ++ r.subtrees)

/-- Every node sees the same number of Black nodes on all its downward paths. -/
def UniformBlackHeight (t : RBT) : Prop :=
  ∀ u ∈ t.subtrees, ∀ x ∈ u.pathBlacks, ∀ y ∈ u.pathBlacks, x = y

/-- The red-black invariants of the spec: Black root, no Red-Red, uniform black-height. -/
def RedBlack (t : RBT) : Prop :=
  t.color = .Black ∧ t.NoRedRed ∧ t.Balanced

end RBT

/-- The cells below pointer `t.ptr` are laid out as the picture `t`, the root of the
picture having `par` in its `Parent` field. -/
def Layout (h : Heap) : Option Nat → RBT → Prop
  | _, .nil => True
  | par, .node a c l k r =>
    h a = some ⟨k, c, par, l.ptr, r.ptr⟩ ∧ Layout h (some a) l ∧ Layout h (some a) r

/-- The state `s` holds the tree pictured by `T`: `m_pRoot` points to its root, the
cells are laid out as pictured with consistent parent links, no address occurs twice
and all addresses have been handed out by `new`. -/
structure Represents (s : TreeSet) (T : RBT) : Prop where
  root : s.m_pRoot = T.ptr
  rep : Layout s.heap none T
  nodup : T.addrs.Nodup
  bound : ∀ a ∈ T.addrs, a < s.fresh

/-- One step of a path from a node up to the root: the node above the hole with the
subtree on its other side. -/
inductive Frame where
  | left (a : Nat) (c : TreeNodeColor) (k : Int) (r : RBT)
  | right (a : Nat) (c : TreeNodeColor) (l : RBT) (k : Int)

namespace Frame

/-- Put a subtree into the hole of the frame. -/
def fill : Frame → RBT → RBT
  | left a c k r, t => .node a c t k r
  | right a c l k, t => .node a c l k t

/-- Address of the node of the frame. -/
def addr : Frame → Nat
  | left a _ _ _ => a
  | right a _ _ _ => a

/-- Colour of the node of the frame. -/
def color : Frame → TreeNodeColor
  | left _ c _ _ => c
  | right _ c _ _ => c

/-- The subtree on the other side of the hole. -/
def sib : Frame → RBT
  | left _ _ _ r => r
  | right _ _ l _ => l

/-- Whether the hole is the left child. -/
def isLeft : Frame → Bool
  | left _ _ _ _ => true
  | right _ _ _ _ => false

/-- The frame with another colour. -/
def setColor : Frame → TreeNodeColor → Frame
  | left a _ k r, c => left a c k r
  | right a _ l k, c => right a c l k

/-- The frame with another subtree on the other side of the hole. -/
def setSib : Frame → RBT → Frame
  | left a c k _, t => left a c k t
  | right a c _ k, t => right a c t k

end Frame

/-- Close a path (innermost frame first) around a subtree. -/
def plug : List Frame → RBT → RBT
  | [], t => t
  | f :: fs, t => plug fs (f.fill t)

/-- Pointer to the node right above the hole (null when the hole is the root). -/
def ctxPtr : List Frame → Option Nat
  | [] => none
  | f :: _ => some f.addr

/-- Addresses of a path: its nodes and everything in the subtrees hanging off it. -/
def ctxAddrs : List Frame → List Nat
  | [] => []
  | f :: fs => f.addr :: (f.sib.addrs ++ ctxAddrs fs)

/-- The cells of a path are laid out as pictured, the hole being the pointer `p`. -/
def PathLayout (h : Heap) : List Frame → Option Nat → Prop
  | [], _ => True
  | .left a c k r :: fs, p =>
    h a = some ⟨k, c, ctxPtr fs, p, r.ptr⟩ ∧ Layout h (some a) r ∧ PathLayout h fs (some a)
  | .right a c l k :: fs, p =>
    h a = some ⟨k, c, ctxPtr fs, l.ptr, p⟩ ∧ Layout h (some a) l ∧ PathLayout h fs (some a)

/-- The state holds `plug ctx t`, seen from the subtree `t`. -/
structure Focus (s : TreeSet) (fs : List Frame) (t : RBT) : Prop where
  root : s.m_pRoot = (plug fs t).ptr
  path : PathLayout s.heap fs t.ptr
  sub : Layout s.heap (ctxPtr fs) t
  nodup : (ctxAddrs fs ++ t.addrs).Nodup
  bound : ∀ a ∈ ctxAddrs fs ++ t.addrs, a < s.fresh

/-! ## Invariants seen along a path -/

/-- Colour of the node right above the hole (Black when the hole is the root). -/
def ctxColor : List Frame → TreeNodeColor
  | [] => .Black
  | f :: _ => f.color

/-- Colour of the root of `plug fs t` when `t` has colour `c`. -/
def rootColor : List Frame → TreeNodeColor → TreeNodeColor
  | [], c => c
  | f :: fs, _ => rootColor fs f.color

/-- The path is balanced around a hole whose subtree has black count `n`. -/
def PathBalanced : List Frame → Nat → Prop
  | [], _ => True
  | f :: fs, n =>
    f.sib.bh = n ∧ f.sib.Balanced ∧ PathBalanced fs (n + (if f.color = .Black then 1 else 0))

/-- No Red node of the path has a Red parent or a Red child off the path. -/
def PathNoRedRed : List Frame → Prop
  | [] => True
  | f :: fs =>
    f.sib.NoRedRed ∧ (f.color = .Red → f.sib.color = .Black ∧ ctxColor fs = .Black) ∧
      PathNoRedRed fs

/-- Keys that come before the hole in in-order. -/
def ctxKeysBefore : List Frame → List Int
  | [] => []
  | .left _ _ _ _ :: fs => ctxKeysBefore fs
  | .right _ _ l k :: fs => ctxKeysBefore fs ++ (l.keys ++ [k])

/-- Keys that come after the hole in in-order. -/
def ctxKeysAfter : List Frame → List Int
  | [] => []
  | .left _ _ k r :: fs => (k :: r.keys) ++ ctxKeysAfter fs
  | .right _ _ _ _ :: fs => ctxKeysAfter fs

/-- Number of nodes on the path and in the subtrees hanging off it. -/
def ctxSize : List Frame → Nat
  | [] => 0
  | f :: fs => f.sib.size + 1 + ctxSize fs

namespace Frame

/-- The heap cell of the node of a frame, given the hole pointer and the parent pointer. -/
def cell : Frame → Option Nat → Option Nat → TreeNode
  | left _ c k r, hole, par => ⟨k, c, par, hole, r.ptr⟩
  | right _ c l k, hole, par => ⟨k, c, par, l.ptr, hole⟩

/-- The frame seen from the other child: the hole and the subtree change places. -/
def swap : Frame → RBT → Frame
  | left a c k _, t => right a c t k
  | right a c _ k, t => left a c k t

end Frame

/-- The comparisons `FindParentDataInserted` made on its way down to the hole:
right where `data > key`, left otherwise. -/
def InsertPath (k : Int) : List Frame → Prop
  | [] => True
  | .left _ _ kk _ :: fs => k ≤ kk ∧ InsertPath k fs
  | .right _ _ _ kk :: fs => kk < k ∧ InsertPath k fs

/-- The comparisons `FindNode` made on its way down: no key on the path equals `data`. -/
def SearchPath (k : Int) : List Frame → Prop
  | [] => True
  | .left _ _ kk _ :: fs => k < kk ∧ SearchPath k fs
  | .right _ _ _ kk :: fs => kk < k ∧ SearchPath k fs

/-! ## Runs of the public operations -/

/-- The trees that can be built: start from the empty `TreeSet` and apply `Insert` and
`Remove` calls that return. -/
inductive Reachable : TreeSet → Prop where
  | empty : Reachable TreeSet.empty
  | insert {s s1 : TreeSet} {b : Bool} (k : Int) :
      Reachable s → s.Insert k = some (b, s1) → Reachable s1
  | remove {s s1 : TreeSet} {b : Bool} (k : Int) :
      Reachable s → s.Remove k = some (b, s1) → Reachable s1

/-- The key 1 inserted into the empty tree. -/
def exampleOne : Option (Bool × TreeSet) := TreeSet.empty.Insert 1

/-- The key 1 inserted a second time. -/
def exampleOneOne : Option (Bool × TreeSet) := exampleOne.bind (fun r => r.2.Insert 1)

/-- The key 1 inserted twice and removed once. -/
def exampleOneOneRemoved : Option (Bool × TreeSet) := exampleOneOne.bind (fun r => r.2.Remove 1)

/-- The state after `Insert(1); Insert(1)` (the empty state should a call fail). -/
def exampleState : TreeSet :=
  match exampleOneOne with
  | some r => r.2
  | none => TreeSet.empty

/-- The root cell, if there is one, is Black. -/
def TreeSet.RootIsBlack (s : TreeSet) : Prop :=
  ∀ r n, s.m_pRoot = some r → s.heap r = some n → n.Color = .Black

/-- The cell at `a`, if it is Red, has no Red cell behind its `Parent` pointer. -/
def TreeSet.NoRedParentOfRed (s : TreeSet) (a : Nat) : Prop :=
  ∀ n p pn, s.heap a = some n → n.Parent = some p → s.heap p = some pn →
    n.Color = .Red → pn.Color = .Black

/-- A three-node tree on the heap: Black 2 at address 0 with the Red children 1 and 3
at addresses 1 and 2. -/
def witnessState : TreeSet where
  heap := fun q =>
    if q = 0 then some ⟨2, .Black, none, some 1, some 2⟩
    else if q = 1 then some ⟨1, .Red, some 0, none, none⟩
    else if q = 2 then some ⟨3, .Red, some 0, none, none⟩
    else none
  m_pRoot := some 0
  fresh := 3

/-- The picture of `witnessState`. -/
def witnessTree : RBT :=
  .node 0 .Black (.node 1 .Red .nil 1 .nil) 2 (.node 2 .Red .nil 3 .nil)

namespace Frame

/-- A frame on the same side as `f`, for another node. -/
def like : Frame → Nat → TreeNodeColor → Int → RBT → Frame
  | left _ _ _ _, a, c, k, t => left a c k t
  | right _ _ _ _, a, c, k, t => right a c t k

/-- The sibling of the hole of `f`, built from its two children: `near` is the child on
the side of the hole (the "tri" nephew), `far` the other one (the "line" nephew). -/
def sibNode : Frame → Nat → TreeNodeColor → Int → RBT → RBT → RBT
  | left _ _ _ _, a, c, k, near, far => .node a c near k far
  | right _ _ _ _, a, c, k, near, far => .node a c far k near

end Frame

/-- One call of the public interface. -/
inductive Op where
  | insert (k : Int)
  | remove (k : Int)

/-- Run a sequence of calls; besides the final state the number of `Insert` calls and of
`Remove` calls that returned `true` is reported. -/
def runOps : TreeSet → List Op → Option (TreeSet × Nat × Nat)
  | s, [] => some (s, 0, 0)
  | s, .insert k :: ops => do
    let (b, s1) ← s.Insert k
    let (s2, ni, nr) ← runOps s1 ops
    some (s2, ni + (if b then 1 else 0), nr)
  | s, .remove k :: ops => do
    let (b, s1) ← s.Remove k
    let (s2, ni, nr) ← runOps s1 ops
    some (s2, ni, nr + (if b then 1 else 0))

/-- Four keys inserted and the key 1 removed: the removed node is a Black leaf, so the
removal goes through the double-black repair. -/
def exampleRepair : Option (TreeSet × Nat × Nat) :=
  runOps TreeSet.empty [.insert 1, .insert 2, .insert 3, .insert 4, .remove 1]

/-- The state `exampleRepair` ends in (the empty state should a call fail). -/
def exampleRepairState : TreeSet :=
  match exampleRepair with
  | some r => r.1
  | none => TreeSet.empty

/-- The path `fs1` repairs the path `fs`: whatever balanced Black subtree of black count
`n` is put into the hole, `plug fs1` yields a red-black tree with the keys and the size
of `plug fs`. -/
def Repairs (fs fs1 : List Frame) (n : Nat) : Prop :=
  ∀ Y : RBT, Y.Balanced → Y.NoRedRed → Y.color = .Black → Y.bh = n →
    (plug fs1 Y).RedBlack ∧ (plug fs1 Y).keys = (plug fs Y).keys ∧
      (plug fs1 Y).size = (plug fs Y).size

/-! ## Further runs, observers and concrete states -/

/-- `Insert` called for every key of a list in turn (the loops of `main` and of
`DbgGenerateTreeWithString`); the returned flags are dropped, as they are there. -/
def insertAll : TreeSet → List Int → Option TreeSet
  | s, [] => some s
  | s, k :: ks => do
    let r ← s.Insert k
    insertAll r.2 ks

/-- `Remove` called for every key of a list in turn (the loop of `DbgRemoveWithString`):
the final state, and the flag and the state after every single call. -/
def removeEach : TreeSet → List Int → Option (TreeSet × List (Bool × TreeSet))
  | s, [] => some (s, [])
  | s, k :: ks => do
    let r ← s.Remove k
    let (sEnd, rest) ← removeEach r.2 ks
    some (sEnd, r :: rest)

/-- The keys `0, 1, ..., n-1` in ascending order, as the loop
`for (int i = 0; i < 16; ++i) set.Insert(i)` of `main` produces them for `n = 16`. -/
def ascendingKeys (n : Nat) : List Int := (List.range n).map (fun (i : Nat) => (i : Int))

/-- The keys of `DbgGenerateTreeWithString` in `main`. -/
def testInsertKeys : List Int := [9, 7, 0, 15, 14, 12, 3, 13, 1, 10, 6, 2, 4, 5, 8, 11]

/-- The keys of `DbgRemoveWithString` in `main`. -/
def testRemoveKeys : List Int := [10, 15, 14, 0, 1, 9, 6, 4, 11, 13, 5, 3, 8, 2, 12, 7]

/-- The in-order sequence of (key, colour) pairs of the whole tree. -/
def TreeSet.InOrderColored (s : TreeSet) : Option (List (Int × TreeNodeColor)) :=
  (InOrderNodes s.fuel s.heap s.m_pRoot).map (fun ns => ns.map (fun n => (n.Data, n.Color)))

/-- The statements of `RemoveFixupExtraBlack` in its case "parent Black, sibling Red", up
to the recursive call: the parent becomes Red, the sibling Black, and the parent is
rotated toward `child`. -/
def TreeSet.siblingRedStep (s : TreeSet) (child : Nat) : Option TreeSet := do
  let bRightChild ← s.IsRight child
  let f ← s.family child
  let s1 ← s.setColor f.Parent .Red
  let s2 ← s1.setColor f.Sibling .Black
  s2.RotateNode f.Parent (if bRightChild then .LL else .RR)

/-- The tree the inserts `0, 1, ..., 5` build, key `i` at address `i`: the Black leaf 0
has the Black parent 1 and the Red sibling 3. -/
def siblingRedState : TreeSet where
  heap := fun q =>
    if q = 0 then some ⟨0, .Black, some 1, none, none⟩
    else if q = 1 then some ⟨1, .Black, none, some 0, some 3⟩
    else if q = 2 then some ⟨2, .Black, some 3, none, none⟩
    else if q = 3 then some ⟨3, .Red, some 1, some 2, some 4⟩
    else if q = 4 then some ⟨4, .Black, some 3, none, some 5⟩
    else if q = 5 then some ⟨5, .Red, some 4, none, none⟩
    else none
  m_pRoot := some 1
  fresh := 6

/-- The picture of `siblingRedState`. -/
def siblingRedTree : RBT :=
  .node 1 .Black (.node 0 .Black .nil 0 .nil) 1
    (.node 3 .Red (.node 2 .Black .nil 2 .nil) 3
      (.node 4 .Black .nil 4 (.node 5 .Red .nil 5 .nil)))

/-- The same tree, built by the calls `Insert(0)`, ..., `Insert(5)`. -/
def exampleSiblingRed : Option TreeSet := insertAll TreeSet.empty (ascendingKeys 6)

/-- A heap that is not a red-black tree: the Black root 2 has the Black leaf 1 as its
only child. -/
def faultyState : TreeSet where
  heap := fun q =>
    if q = 0 then some ⟨2, .Black, none, some 1, none⟩
    else if q = 1 then some ⟨1, .Black, some 0, none, none⟩
    else none
  m_pRoot := some 0
  fresh := 2

/-! ## Basic facts about pictures, paths and layouts -/

@[simp] theorem Heap.write_same (h : Heap) (p : Nat) (n : TreeNode) : h.write p n p = some n := by
  simp [Heap.write]

theorem Heap.write_other (h : Heap) {p q : Nat} (n : TreeNode) (hne : q ≠ p) :
    h.write p n q = h q := by
  simp [Heap.write, hne]

theorem Layout_congr {h h1 : Heap} : ∀ {t : RBT} {par : Option Nat},
    (∀ x ∈ t.addrs, h1 x = h x) → Layout h par t → Layout h1 par t
  | .nil, _, _, _ => trivial
  | .node a c l k r, par, hx, hl => by
    simp only [Layout] at hl ⊢
    refine ⟨?_, Layout_congr (fun x hm => hx x ?_) hl.2.1, Layout_congr (fun x hm => hx x ?_) hl.2.2⟩
    · rw [hx a (by simp [RBT.addrs])]; exact hl.1
    · simp [RBT.addrs, hm]
    · simp [RBT.addrs, hm]

theorem PathLayout_congr {h h1 : Heap} : ∀ {fs : List Frame} {p : Option Nat},
    (∀ x ∈ ctxAddrs fs, h1 x = h x) → PathLayout h fs p → PathLayout h1 fs p
  | [], _, _, _ => trivial
  | .left a c k r :: fs, p, hx, hl => by
    simp only [PathLayout] at hl ⊢
    refine ⟨?_, Layout_congr (fun x hm => hx x ?_) hl.2.1,
      PathLayout_congr (fun x hm => hx x ?_) hl.2.2⟩
    · rw [hx a (by simp [ctxAddrs, Frame.addr])]; exact hl.1
    · simp [ctxAddrs, Frame.sib, hm]
    · simp [ctxAddrs, hm]
  | .right a c l k :: fs, p, hx, hl => by
    simp only [PathLayout] at hl ⊢
    refine ⟨?_, Layout_congr (fun x hm => hx x ?_) hl.2.1,
      PathLayout_congr (fun x hm => hx x ?_) hl.2.2⟩
    · rw [hx a (by simp [ctxAddrs, Frame.addr])]; exact hl.1
    · simp [ctxAddrs, Frame.sib, hm]
    · simp [ctxAddrs, hm]

theorem Layout_plug {h : Heap} : ∀ (fs : List Frame) {t : RBT},
    Layout h none (plug fs t) ↔ PathLayout h fs t.ptr ∧ Layout h (ctxPtr fs) t
  | [], t => by simp [plug, PathLayout, ctxPtr]
  | .left a c k r :: fs, t => by
    simp only [plug, Frame.fill, PathLayout, ctxPtr, Frame.addr]
    rw [Layout_plug fs]
    simp only [Layout, RBT.ptr]
    tauto
  | .right a c l k :: fs, t => by
    simp only [plug, Frame.fill, PathLayout, ctxPtr, Frame.addr]
    rw [Layout_plug fs]
    simp only [Layout, RBT.ptr]
    tauto

theorem addrs_plug_perm : ∀ (fs : List Frame) (t : RBT),
    (plug fs t).addrs.Perm (ctxAddrs fs ++ t.addrs)
  | [], t => by simp [plug, ctxAddrs]
  | .left a c k r :: fs, t => by
    simp only [plug, Frame.fill, ctxAddrs, Frame.addr, Frame.sib]
    refine (addrs_plug_perm fs _).trans ?_
    simp only [RBT.addrs]
    refine List.perm_iff_count.2 (fun x => ?_)
    simp only [List.count_append, List.count_cons]
    omega
  | .right a c l k :: fs, t => by
    simp only [plug, Frame.fill, ctxAddrs, Frame.addr, Frame.sib]
    refine (addrs_plug_perm fs _).trans ?_
    simp only [RBT.addrs]
    refine List.perm_iff_count.2 (fun x => ?_)
    simp only [List.count_append, List.count_cons]
    omega

theorem addrs_plug_congr : ∀ (fs : List Frame) {t u : RBT},
    t.addrs = u.addrs → (plug fs t).addrs = (plug fs u).addrs
  | [], _, _, h => h
  | .left a c k r :: fs, t, u, h => by
    simp only [plug, Frame.fill]
    exact addrs_plug_congr fs (by simp [RBT.addrs, h])
  | .right a c l k :: fs, t, u, h => by
    simp only [plug, Frame.fill]
    exact addrs_plug_congr fs (by simp [RBT.addrs, h])

theorem keys_plug_congr : ∀ (fs : List Frame) {t u : RBT},
    t.keys = u.keys → (plug fs t).keys = (plug fs u).keys
  | [], _, _, h => h
  | .left a c k r :: fs, t, u, h => by
    simp only [plug, Frame.fill]
    exact keys_plug_congr fs (by simp [RBT.keys, h])
  | .right a c l k :: fs, t, u, h => by
    simp only [plug, Frame.fill]
    exact keys_plug_congr fs (by simp [RBT.keys, h])

theorem size_plug_congr : ∀ (fs : List Frame) {t u : RBT},
    t.size = u.size → (plug fs t).size = (plug fs u).size
  | [], _, _, h => h
  | .left a c k r :: fs, t, u, h => by
    simp only [plug, Frame.fill]
    exact size_plug_congr fs (by simp [RBT.size, h])
  | .right a c l k :: fs, t, u, h => by
    simp only [plug, Frame.fill]
    exact size_plug_congr fs (by simp [RBT.size, h])

/-- The root pointer of a non-trivial path does not depend on what is in the hole. -/
theorem ptr_plug_cons : ∀ (fs : List Frame) (f : Frame) (t u : RBT),
    (plug (f :: fs) t).ptr = (plug (f :: fs) u).ptr
  | [], f, t, u => by cases f <;> rfl
  | g :: fs, f, t, u => by
    simp only [plug]
    exact ptr_plug_cons fs g _ _

theorem ptr_plug_cons_mem : ∀ (fs : List Frame) (f : Frame) (t : RBT),
    ∃ x ∈ ctxAddrs (f :: fs), (plug (f :: fs) t).ptr = some x
  | [], f, t => by cases f <;> exact ⟨_, by simp [ctxAddrs, Frame.addr], rfl⟩
  | g :: fs, f, t => by
    obtain ⟨x, hx, he⟩ := ptr_plug_cons_mem fs g (f.fill t)
    exact ⟨x, by simp only [ctxAddrs, List.mem_cons, List.mem_append] at hx ⊢; tauto, he⟩

theorem Focus.represents {s : TreeSet} {fs : List Frame} {t : RBT} (h : Focus s fs t) :
    Represents s (plug fs t) where
  root := h.root
  rep := (Layout_plug fs).2 ⟨h.path, h.sub⟩
  nodup := (addrs_plug_perm fs t).nodup_iff.2 h.nodup
  bound := fun a ha => h.bound a ((addrs_plug_perm fs t).mem_iff.1 ha)

theorem Represents.focus {s : TreeSet} (fs : List Frame) {t : RBT}
    (h : Represents s (plug fs t)) : Focus s fs t where
  root := h.root
  path := ((Layout_plug fs).1 h.rep).1
  sub := ((Layout_plug fs).1 h.rep).2
  nodup := (addrs_plug_perm fs t).nodup_iff.1 h.nodup
  bound := fun a ha => h.bound a ((addrs_plug_perm fs t).mem_iff.2 ha)

theorem Focus.up {s : TreeSet} {f : Frame} {fs : List Frame} {t : RBT}
    (h : Focus s (f :: fs) t) : Focus s fs (f.fill t) :=
  Represents.focus fs h.represents

theorem Focus.down {s : TreeSet} {f : Frame} {fs : List Frame} {t : RBT}
    (h : Focus s fs (f.fill t)) : Focus s (f :: fs) t :=
  Represents.focus (f :: fs) h.represents

theorem Focus.heap_node {s : TreeSet} {fs : List Frame} {a c l k r}
    (h : Focus s fs (.node a c l k r)) :
    s.heap a = some ⟨k, c, ctxPtr fs, l.ptr, r.ptr⟩ := h.sub.1

theorem Focus.heap_left {s : TreeSet} {fs : List Frame} {t : RBT} {a c k r}
    (h : Focus s (.left a c k r :: fs) t) :
    s.heap a = some ⟨k, c, ctxPtr fs, t.ptr, r.ptr⟩ := h.path.1

theorem Focus.heap_right {s : TreeSet} {fs : List Frame} {t : RBT} {a c l k}
    (h : Focus s (.right a c l k :: fs) t) :
    s.heap a = some ⟨k, c, ctxPtr fs, l.ptr, t.ptr⟩ := h.path.1

/-- The root pointer is the focused node exactly when the path is empty. -/
theorem Focus.root_iff {s : TreeSet} {fs : List Frame} {a c l k r}
    (h : Focus s fs (.node a c l k r)) : s.m_pRoot = some a ↔ fs = [] := by
  constructor
  · intro hr
    cases fs with
    | nil => rfl
    | cons f fs =>
      exfalso
      obtain ⟨x, hx, he⟩ := ptr_plug_cons_mem fs f (.node a c l k r)
      have hxa : x = a := by
        have := h.root; rw [he, hr] at this; exact (Option.some.inj this).symm
      have hnd := h.nodup
      rw [List.nodup_append] at hnd
      exact hnd.2.2 hx (by simp [RBT.addrs, hxa])
  · rintro rfl
    exact h.root

@[simp] theorem RBT.ptr_nil : RBT.nil.ptr = none := rfl
@[simp] theorem RBT.ptr_node (a c l k r) : (RBT.node a c l k r).ptr = some a := rfl
@[simp] theorem RBT.color_nil : RBT.nil.color = .Black := rfl
@[simp] theorem RBT.color_node (a c l k r) : (RBT.node a c l k r).color = c := rfl
@[simp] theorem Frame.fill_left (a c k r t) : (Frame.left a c k r).fill t = .node a c t k r := rfl
@[simp] theorem Frame.fill_right (a c l k t) : (Frame.right a c l k).fill t = .node a c l k t := rfl
@[simp] theorem Frame.addr_left (a c k r) : (Frame.left a c k r).addr = a := rfl
@[simp] theorem Frame.addr_right (a c l k) : (Frame.right a c l k).addr = a := rfl
@[simp] theorem Frame.color_left (a c k r) : (Frame.left a c k r).color = c := rfl
@[simp] theorem Frame.color_right (a c l k) : (Frame.right a c l k).color = c := rfl
@[simp] theorem Frame.sib_left (a c k r) : (Frame.left a c k r).sib = r := rfl
@[simp] theorem Frame.sib_right (a c l k) : (Frame.right a c l k).sib = l := rfl
@[simp] theorem ctxPtr_nil : ctxPtr [] = none := rfl
@[simp] theorem ctxPtr_cons (f fs) : ctxPtr (f :: fs) = some f.addr := rfl
@[simp] theorem plug_nil (t) : plug [] t = t := rfl
@[simp] theorem plug_cons (f fs t) : plug (f :: fs) t = plug fs (f.fill t) := rfl

theorem RBT.ptr_mem {t : RBT} {x : Nat} (h : t.ptr = some x) : x ∈ t.addrs := by
  cases t with
  | nil => simp at h
  | node a c l k r =>
    simp only [RBT.ptr_node, Option.some.injEq] at h
    simp [RBT.addrs, h]

theorem RBT.ptr_ne {t : RBT} {x : Nat} (h : x ∉ t.addrs) : t.ptr ≠ some x :=
  fun he => h (RBT.ptr_mem he)

/-! ## Heap-level effect of the primitive mutations -/

theorem Layout_write {h : Heap} {t : RBT} {par : Option Nat} {a : Nat} {n : TreeNode}
    (ha : a ∉ t.addrs) : Layout (h.write a n) par t ↔ Layout h par t :=
  ⟨Layout_congr (fun x hx => by
      rw [Heap.write_other]; rintro rfl; exact ha hx),
   Layout_congr (fun x hx => by
      rw [Heap.write_other]; rintro rfl; exact ha hx)⟩

theorem PathLayout_write {h : Heap} {fs : List Frame} {p : Option Nat} {a : Nat} {n : TreeNode}
    (ha : a ∉ ctxAddrs fs) : PathLayout (h.write a n) fs p ↔ PathLayout h fs p :=
  ⟨PathLayout_congr (fun x hx => by
      rw [Heap.write_other]; rintro rfl; exact ha hx),
   PathLayout_congr (fun x hx => by
      rw [Heap.write_other]; rintro rfl; exact ha hx)⟩

theorem ptr_plug_same : ∀ (fs : List Frame) {t u : RBT},
    t.ptr = u.ptr → (plug fs t).ptr = (plug fs u).ptr
  | [], _, _, h => h
  | f :: fs, t, u, _ => ptr_plug_cons fs f t u

theorem PathLayout_hole {h : Heap} {f : Frame} {fs : List Frame} {p : Option Nat} :
    PathLayout h (f :: fs) p → PathLayout h fs (some f.addr) := by
  cases f <;> exact fun hl => hl.2.2

/-- Recolouring the focused node. -/
theorem Focus.setColor {s : TreeSet} {fs : List Frame} {a c l k r}
    (h : Focus s fs (.node a c l k r)) (c1 : TreeNodeColor) :
    ∃ s1, s.setColor a c1 = some s1 ∧ Focus s1 fs (.node a c1 l k r) ∧ s1.fresh = s.fresh ∧
      s1.m_pRoot = s.m_pRoot ∧ ∀ x, x ≠ a → s1.heap x = s.heap x := by
  have ha := h.heap_node
  have hnd := h.nodup
  simp only [RBT.addrs, List.nodup_append, List.nodup_cons, List.mem_append, List.mem_cons,
    List.disjoint_append_right, List.disjoint_cons_right, List.disjoint_append_left,
    List.disjoint_cons_left, not_or] at hnd
  refine ⟨{ s with heap := s.heap.write a ⟨k, c1, ctxPtr fs, l.ptr, r.ptr⟩ },
    by simp only [TreeSet.setColor, ha], ⟨?_, ?_, ?_, ?_, ?_⟩, rfl, rfl, ?_⟩
  · exact h.root.trans (ptr_plug_same fs rfl)
  · exact (PathLayout_write (by tauto)).2 h.path
  · have hs := h.sub
    simp only [Layout] at hs ⊢
    exact ⟨by simp, (Layout_write (by tauto)).2 hs.2.1, (Layout_write (by tauto)).2 hs.2.2⟩
  · exact h.nodup
  · exact h.bound
  · intro x hx
    exact Heap.write_other _ _ hx

theorem TreeSet.setLeft_eq {s : TreeSet} {p : Nat} {n : TreeNode} (v : Option Nat)
    (h : s.heap p = some n) :
    s.setLeft p v = some { s with heap := s.heap.write p { n with Left := v } } := by
  simp only [TreeSet.setLeft, h]

theorem TreeSet.setRight_eq {s : TreeSet} {p : Nat} {n : TreeNode} (v : Option Nat)
    (h : s.heap p = some n) :
    s.setRight p v = some { s with heap := s.heap.write p { n with Right := v } } := by
  simp only [TreeSet.setRight, h]

theorem TreeSet.setParent_eq {s : TreeSet} {p : Nat} {n : TreeNode} (v : Option Nat)
    (h : s.heap p = some n) :
    s.setParent p v = some { s with heap := s.heap.write p { n with Parent := v } } := by
  simp only [TreeSet.setParent, h]

set_option maxHeartbeats 2000000 in
/-- Effect of `RotateLL` on the focused node. -/
theorem Focus.rotateLL {s : TreeSet} {fs : List Frame} {a c b cb l1 kb r1 ka r}
    (h : Focus s fs (.node a c (.node b cb l1 kb r1) ka r)) :
    ∃ s1, s.RotateLL a = some s1 ∧ Focus s1 fs (.node b cb l1 kb (.node a c r1 ka r)) ∧
      s1.fresh = s.fresh := by
  have ha := h.heap_node
  have hb := (Focus.down (f := .left a c ka r) h).heap_node
  have hroot := h.root_iff
  have hnd := h.nodup
  have hbd := h.bound
  have hsub := h.sub
  have hpath := h.path
  have hr := h.root
  have hnd2 : (ctxAddrs fs ++ (RBT.node b cb l1 kb (.node a c r1 ka r)).addrs).Nodup := by
    have : (RBT.node b cb l1 kb (.node a c r1 ka r)).addrs
        = (RBT.node a c (.node b cb l1 kb r1) ka r).addrs := by simp [RBT.addrs]
    rw [this]; exact hnd
  have hbd2 : ∀ x ∈ ctxAddrs fs ++ (RBT.node b cb l1 kb (.node a c r1 ka r)).addrs,
      x < s.fresh := by
    have : (RBT.node b cb l1 kb (.node a c r1 ka r)).addrs
        = (RBT.node a c (.node b cb l1 kb r1) ka r).addrs := by simp [RBT.addrs]
    rw [this]; exact hbd
  rcases fs with _ | ⟨f, fs⟩
  · rcases r1 with _ | ⟨c1, cc, l2, k2, r2⟩
    all_goals
      simp only [RBT.addrs, ctxAddrs, List.nodup_append, List.nodup_cons, List.mem_append,
        List.mem_cons, List.disjoint_append_right, List.disjoint_cons_right,
        List.disjoint_append_left, List.disjoint_cons_left, not_or] at hnd
      try simp only [@eq_comm Nat] at hnd
      simp only [Layout, RBT.ptr_node, RBT.ptr_nil, ctxPtr_nil, ctxPtr_cons, Frame.addr_left]
        at hsub ha hb
      simp only [TreeSet.RotateLL, ha, hb, hsub, TreeSet.setParent, TreeSet.setLeft, TreeSet.setRight,
          Heap.write, hroot, hr, @eq_comm Nat, hnd, Option.bind_eq_bind,
          Option.some_bind, Option.some.injEq, ite_true, ite_false, if_true, if_false,
          exists_eq_left', reduceCtorEq, not_false_eq_true, plug_nil, RBT.ptr_node, and_true]
      refine ⟨rfl, trivial, ?_, hnd2, hbd2⟩
      simp [Layout, Heap.write, Layout_write, hnd, hsub, @eq_comm Nat]
  · have hr2 : s.m_pRoot = (plug (f :: fs) (.node b cb l1 kb (.node a c r1 ka r))).ptr :=
      hr.trans (ptr_plug_cons _ _ _ _)
    have hsp : ¬ f.sib.ptr = some a := by
      refine RBT.ptr_ne (fun hm => ?_)
      have hd := (List.nodup_append.1 hnd).2.2
      exact hd (a := a) (by simp [ctxAddrs, hm]) (by simp [RBT.addrs])
    rcases f with ⟨p, pc, pk, pr⟩ | ⟨p, pc, pl, pk⟩ <;> rcases r1 with _ | ⟨c1, cc, l2, k2, r2⟩
    all_goals
      simp only [RBT.addrs, ctxAddrs, List.nodup_append, List.nodup_cons, List.mem_append,
        List.mem_cons, List.disjoint_append_right, List.disjoint_cons_right,
        List.disjoint_append_left, List.disjoint_cons_left, not_or, Frame.addr_left,
        Frame.addr_right, Frame.sib_left, Frame.sib_right] at hnd hsp
      try simp only [@eq_comm Nat] at hnd
      simp only [Layout, PathLayout, RBT.ptr_node, RBT.ptr_nil, ctxPtr_nil, ctxPtr_cons,
        Frame.addr_left, Frame.addr_right] at hsub ha hb hpath
      simp only [TreeSet.RotateLL, ha, hb, hsub, hpath, TreeSet.setParent, TreeSet.setLeft,
          TreeSet.setRight, Heap.write, hroot, @eq_comm Nat, hnd, hsp, Option.bind_eq_bind,
          Option.some_bind, Option.some.injEq, ite_true, ite_false, if_true, if_false,
          exists_eq_left', reduceCtorEq, not_false_eq_true, and_true]
      refine ⟨hr2, ?_, ?_, hnd2, hbd2⟩
      · simp [PathLayout, Heap.write, Layout_write, PathLayout_write, hnd, hpath, @eq_comm Nat]
      · simp [Layout, Heap.write, Layout_write, hnd, hsub, @eq_comm Nat]

set_option maxHeartbeats 2000000 in
/-- Effect of `RotateRR` on the focused node. -/
theorem Focus.rotateRR {s : TreeSet} {fs : List Frame} {a c b cb l1 kb r1 ka l}
    (h : Focus s fs (.node a c l ka (.node b cb l1 kb r1))) :
    ∃ s1, s.RotateRR a = some s1 ∧ Focus s1 fs (.node b cb (.node a c l ka l1) kb r1) ∧
      s1.fresh = s.fresh := by
  have ha := h.heap_node
  have hb := (Focus.down (f := .right a c l ka) h).heap_node
  have hroot := h.root_iff
  have hnd := h.nodup
  have hbd := h.bound
  have hsub := h.sub
  have hpath := h.path
  have hr := h.root
  have hnd2 : (ctxAddrs fs ++ (RBT.node b cb (.node a c l ka l1) kb r1).addrs).Nodup := by
    have : (RBT.node b cb (.node a c l ka l1) kb r1).addrs
        = (RBT.node a c l ka (.node b cb l1 kb r1)).addrs := by simp [RBT.addrs]
    rw [this]; exact hnd
  have hbd2 : ∀ x ∈ ctxAddrs fs ++ (RBT.node b cb (.node a c l ka l1) kb r1).addrs,
      x < s.fresh := by
    have : (RBT.node b cb (.node a c l ka l1) kb r1).addrs
        = (RBT.node a c l ka (.node b cb l1 kb r1)).addrs := by simp [RBT.addrs]
    rw [this]; exact hbd
  rcases fs with _ | ⟨f, fs⟩
  · rcases l1 with _ | ⟨c1, cc, l2, k2, r2⟩
    all_goals
      simp only [RBT.addrs, ctxAddrs, List.nodup_append, List.nodup_cons, List.mem_append,
        List.mem_cons, List.disjoint_append_right, List.disjoint_cons_right,
        List.disjoint_append_left, List.disjoint_cons_left, not_or] at hnd
      try simp only [@eq_comm Nat] at hnd
      simp only [Layout, RBT.ptr_node, RBT.ptr_nil, ctxPtr_nil, ctxPtr_cons, Frame.addr_right]
        at hsub ha hb
      simp only [TreeSet.RotateRR, ha, hb, hsub, TreeSet.setParent, TreeSet.setLeft, TreeSet.setRight,
          Heap.write, hroot, hr, @eq_comm Nat, hnd, Option.bind_eq_bind,
          Option.some_bind, Option.some.injEq, ite_true, ite_false, if_true, if_false,
          exists_eq_left', reduceCtorEq, not_false_eq_true, plug_nil, RBT.ptr_node, and_true]
      refine ⟨rfl, trivial, ?_, hnd2, hbd2⟩
      simp [Layout, Heap.write, Layout_write, hnd, hsub, @eq_comm Nat]
  · have hr2 : s.m_pRoot = (plug (f :: fs) (.node b cb (.node a c l ka l1) kb r1)).ptr :=
      hr.trans (ptr_plug_cons _ _ _ _)
    have hsp : ¬ f.sib.ptr = some a := by
      refine RBT.ptr_ne (fun hm => ?_)
      have hd := (List.nodup_append.1 hnd).2.2
      exact hd (a := a) (by simp [ctxAddrs, hm]) (by simp [RBT.addrs])
    rcases f with ⟨p, pc, pk, pr⟩ | ⟨p, pc, pl, pk⟩ <;> rcases l1 with _ | ⟨c1, cc, l2, k2, r2⟩
    all_goals
      simp only [RBT.addrs, ctxAddrs, List.nodup_append, List.nodup_cons, List.mem_append,
        List.mem_cons, List.disjoint_append_right, List.disjoint_cons_right,
        List.disjoint_append_left, List.disjoint_cons_left, not_or, Frame.addr_left,
        Frame.addr_right, Frame.sib_left, Frame.sib_right] at hnd hsp
      try simp only [@eq_comm Nat] at hnd
      simp only [Layout, PathLayout, RBT.ptr_node, RBT.ptr_nil, ctxPtr_nil, ctxPtr_cons,
        Frame.addr_left, Frame.addr_right] at hsub ha hb hpath
      simp only [TreeSet.RotateRR, ha, hb, hsub, hpath, TreeSet.setParent, TreeSet.setLeft,
          TreeSet.setRight, Heap.write, hroot, @eq_comm Nat, hnd, hsp, Option.bind_eq_bind,
          Option.some_bind, Option.some.injEq, ite_true, ite_false, if_true, if_false,
          exists_eq_left', reduceCtorEq, not_false_eq_true, and_true]
      refine ⟨hr2, ?_, ?_, hnd2, hbd2⟩
      · simp [PathLayout, Heap.write, Layout_write, PathLayout_write, hnd, hpath, @eq_comm Nat]
      · simp [Layout, Heap.write, Layout_write, hnd, hsub, @eq_comm Nat]

/-! ## Invariants of `plug fs t` in terms of the path and the subtree -/

theorem TreeNodeColor.eq_black_of_ne_red {c : TreeNodeColor} (h : c ≠ .Red) : c = .Black := by
  cases c <;> simp_all

theorem TreeNodeColor.eq_red_of_ne_black {c : TreeNodeColor} (h : c ≠ .Black) : c = .Red := by
  cases c <;> simp_all

@[simp] theorem ctxColor_nil : ctxColor [] = .Black := rfl
@[simp] theorem ctxColor_cons (f fs) : ctxColor (f :: fs) = f.color := rfl
@[simp] theorem rootColor_nil (c) : rootColor [] c = c := rfl
@[simp] theorem rootColor_cons (f fs c) : rootColor (f :: fs) c = rootColor fs f.color := rfl

theorem color_plug : ∀ (fs : List Frame) (t : RBT), (plug fs t).color = rootColor fs t.color
  | [], _ => rfl
  | f :: fs, t => by
    cases f <;> simp [color_plug fs]

theorem balanced_plug : ∀ (fs : List Frame) (t : RBT),
    (plug fs t).Balanced ↔ t.Balanced ∧ PathBalanced fs t.bh
  | [], t => by simp [PathBalanced]
  | .left a c k r :: fs, t => by
    simp only [plug_cons, Frame.fill_left, balanced_plug fs, RBT.Balanced, RBT.bh, PathBalanced,
      Frame.sib_left, Frame.color_left]
    constructor
    · rintro ⟨⟨h1, h2, h3⟩, h4⟩; exact ⟨h2, h1.symm, h3, h4⟩
    · rintro ⟨h2, h1, h3, h4⟩; exact ⟨⟨h1.symm, h2, h3⟩, h4⟩
  | .right a c l k :: fs, t => by
    simp only [plug_cons, Frame.fill_right, balanced_plug fs, RBT.Balanced, RBT.bh, PathBalanced,
      Frame.sib_right, Frame.color_right]
    constructor
    · rintro ⟨⟨h1, h2, h3⟩, h4⟩; exact ⟨h3, h1, h2, by rw [← h1]; exact h4⟩
    · rintro ⟨h3, h1, h2, h4⟩; exact ⟨⟨h1, h2, h3⟩, by rw [h1]; exact h4⟩

theorem noRedRed_plug : ∀ (fs : List Frame) (t : RBT),
    (plug fs t).NoRedRed ↔ t.NoRedRed ∧ (ctxColor fs = .Red → t.color = .Black) ∧ PathNoRedRed fs
  | [], t => by simp [PathNoRedRed]
  | .left a c k r :: fs, t => by
    simp only [plug_cons, Frame.fill_left, noRedRed_plug fs, RBT.NoRedRed, PathNoRedRed,
      Frame.sib_left, Frame.color_left, ctxColor_cons, RBT.color_node]
    cases c <;> cases hc : ctxColor fs <;> simp <;> tauto
  | .right a c l k :: fs, t => by
    simp only [plug_cons, Frame.fill_right, noRedRed_plug fs, RBT.NoRedRed, PathNoRedRed,
      Frame.sib_right, Frame.color_right, ctxColor_cons, RBT.color_node]
    cases c <;> cases hc : ctxColor fs <;> simp <;> tauto

theorem keys_plug : ∀ (fs : List Frame) (t : RBT),
    (plug fs t).keys = ctxKeysBefore fs ++ t.keys ++ ctxKeysAfter fs
  | [], t => by simp [ctxKeysBefore, ctxKeysAfter]
  | .left a c k r :: fs, t => by
    simp [keys_plug fs, ctxKeysBefore, ctxKeysAfter, RBT.keys]
  | .right a c l k :: fs, t => by
    simp [keys_plug fs, ctxKeysBefore, ctxKeysAfter, RBT.keys]

theorem size_plug : ∀ (fs : List Frame) (t : RBT), (plug fs t).size = ctxSize fs + t.size
  | [], t => by simp [ctxSize]
  | .left a c k r :: fs, t => by
    simp [size_plug fs, ctxSize, RBT.size]; omega
  | .right a c l k :: fs, t => by
    simp [size_plug fs, ctxSize, RBT.size]; omega

theorem plug_append : ∀ (fs gs : List Frame) (t : RBT), plug (fs ++ gs) t = plug gs (plug fs t)
  | [], _, _ => rfl
  | f :: fs, gs, t => by simp [plug_append fs]

theorem rootColor_cons_irrel (f : Frame) (fs : List Frame) (c d : TreeNodeColor) :
    rootColor (f :: fs) c = rootColor (f :: fs) d := rfl

/-! ## Insert-fixup on the heap -/

theorem Focus.colorOrBlack {s : TreeSet} {fs : List Frame} {t : RBT} (h : Focus s fs t) :
    s.colorOrBlack t.ptr = some t.color := by
  cases t with
  | nil => rfl
  | node a c l k r =>
    simp only [TreeSet.colorOrBlack, RBT.ptr_node, h.heap_node, Option.map_some', RBT.color_node]

@[simp] theorem Frame.cell_left (a c k r hole par) :
    (Frame.left a c k r).cell hole par = ⟨k, c, par, hole, r.ptr⟩ := rfl
@[simp] theorem Frame.cell_right (a c l k hole par) :
    (Frame.right a c l k).cell hole par = ⟨k, c, par, l.ptr, hole⟩ := rfl
@[simp] theorem Frame.cell_color (f : Frame) (hole par) : (f.cell hole par).Color = f.color := by
  cases f <;> rfl
@[simp] theorem Frame.cell_parent (f : Frame) (hole par) : (f.cell hole par).Parent = par := by
  cases f <;> rfl
@[simp] theorem Frame.swap_left (a c k r t) : (Frame.left a c k r).swap t = .right a c t k := rfl
@[simp] theorem Frame.swap_right (a c l k t) : (Frame.right a c l k).swap t = .left a c k t := rfl
@[simp] theorem Frame.setColor_left (a c k r d) :
    (Frame.left a c k r).setColor d = .left a d k r := rfl
@[simp] theorem Frame.setColor_right (a c l k d) :
    (Frame.right a c l k).setColor d = .right a d l k := rfl
@[simp] theorem Frame.setSib_left (a c k r t) : (Frame.left a c k r).setSib t = .left a c k t := rfl
@[simp] theorem Frame.setSib_right (a c l k t) :
    (Frame.right a c l k).setSib t = .right a c t k := rfl
@[simp] theorem Frame.isLeft_left (a c k r) : (Frame.left a c k r).isLeft = true := rfl
@[simp] theorem Frame.isLeft_right (a c l k) : (Frame.right a c l k).isLeft = false := rfl

theorem Frame.fill_swap (f : Frame) (t : RBT) : (f.swap t).fill f.sib = f.fill t := by
  cases f <;> rfl

theorem Frame.swap_swap (f : Frame) (t u : RBT) : (f.swap t).swap u = f.setSib u := by
  cases f <;> rfl

theorem Frame.addr_swap (f : Frame) (t : RBT) : (f.swap t).addr = f.addr := by
  cases f <;> rfl

theorem Frame.addr_setColor (f : Frame) (c) : (f.setColor c).addr = f.addr := by
  cases f <;> rfl

theorem Frame.addr_setSib (f : Frame) (t) : (f.setSib t).addr = f.addr := by
  cases f <;> rfl

theorem Focus.heap_frame {s : TreeSet} {f : Frame} {fs : List Frame} {t : RBT}
    (h : Focus s (f :: fs) t) : s.heap f.addr = some (f.cell t.ptr (ctxPtr fs)) := by
  cases f
  · exact h.heap_left
  · exact h.heap_right

/-- Look at the sibling of the focused subtree. -/
theorem Focus.swap {s : TreeSet} {f : Frame} {fs : List Frame} {t : RBT}
    (h : Focus s (f :: fs) t) : Focus s (f.swap t :: fs) f.sib :=
  Focus.down (by rw [Frame.fill_swap]; exact h.up)

theorem Focus.sib_ptr_ne {s : TreeSet} {f : Frame} {fs : List Frame} {t : RBT} {a : Nat}
    (h : Focus s (f :: fs) t) (ht : t.ptr = some a) : ¬ f.sib.ptr = some a := by
  refine RBT.ptr_ne (fun hm => ?_)
  have hd := (List.nodup_append.1 h.nodup).2.2
  exact hd (a := a) (by simp [ctxAddrs, hm]) (RBT.ptr_mem ht)

theorem Focus.addr_ne {s : TreeSet} {f : Frame} {fs : List Frame} {t : RBT} {a : Nat}
    (h : Focus s (f :: fs) t) (ht : t.ptr = some a) : ¬ f.addr = a := by
  intro he
  have hd := (List.nodup_append.1 h.nodup).2.2
  exact hd (a := a) (by simp [ctxAddrs, he]) (RBT.ptr_mem ht)

theorem Focus.isLeft {s : TreeSet} {f : Frame} {fs : List Frame} {t : RBT} {a : Nat}
    (h : Focus s (f :: fs) t) (ht : t.ptr = some a) : s.IsLeft a = some f.isLeft := by
  have hs := h.sib_ptr_ne ht
  have hf := h.heap_frame
  cases t with
  | nil => simp at ht
  | node a1 c l k r =>
    simp only [RBT.ptr_node, Option.some.injEq] at ht
    subst ht
    have ha := h.heap_node
    cases f <;>
      simp_all only [TreeSet.IsLeft, Frame.cell_left, Frame.cell_right, ctxPtr_cons,
        Frame.addr_left, Frame.addr_right, Frame.sib_left, Frame.sib_right, RBT.ptr_node,
        Frame.isLeft_left, Frame.isLeft_right, decide_True, decide_False]

theorem Focus.isRight {s : TreeSet} {f : Frame} {fs : List Frame} {t : RBT} {a : Nat}
    (h : Focus s (f :: fs) t) (ht : t.ptr = some a) : s.IsRight a = some (!f.isLeft) := by
  have hs := h.sib_ptr_ne ht
  have hf := h.heap_frame
  cases t with
  | nil => simp at ht
  | node a1 c l k r =>
    simp only [RBT.ptr_node, Option.some.injEq] at ht
    subst ht
    have ha := h.heap_node
    cases f <;>
      simp_all only [TreeSet.IsRight, Frame.cell_left, Frame.cell_right, ctxPtr_cons,
        Frame.addr_left, Frame.addr_right, Frame.sib_left, Frame.sib_right, RBT.ptr_node,
        Frame.isLeft_left, Frame.isLeft_right, decide_True, decide_False, Bool.not_true,
        Bool.not_false]

/-- The pointer the code takes for the uncle or the sibling: the other child of the parent. -/
theorem Focus.other_child {s : TreeSet} {f : Frame} {fs : List Frame} {t : RBT} {a : Nat}
    (h : Focus s (f :: fs) t) (ht : t.ptr = some a) :
    (if (f.cell (some a) (ctxPtr fs)).Left = some a then (f.cell (some a) (ctxPtr fs)).Right
      else (f.cell (some a) (ctxPtr fs)).Left) = f.sib.ptr := by
  have hs := h.sib_ptr_ne ht
  cases f <;> simp_all

/-- Recolouring the node right above the focus. -/
theorem Focus.setColor_frame {s : TreeSet} {f : Frame} {fs : List Frame} {t : RBT}
    (h : Focus s (f :: fs) t) (c1 : TreeNodeColor) :
    ∃ s1, s.setColor f.addr c1 = some s1 ∧ Focus s1 (f.setColor c1 :: fs) t ∧
      s1.fresh = s.fresh := by
  cases f with
  | left a c k r =>
    obtain ⟨s1, e1, F1, hf, -, -⟩ := h.up.setColor c1
    exact ⟨s1, e1, Focus.down (f := .left a c1 k r) F1, hf⟩
  | right a c l k =>
    obtain ⟨s1, e1, F1, hf, -, -⟩ := h.up.setColor c1
    exact ⟨s1, e1, Focus.down (f := .right a c1 l k) F1, hf⟩

/-- Case 1-1 of `InsertFixup`: parent and child are left children, the uncle is Black. -/
theorem InsertFixup_LL {s : TreeSet} {fs : List Frame} {a l k r p pk pr gp gk u} (fuel : Nat)
    (h : Focus s (.left p .Red pk pr :: .left gp .Black gk u :: fs) (.node a .Red l k r))
    (hu : u.color = .Black) :
    ∃ s1, TreeSet.InsertFixup (fuel + 1) s a = some s1 ∧
      Focus s1 fs (.node p .Black (.node a .Red l k r) pk (.node gp .Red pr gk u)) ∧
      s1.fresh = s.fresh := by
  have hroot : ¬ s.m_pRoot = some a := by rw [h.root_iff]; simp
  have ha := h.heap_node
  have hp := h.heap_left
  have hg := h.up.heap_left
  have hgf : Focus s (.right gp .Black (.node p .Red (.node a .Red l k r) pk pr) gk :: fs) u :=
    Focus.down (f := .right gp .Black _ gk) h.up.up
  have huc := hgf.colorOrBlack
  obtain ⟨s1, e1, F1, hf1, -, -⟩ := h.up.up.setColor .Red
  obtain ⟨s2, e2, F2, hf2, -, -⟩ := (Focus.down (f := .left gp .Red gk u) F1).setColor .Black
  obtain ⟨s3, e3, F3, hf3⟩ := F2.up.rotateLL
  have hroot3 : ¬ s3.m_pRoot = some gp := by
    rw [(Focus.down (f := .right p .Black _ pk) F3).root_iff]; simp
  refine ⟨s3, ?_, F3, by rw [hf3, hf2, hf1]⟩
  simp only [Frame.addr_left, Frame.addr_right, Frame.fill_left, Frame.fill_right, ctxPtr_cons,
    RBT.ptr_node] at ha hp hg e1 e2 e3
  simp only [TreeSet.InsertFixup, hroot, ha, hp, hg, huc, hu, e1, e2, e3, hroot3, TreeSet.IsLeft,
    Option.bind_eq_bind, Option.some_bind, ite_true, ite_false, if_true, if_false,
    reduceCtorEq, not_false_eq_true, ne_eq, not_true_eq_false, or_self, decide_True,
    Option.pure_def, Option.bind_some]

/-- Case 1-2 of `InsertFixup`: parent and child are right children, the uncle is Black. -/
theorem InsertFixup_RR {s : TreeSet} {fs : List Frame} {a l k r p pk pl gp gk u} (fuel : Nat)
    (h : Focus s (.right p .Red pl pk :: .right gp .Black u gk :: fs) (.node a .Red l k r))
    (hu : u.color = .Black) :
    ∃ s1, TreeSet.InsertFixup (fuel + 1) s a = some s1 ∧
      Focus s1 fs (.node p .Black (.node gp .Red u gk pl) pk (.node a .Red l k r)) ∧
      s1.fresh = s.fresh := by
  have hroot : ¬ s.m_pRoot = some a := by rw [h.root_iff]; simp
  have ha := h.heap_node
  have hp := h.heap_right
  have hg := h.up.heap_right
  have huc := h.up.swap.colorOrBlack
  have hil := h.up.isLeft rfl
  have hir := h.isRight rfl
  have hun := h.up.sib_ptr_ne rfl
  obtain ⟨s1, e1, F1, hf1, -, -⟩ := h.up.up.setColor .Red
  obtain ⟨s2, e2, F2, hf2, -, -⟩ := (Focus.down (f := .right gp .Red u gk) F1).setColor .Black
  obtain ⟨s3, e3, F3, hf3⟩ := F2.up.rotateRR
  have hroot3 : ¬ s3.m_pRoot = some gp := by
    rw [(Focus.down (f := .left p .Black pk _) F3).root_iff]; simp
  refine ⟨s3, ?_, F3, by rw [hf3, hf2, hf1]⟩
  simp only [Frame.addr_left, Frame.addr_right, Frame.fill_left, Frame.fill_right, ctxPtr_cons,
    RBT.ptr_node, Frame.sib_right, Frame.isLeft_right, Bool.not_false] at ha hp hg e1 e2 e3 huc hil hir hun
  simp only [TreeSet.InsertFixup, hroot, ha, hp, hg, huc, hu, hil, hir, hun, e1, e2, e3, hroot3,
    Option.bind_eq_bind, Option.some_bind, ite_true, ite_false, if_true, if_false,
    reduceCtorEq, not_false_eq_true, ne_eq, not_true_eq_false, or_self, decide_True,
    Option.pure_def, Option.bind_some, Bool.false_eq_true]

/-- Case 1-3 of `InsertFixup`: the parent is a left child, the child a right child. -/
theorem InsertFixup_LR {s : TreeSet} {fs : List Frame} {a l k r p pk pl gp gk u} (fuel : Nat)
    (h : Focus s (.right p .Red pl pk :: .left gp .Black gk u :: fs) (.node a .Red l k r))
    (hu : u.color = .Black) :
    ∃ s1, TreeSet.InsertFixup (fuel + 2) s a = some s1 ∧
      Focus s1 fs (.node a .Black (.node p .Red pl pk l) k (.node gp .Red r gk u)) ∧
      s1.fresh = s.fresh := by
  have hroot : ¬ s.m_pRoot = some a := by rw [h.root_iff]; simp
  have ha := h.heap_node
  have hp := h.heap_right
  have hg := h.up.heap_left
  have huc := h.up.swap.colorOrBlack
  have hil := h.up.isLeft rfl
  have hil2 := h.isLeft rfl
  obtain ⟨s1, e1, F1, hf1⟩ := h.up.rotateRR
  obtain ⟨s2, e2, F2, hf2⟩ := InsertFixup_LL fuel
    (Focus.down (f := .left a .Red k r) (Focus.down (f := .left gp .Black gk u) F1.up)) hu
  refine ⟨s2, ?_, F2, by rw [hf2, hf1]⟩
  simp only [Frame.addr_left, Frame.addr_right, Frame.fill_left, Frame.fill_right, ctxPtr_cons,
    RBT.ptr_node, Frame.sib_left, Frame.isLeft_right, Frame.isLeft_left] at ha hp hg e1 huc hil hil2
  rw [TreeSet.InsertFixup]
  simp only [hroot, ha, hp, hg, huc, hu, hil, hil2, e1, e2,
    Option.bind_eq_bind, Option.some_bind, ite_true, ite_false, if_true, if_false,
    reduceCtorEq, not_false_eq_true, ne_eq, not_true_eq_false, or_self, decide_True,
    Option.pure_def, Option.bind_some, Bool.false_eq_true]

/-- Case 1-4 of `InsertFixup`: the parent is a right child, the child a left child. -/
theorem InsertFixup_RL {s : TreeSet} {fs : List Frame} {a l k r p pk pr gp gk u} (fuel : Nat)
    (h : Focus s (.left p .Red pk pr :: .right gp .Black u gk :: fs) (.node a .Red l k r))
    (hu : u.color = .Black) :
    ∃ s1, TreeSet.InsertFixup (fuel + 2) s a = some s1 ∧
      Focus s1 fs (.node a .Black (.node gp .Red u gk l) k (.node p .Red r pk pr)) ∧
      s1.fresh = s.fresh := by
  have hroot : ¬ s.m_pRoot = some a := by rw [h.root_iff]; simp
  have ha := h.heap_node
  have hp := h.heap_left
  have hg := h.up.heap_right
  have huc := h.up.swap.colorOrBlack
  have hil := h.up.isLeft rfl
  have hir := h.isRight rfl
  have hun := h.up.sib_ptr_ne rfl
  have hpn := h.sib_ptr_ne rfl
  obtain ⟨s1, e1, F1, hf1⟩ := h.up.rotateLL
  obtain ⟨s2, e2, F2, hf2⟩ := InsertFixup_RR fuel
    (Focus.down (f := .right a .Red l k) (Focus.down (f := .right gp .Black u gk) F1.up)) hu
  refine ⟨s2, ?_, F2, by rw [hf2, hf1]⟩
  simp only [Frame.addr_left, Frame.addr_right, Frame.fill_left, Frame.fill_right, ctxPtr_cons,
    RBT.ptr_node, Frame.sib_left, Frame.sib_right, Frame.isLeft_right, Frame.isLeft_left,
    Bool.not_true] at ha hp hg e1 huc hil hir hun hpn
  rw [TreeSet.InsertFixup]
  simp only [hroot, ha, hp, hg, huc, hu, hil, hir, hun, hpn,
    e1, e2,
    Option.bind_eq_bind, Option.some_bind, ite_true, ite_false, if_true, if_false,
    reduceCtorEq, not_false_eq_true, ne_eq, not_true_eq_false, or_self, decide_True,
    Option.pure_def, Option.bind_some, Bool.false_eq_true]

@[simp] theorem Frame.ptr_fill (f : Frame) (t : RBT) : (f.fill t).ptr = some f.addr := by
  cases f <;> rfl

@[simp] theorem Frame.sib_swap (f : Frame) (t : RBT) : (f.swap t).sib = t := by
  cases f <;> rfl

/-- Case 2 of `InsertFixup`: the uncle is Red; three recolourings, then the call on the
grandparent. -/
theorem InsertFixup_uncleRed {s : TreeSet} {f g : Frame} {fs : List Frame} {a l k r u ul uk ur}
    (fuel : Nat) (h : Focus s (f :: g :: fs) (.node a .Red l k r)) (hf : f.color = .Red)
    (hg : g.sib = .node u .Red ul uk ur) :
    ∃ s3, Focus s3 fs (((g.setSib (.node u .Black ul uk ur)).setColor .Red).fill
        ((f.setColor .Black).fill (.node a .Red l k r))) ∧ s3.fresh = s.fresh ∧
      TreeSet.InsertFixup (fuel + 1) s a = TreeSet.InsertFixup fuel s3 g.addr := by
  have hroot : ¬ s.m_pRoot = some a := by rw [h.root_iff]; simp
  have ha := h.heap_node
  have hp := h.heap_frame
  have hgp := h.up.heap_frame
  have hoc := h.up.other_child (Frame.ptr_fill f _)
  have huc := h.up.swap.colorOrBlack
  have hsw := h.up.swap
  rw [hg] at hsw
  obtain ⟨s1, e1, F1, hf1, -, -⟩ := hsw.setColor .Black
  have F1b := F1.swap
  rw [Frame.swap_swap, Frame.sib_swap] at F1b
  obtain ⟨s2, e2, F2, hf2⟩ := (Focus.down F1b).setColor_frame .Black
  obtain ⟨s3, e3, F3, hf3⟩ := F2.up.setColor_frame .Red
  refine ⟨s3, F3.up, by rw [hf3, hf2, hf1], ?_⟩
  rw [hg] at hoc huc
  simp only [Frame.ptr_fill, RBT.ptr_node, ctxPtr_cons, RBT.color_node, Frame.addr_setSib]
    at ha hp hgp hoc huc e2 e3
  rw [TreeSet.InsertFixup]
  simp only [hroot, ha, hp, hgp, hoc, huc, hf, e1, e2, e3, Frame.cell_color, Frame.cell_parent,
    Option.bind_eq_bind, Option.some_bind, ite_true, ite_false, if_true, if_false,
    reduceCtorEq, not_false_eq_true, ne_eq, not_true_eq_false, or_self, decide_True,
    Option.pure_def, Option.bind_some, Bool.false_eq_true]

/-- `InsertFixup` returns at once under a Black parent. -/
theorem InsertFixup_parentBlack {s : TreeSet} {f : Frame} {fs : List Frame} {a c l k r}
    (fuel : Nat) (h : Focus s (f :: fs) (.node a c l k r)) (hf : f.color = .Black) :
    TreeSet.InsertFixup (fuel + 1) s a = some s := by
  have hroot : ¬ s.m_pRoot = some a := by rw [h.root_iff]; simp
  have ha := h.heap_node
  have hp := h.heap_frame
  simp only [ctxPtr_cons] at ha
  rw [TreeSet.InsertFixup]
  simp only [hroot, ha, hp, hf, Frame.cell_color,
    Option.bind_eq_bind, Option.some_bind, ite_true, ite_false, if_true, if_false,
    reduceCtorEq, not_false_eq_true, ne_eq, not_true_eq_false, or_self, true_or]

/-- `InsertFixup` on the root: it is coloured Black. -/
theorem InsertFixup_root {s : TreeSet} {a c l k r} (fuel : Nat)
    (h : Focus s [] (.node a c l k r)) :
    ∃ s1, TreeSet.InsertFixup (fuel + 1) s a = some s1 ∧ Focus s1 [] (.node a .Black l k r) ∧
      s1.fresh = s.fresh := by
  have hroot : s.m_pRoot = some a := h.root_iff.2 rfl
  obtain ⟨s1, e1, F1, hf1, -, -⟩ := h.setColor .Black
  refine ⟨s1, ?_, F1, hf1⟩
  rw [TreeSet.InsertFixup]
  simp only [hroot, e1, ite_true, if_true]

/-! ## `InsertFixup` restores the red-black invariants -/

theorem RedBlack_plug (fs : List Frame) (t : RBT) :
    (plug fs t).RedBlack ↔ rootColor fs t.color = .Black ∧ t.NoRedRed ∧
      (ctxColor fs = .Red → t.color = .Black) ∧ PathNoRedRed fs ∧ t.Balanced ∧
      PathBalanced fs t.bh := by
  simp only [RBT.RedBlack, color_plug, noRedRed_plug, balanced_plug]
  tauto

theorem InsertFixup_spec (n : Nat) : ∀ (fuel : Nat) (s : TreeSet) (fs : List Frame) (a : Nat)
    (l : RBT) (k : Int) (r : RBT), fs.length ≤ n → n + 2 ≤ fuel →
    Focus s fs (.node a .Red l k r) → l.RedBlack → r.RedBlack → l.bh = r.bh →
    PathBalanced fs l.bh → PathNoRedRed fs → rootColor fs .Black = .Black →
    ∃ s1 T1, TreeSet.InsertFixup fuel s a = some s1 ∧ Represents s1 T1 ∧ T1.RedBlack ∧
      T1.keys = (plug fs (.node a .Red l k r)).keys ∧
      T1.size = (plug fs (.node a .Red l k r)).size ∧ s1.fresh = s.fresh := by
  induction n using Nat.strong_induction_on with
  | _ n ih =>
  intro fuel s fs a l k r hlen hfuel h hl hr hbh hpb hpn hrc
  obtain ⟨fuel, rfl⟩ : ∃ m, fuel = m + 2 := ⟨fuel - 2, by omega⟩
  obtain ⟨hlc, hln, hlb⟩ := hl
  obtain ⟨hrcol, hrn, hrb⟩ := hr
  rcases fs with _ | ⟨f, fs⟩
  · -- the node is the root
    obtain ⟨s1, e1, F1, hf1⟩ := InsertFixup_root (fuel + 1) h
    refine ⟨s1, _, e1, F1.represents, ?_, rfl, rfl, hf1⟩
    simp [RBT.RedBlack, RBT.NoRedRed, RBT.Balanced, *]
  · cases hfc : f.color with
    | Black =>
      refine ⟨s, _, InsertFixup_parentBlack (fuel + 1) h hfc, h.represents, ?_, rfl, rfl, rfl⟩
      rw [RedBlack_plug]
      refine ⟨hrc, ?_, ?_, hpn, ?_, ?_⟩
      · simp [RBT.NoRedRed, *]
      · simp [hfc]
      · simp [RBT.Balanced, *]
      · simpa [RBT.bh] using hpb
    | Red =>
      rcases fs with _ | ⟨g, fs⟩
      · -- a Red parent cannot be the root
        simp [hfc] at hrc
      · have hgc : g.color = .Black := by
          have := hpn.2.1 hfc
          simpa using this.2
        cases hu : g.sib.color with
        | Black =>
          rcases f with ⟨p, pc, pk, pr⟩ | ⟨p, pc, pl, pk⟩ <;>
            rcases g with ⟨gp, gc, gk, u⟩ | ⟨gp, gc, u, gk⟩ <;>
            simp only [Frame.color_left, Frame.color_right, Frame.sib_left, Frame.sib_right]
              at hfc hgc hu <;> subst hfc hgc
          · obtain ⟨s1, e1, F1, hf1⟩ := InsertFixup_LL (fuel + 1) h hu
            refine ⟨s1, _, e1, F1.represents, ?_, ?_, ?_, hf1⟩
            · rw [RedBlack_plug]
              clear ih h F1 e1
              simp_all [RBT.NoRedRed, RBT.Balanced, RBT.bh, PathBalanced, PathNoRedRed]
            · simp [keys_plug, RBT.keys, ctxKeysBefore, ctxKeysAfter]
            · simp [size_plug, RBT.size, ctxSize]; omega
          · obtain ⟨s1, e1, F1, hf1⟩ := InsertFixup_RL fuel h hu
            refine ⟨s1, _, e1, F1.represents, ?_, ?_, ?_, hf1⟩
            · rw [RedBlack_plug]
              clear ih h F1 e1
              simp_all [RBT.NoRedRed, RBT.Balanced, RBT.bh, PathBalanced, PathNoRedRed]
            · simp [keys_plug, RBT.keys, ctxKeysBefore, ctxKeysAfter]
            · simp [size_plug, RBT.size, ctxSize]; omega
          · obtain ⟨s1, e1, F1, hf1⟩ := InsertFixup_LR fuel h hu
            refine ⟨s1, _, e1, F1.represents, ?_, ?_, ?_, hf1⟩
            · rw [RedBlack_plug]
              clear ih h F1 e1
              simp_all [RBT.NoRedRed, RBT.Balanced, RBT.bh, PathBalanced, PathNoRedRed]
            · simp [keys_plug, RBT.keys, ctxKeysBefore, ctxKeysAfter]
            · simp [size_plug, RBT.size, ctxSize]; omega
          · obtain ⟨s1, e1, F1, hf1⟩ := InsertFixup_RR (fuel + 1) h hu
            refine ⟨s1, _, e1, F1.represents, ?_, ?_, ?_, hf1⟩
            · rw [RedBlack_plug]
              clear ih h F1 e1
              simp_all [RBT.NoRedRed, RBT.Balanced, RBT.bh, PathBalanced, PathNoRedRed]
            · simp [keys_plug, RBT.keys, ctxKeysBefore, ctxKeysAfter]
            · simp [size_plug, RBT.size, ctxSize]; omega
        | Red =>
          obtain ⟨u, uc, ul, uk, ur, hgs⟩ : ∃ u uc ul uk ur, g.sib = .node u uc ul uk ur := by
            cases hgs : g.sib with
            | nil => rw [hgs] at hu; simp at hu
            | node u uc ul uk ur => exact ⟨u, uc, ul, uk, ur, rfl⟩
          obtain rfl : uc = .Red := by rw [hgs] at hu; simpa using hu
          obtain ⟨s3, F3, hf3, e3⟩ := InsertFixup_uncleRed (fuel + 1) h hfc hgs
          have hlen2 : fs.length < n := by simp only [List.length_cons] at hlen; omega
          rcases f with ⟨p, pc, pk, pr⟩ | ⟨p, pc, pl, pk⟩ <;>
            rcases g with ⟨gp, gc, gk, u0⟩ | ⟨gp, gc, u0, gk⟩ <;>
            simp only [Frame.color_left, Frame.color_right, Frame.sib_left, Frame.sib_right]
              at hfc hgc hgs <;> subst hfc hgc hgs <;>
            simp only [Frame.setSib_left, Frame.setSib_right, Frame.setColor_left,
              Frame.setColor_right, Frame.fill_left, Frame.fill_right, Frame.addr_left,
              Frame.addr_right] at F3 e3
          all_goals
            obtain ⟨s4, T4, e4, R4, hrb4, hk4, hs4, hf4⟩ := ih fs.length hlen2 (fuel + 1) s3 fs gp _ gk _
              (le_refl _) (by simp only [List.length_cons] at hlen; omega) F3
              (by clear ih h F3 e3
                  simp_all [RBT.RedBlack, RBT.NoRedRed, RBT.Balanced, RBT.bh, PathBalanced,
                    PathNoRedRed]
                  try omega)
              (by clear ih h F3 e3
                  simp_all [RBT.RedBlack, RBT.NoRedRed, RBT.Balanced, RBT.bh, PathBalanced,
                    PathNoRedRed]
                  try omega)
              (by clear ih h F3 e3
                  simp_all [RBT.RedBlack, RBT.NoRedRed, RBT.Balanced, RBT.bh, PathBalanced,
                    PathNoRedRed]
                  try omega)
              (by clear ih h F3 e3
                  simp_all [RBT.RedBlack, RBT.NoRedRed, RBT.Balanced, RBT.bh, PathBalanced,
                    PathNoRedRed]
                  try omega)
              (by clear ih h F3 e3
                  simp_all [RBT.RedBlack, RBT.NoRedRed, RBT.Balanced, RBT.bh, PathBalanced,
                    PathNoRedRed]
                  try omega)
              (by simpa using hrc)
            refine ⟨s4, T4, by rw [e3]; exact e4, R4, hrb4, ?_, ?_, by rw [hf4, hf3]⟩
            · rw [hk4]; simp [keys_plug, RBT.keys, ctxKeysBefore, ctxKeysAfter]
            · rw [hs4]; simp [size_plug, RBT.size, ctxSize]

/-! ## `Insert` on the heap -/

theorem RBT.length_addrs : ∀ t : RBT, t.addrs.length = t.size
  | .nil => rfl
  | .node a c l k r => by
    simp [RBT.addrs, RBT.size, RBT.length_addrs l, RBT.length_addrs r]; omega

theorem RBT.height_le_size : ∀ t : RBT, t.height ≤ t.size
  | .nil => le_refl _
  | .node a c l k r => by
    have := RBT.height_le_size l
    have := RBT.height_le_size r
    simp only [RBT.height, RBT.size]
    omega

theorem Represents.size_le {s : TreeSet} {T : RBT} (h : Represents s T) : T.size ≤ s.fresh := by
  rw [← RBT.length_addrs]
  have hsub : T.addrs ⊆ List.range s.fresh := fun a ha => List.mem_range.2 (h.bound a ha)
  have := (h.nodup.subperm hsub).length_le
  simpa using this

theorem length_le_ctxSize : ∀ fs : List Frame, fs.length ≤ ctxSize fs
  | [] => le_refl _
  | f :: fs => by
    have := length_le_ctxSize fs
    simp only [List.length_cons, ctxSize]
    omega

theorem Focus.length_le {s : TreeSet} {fs : List Frame} {t : RBT} (h : Focus s fs t) :
    fs.length + t.size ≤ s.fresh := by
  have h1 := h.represents.size_le
  rw [size_plug] at h1
  have := length_le_ctxSize fs
  omega

/-- The loop of `FindParentDataInserted` walks down to an absent child and returns the
last node it saw. -/
theorem FindParentDataInsertedLoop_spec {s : TreeSet} (k : Int) : ∀ (t : RBT) (fs : List Frame)
    (fuel : Nat), Focus s fs t → InsertPath k fs → t.height < fuel →
    ∃ fs1, FindParentDataInsertedLoop fuel s.heap (ctxPtr fs) t.ptr k = some (ctxPtr fs1) ∧
      plug fs1 .nil = plug fs t ∧ InsertPath k fs1 ∧ (fs = [] → t = .nil ∨ fs1 ≠ [])
  | .nil, fs, fuel, _, hp, hfuel => by
    obtain ⟨fuel, rfl⟩ : ∃ m, fuel = m + 1 := ⟨fuel - 1, by omega⟩
    exact ⟨fs, rfl, rfl, hp, fun _ => Or.inl rfl⟩
  | .node a c l kk r, fs, fuel, h, hp, hfuel => by
    obtain ⟨fuel, rfl⟩ : ∃ m, fuel = m + 1 := ⟨fuel - 1, by simp [RBT.height] at hfuel; omega⟩
    have ha := h.heap_node
    simp only [RBT.height] at hfuel
    by_cases hk : k > kk
    · obtain ⟨fs1, e1, hp1, hi1, hne⟩ := FindParentDataInsertedLoop_spec k r (.right a c l kk :: fs) fuel
        (Focus.down (f := .right a c l kk) h) ⟨hk, hp⟩ (by omega)
      refine ⟨fs1, ?_, hp1, hi1, fun _ => Or.inr ?_⟩
      · simp only [FindParentDataInsertedLoop, RBT.ptr_node, ha, hk, if_true]
        exact e1
      · rintro rfl
        have := congrArg RBT.size hp1
        simp [size_plug, ctxSize, RBT.size] at this
        omega
    · obtain ⟨fs1, e1, hp1, hi1, hne⟩ := FindParentDataInsertedLoop_spec k l (.left a c kk r :: fs) fuel
        (Focus.down (f := .left a c kk r) h) ⟨not_lt.1 hk, hp⟩ (by omega)
      refine ⟨fs1, ?_, hp1, hi1, fun _ => Or.inr ?_⟩
      · simp only [FindParentDataInsertedLoop, RBT.ptr_node, ha, hk, if_false]
        exact e1
      · rintro rfl
        have := congrArg RBT.size hp1
        simp [size_plug, ctxSize, RBT.size] at this
        omega

/-- The state after the new node has been allocated and linked below the node found by
`FindParentDataInserted`. -/
theorem Focus.attach {s : TreeSet} {f : Frame} {fs : List Frame} (k : Int)
    (h : Focus s (f :: fs) .nil) :
    Focus { heap := ((s.heap.write s.fresh ⟨k, .Red, none, none, none⟩).write s.fresh
              ⟨k, .Red, some f.addr, none, none⟩).write f.addr
              (f.cell (some s.fresh) (ctxPtr fs)),
            m_pRoot := s.m_pRoot, fresh := s.fresh + 1 }
      (f :: fs) (.node s.fresh .Red .nil k .nil) := by
  have hnd := h.nodup
  have hbd := h.bound
  have hpath := h.path
  have hfresh : s.fresh ∉ ctxAddrs (f :: fs) := fun hm =>
    lt_irrefl _ (hbd _ (List.mem_append_left _ hm))
  simp only [RBT.addrs, List.append_nil] at hnd
  have hnd0 := hnd
  refine ⟨h.root.trans (ptr_plug_cons _ _ _ _), ?_, ?_, ?_, ?_⟩
  · rcases f with ⟨p, pc, pk, pr⟩ | ⟨p, pc, pl, pk⟩
    all_goals
      simp only [ctxAddrs, List.nodup_append, List.nodup_cons, List.mem_append,
        List.mem_cons, not_or, Frame.addr_left, Frame.addr_right, Frame.sib_left,
        Frame.sib_right] at hnd hfresh
      simp only [PathLayout, RBT.ptr_nil, RBT.ptr_node, Frame.cell_left, Frame.cell_right,
        Frame.addr_left, Frame.addr_right] at hpath ⊢
      refine ⟨by simp, ?_, ?_⟩
      · rw [Layout_write (by tauto), Layout_write (by tauto), Layout_write (by tauto)]
        exact hpath.2.1
      · rw [PathLayout_write (by tauto), PathLayout_write (by tauto),
          PathLayout_write (by tauto)]
        exact hpath.2.2
  · have hne : s.fresh ≠ f.addr := fun he => hfresh (by simp [ctxAddrs, ← he])
    simp [Layout, Heap.write, hne]
  · simp only [RBT.addrs, List.nil_append]
    rw [List.nodup_append]
    refine ⟨hnd0, by simp, ?_⟩
    simp only [List.disjoint_singleton]
    exact hfresh
  · intro a ha
    simp only [RBT.addrs, List.nil_append, List.mem_append, List.mem_singleton] at ha
    rcases ha with ha | rfl
    · exact Nat.lt_succ_of_lt (hbd a (List.mem_append_left _ ha))
    · exact Nat.lt_succ_self _

theorem Represents.height_lt_fuel {s : TreeSet} {T : RBT} (h : Represents s T) :
    T.height < s.fuel := by
  have := h.size_le
  have := T.height_le_size
  simp only [TreeSet.fuel]
  omega

/-- `Insert` always succeeds on a red-black tree: it returns `true`, the result is a
red-black tree, and the key went into the hole its comparisons led to. -/
theorem Insert_spec {s : TreeSet} {T : RBT} (k : Int) (hR : Represents s T) (hrb : T.RedBlack) :
    ∃ s1 T1 fs, s.Insert k = some (true, s1) ∧ Represents s1 T1 ∧ T1.RedBlack ∧
      T = plug fs .nil ∧ InsertPath k fs ∧
      T1.keys = ctxKeysBefore fs ++ k :: ctxKeysAfter fs ∧ T1.size = T.size + 1 ∧
      s1.fresh = s.fresh + 1 := by
  cases T with
  | nil =>
    have hroot : s.m_pRoot = none := hR.root
    have F : Focus ⟨s.heap.write s.fresh ⟨k, .Red, none, none, none⟩, some s.fresh, s.fresh + 1⟩
        [] (.node s.fresh .Red .nil k .nil) :=
      ⟨rfl, trivial, by simp [Layout], by simp [ctxAddrs, RBT.addrs],
        by simp [ctxAddrs, RBT.addrs]⟩
    obtain ⟨s1, e1, F1, hf1⟩ := InsertFixup_root (3 * (s.fresh + 1) + 3) F
    refine ⟨s1, _, [], ?_, F1.represents, ?_, rfl, trivial, ?_, ?_, hf1⟩
    · simp only [TreeSet.Insert, hroot, TreeSet.newNode, TreeSet.fuel]
      rw [e1]; rfl
    · simp [RBT.RedBlack, RBT.NoRedRed, RBT.Balanced]
    · simp [RBT.keys, ctxKeysBefore, ctxKeysAfter]
    · simp [RBT.size]
  | node a c l kk r =>
    have hroot : s.m_pRoot = some a := hR.root
    have F0 : Focus s [] (.node a c l kk r) := Represents.focus [] hR
    obtain ⟨fs1, e1, hp1, hi1, hne⟩ := FindParentDataInsertedLoop_spec k _ [] s.fuel F0 trivial
      hR.height_lt_fuel
    have hne1 : fs1 ≠ [] := by
      rcases hne rfl with h | h
      · simp at h
      · exact h
    obtain ⟨f, fs, rfl⟩ : ∃ f fs, fs1 = f :: fs := by
      cases fs1 with
      | nil => exact absurd rfl hne1
      | cons f fs => exact ⟨f, fs, rfl⟩
    simp only [plug_nil] at hp1
    have F1 : Focus s (f :: fs) .nil := Represents.focus (f :: fs) (by rw [hp1]; exact hR)
    have F2 := F1.attach k
    have hlen := F1.length_le
    have hrb1 : (plug (f :: fs) .nil).RedBlack := by rw [hp1]; exact hrb
    rw [RedBlack_plug] at hrb1
    obtain ⟨s1, T1, e2, R1, hrb2, hk2, hs2, hf2⟩ := InsertFixup_spec (f :: fs).length
      (3 * (s.fresh + 1) + 4) _ (f :: fs) s.fresh .nil k .nil (le_refl _)
      (by simp only [List.length_cons] at hlen ⊢; omega) F2
      (by simp [RBT.RedBlack, RBT.NoRedRed, RBT.Balanced])
      (by simp [RBT.RedBlack, RBT.NoRedRed, RBT.Balanced]) rfl
      (by simpa [RBT.bh] using hrb1.2.2.2.2.2) hrb1.2.2.2.1 (by simpa using hrb1.1)
    have hfa : s.fresh ≠ f.addr := fun he => by
      have := F1.bound f.addr (by simp [ctxAddrs])
      omega
    have hpf := F1.heap_frame
    have hcmp : (k > (f.cell none (ctxPtr fs)).Data) = (f.isLeft = false) := by
      rcases f with ⟨p, pc, pk, pr⟩ | ⟨p, pc, pl, pk⟩
      · simpa using hi1.1
      · simpa using hi1.1
    refine ⟨s1, T1, f :: fs, ?_, R1, hrb2, hp1.symm, hi1, ?_, ?_, hf2⟩
    · simp only [RBT.ptr_node, ctxPtr_nil, ctxPtr_cons, RBT.ptr_nil, TreeSet.fuel] at e1 hpf
      simp only [hroot] at e2
      simp only [TreeSet.Insert, hroot, TreeSet.FindParentDataInserted, e1, TreeSet.newNode,
        TreeSet.setParent, TreeSet.setLeft, TreeSet.setRight, Heap.write_same,
        Heap.write_other _ _ hfa.symm, hpf, hcmp,
        Option.bind_eq_bind, Option.some_bind, TreeSet.fuel]
      rcases f with ⟨p, pc, pk, pr⟩ | ⟨p, pc, pl, pk⟩
      · simp only [Frame.isLeft_left, Frame.cell_left, Frame.addr_left, reduceCtorEq,
          if_false, Option.some_bind, Heap.write_other _ _ hfa.symm, hpf, TreeSet.fuel] at e2 ⊢
        rw [e2]; rfl
      · simp only [Frame.isLeft_right, Frame.cell_right, Frame.addr_right,
          if_true, Option.some_bind, Heap.write_other _ _ hfa.symm, hpf, TreeSet.fuel] at e2 ⊢
        rw [e2]; rfl
    · rw [hk2, keys_plug]; simp [RBT.keys]
    · rw [hs2, ← hp1, size_plug, size_plug]; simp [RBT.size]

/-! ## `FindNode` and the order of the keys -/

/-- The loop of `FindNode` either reaches an absent child or stops at a node holding
the key. -/
theorem FindNodeLoop_spec {s : TreeSet} (k : Int) : ∀ (t : RBT) (fs : List Frame) (fuel : Nat),
    Focus s fs t → SearchPath k fs → t.height < fuel →
    (∃ fs1, FindNodeLoop fuel s.heap t.ptr k = some none ∧ plug fs1 .nil = plug fs t ∧
        SearchPath k fs1) ∨
    (∃ fs1 a c l r, FindNodeLoop fuel s.heap t.ptr k = some (some a) ∧
        plug fs1 (.node a c l k r) = plug fs t ∧ SearchPath k fs1)
  | .nil, fs, fuel, _, hp, hfuel => by
    obtain ⟨fuel, rfl⟩ : ∃ m, fuel = m + 1 := ⟨fuel - 1, by omega⟩
    exact Or.inl ⟨fs, rfl, rfl, hp⟩
  | .node a c l kk r, fs, fuel, h, hp, hfuel => by
    obtain ⟨fuel, rfl⟩ : ∃ m, fuel = m + 1 := ⟨fuel - 1, by simp [RBT.height] at hfuel; omega⟩
    have ha := h.heap_node
    simp only [RBT.height] at hfuel
    by_cases hke : k = kk
    · subst hke
      refine Or.inr ⟨fs, a, c, l, r, ?_, rfl, hp⟩
      simp only [FindNodeLoop, RBT.ptr_node, ha, if_true]
    · by_cases hk : k > kk
      · have := FindNodeLoop_spec k r (.right a c l kk :: fs) fuel
          (Focus.down (f := .right a c l kk) h) ⟨hk, hp⟩ (by omega)
        simpa only [FindNodeLoop, RBT.ptr_node, ha, hke, hk, if_true, if_false, plug_cons,
          Frame.fill_right] using this
      · have := FindNodeLoop_spec k l (.left a c kk r :: fs) fuel
          (Focus.down (f := .left a c kk r) h)
          ⟨lt_of_le_of_ne (not_lt.1 hk) hke, hp⟩ (by omega)
        simpa only [FindNodeLoop, RBT.ptr_node, ha, hke, hk, if_true, if_false, plug_cons,
          Frame.fill_left] using this

theorem sorted_of_plug (fs : List Frame) (t : RBT)
    (h : (plug fs t).keys.Sorted (· ≤ ·)) : t.keys.Sorted (· ≤ ·) := by
  rw [keys_plug] at h
  exact (List.pairwise_append.1 (List.pairwise_append.1 h).1).2.1

/-- On a sorted tree the keys before the hole of a search path are smaller than the
key looked for and the keys after it are larger. -/
theorem searchPath_bounds {k : Int} : ∀ (fs : List Frame) {t : RBT},
    (plug fs t).keys.Sorted (· ≤ ·) → SearchPath k fs →
    (∀ x ∈ ctxKeysBefore fs, x < k) ∧ (∀ y ∈ ctxKeysAfter fs, k < y)
  | [], _, _, _ => by simp [ctxKeysBefore, ctxKeysAfter]
  | .left a c kk r :: fs, t, hs, hp => by
    have ih := searchPath_bounds fs hs hp.2
    have hs1 := sorted_of_plug fs ((Frame.left a c kk r).fill t) hs
    simp only [Frame.fill_left, RBT.keys] at hs1
    have hs2 := (List.pairwise_append.1 hs1).2.1
    simp only [ctxKeysBefore, ctxKeysAfter]
    refine ⟨ih.1, fun y hy => ?_⟩
    simp only [List.cons_append, List.mem_cons, List.mem_append] at hy
    rcases hy with rfl | hy | hy
    · exact hp.1
    · exact lt_of_lt_of_le hp.1 (List.rel_of_pairwise_cons hs2 hy)
    · exact ih.2 y hy
  | .right a c l kk :: fs, t, hs, hp => by
    have ih := searchPath_bounds fs hs hp.2
    have hs1 := sorted_of_plug fs ((Frame.right a c l kk).fill t) hs
    simp only [Frame.fill_right, RBT.keys] at hs1
    have hs2 := (List.pairwise_append.1 hs1)
    simp only [ctxKeysBefore, ctxKeysAfter]
    refine ⟨fun x hx => ?_, ih.2⟩
    simp only [List.mem_append, List.mem_singleton] at hx
    rcases hx with hx | hx | rfl
    · exact ih.1 x hx
    · exact lt_of_le_of_lt (hs2.2.2 x hx kk (List.mem_cons_self _ _)) hp.1
    · exact hp.1

/-- The same for the path of `FindParentDataInserted`, where equal keys lie after the hole. -/
theorem insertPath_bounds {k : Int} : ∀ (fs : List Frame) {t : RBT},
    (plug fs t).keys.Sorted (· ≤ ·) → InsertPath k fs →
    (∀ x ∈ ctxKeysBefore fs, x < k) ∧ (∀ y ∈ ctxKeysAfter fs, k ≤ y)
  | [], _, _, _ => by simp [ctxKeysBefore, ctxKeysAfter]
  | .left a c kk r :: fs, t, hs, hp => by
    have ih := insertPath_bounds fs hs hp.2
    have hs1 := sorted_of_plug fs ((Frame.left a c kk r).fill t) hs
    simp only [Frame.fill_left, RBT.keys] at hs1
    have hs2 := (List.pairwise_append.1 hs1).2.1
    simp only [ctxKeysBefore, ctxKeysAfter]
    refine ⟨ih.1, fun y hy => ?_⟩
    simp only [List.cons_append, List.mem_cons, List.mem_append] at hy
    rcases hy with rfl | hy | hy
    · exact hp.1
    · exact le_trans hp.1 (List.rel_of_pairwise_cons hs2 hy)
    · exact ih.2 y hy
  | .right a c l kk :: fs, t, hs, hp => by
    have ih := insertPath_bounds fs hs hp.2
    have hs1 := sorted_of_plug fs ((Frame.right a c l kk).fill t) hs
    simp only [Frame.fill_right, RBT.keys] at hs1
    have hs2 := (List.pairwise_append.1 hs1)
    simp only [ctxKeysBefore, ctxKeysAfter]
    refine ⟨fun x hx => ?_, ih.2⟩
    simp only [List.mem_append, List.mem_singleton] at hx
    rcases hx with hx | hx | rfl
    · exact ih.1 x hx
    · exact lt_of_le_of_lt (hs2.2.2 x hx kk (List.mem_cons_self _ _)) hp.1
    · exact hp.1

/-- On a sorted tree `FindNode` returns a node exactly when the key is present. -/
theorem FindNode_spec {s : TreeSet} {T : RBT} (k : Int) (hR : Represents s T)
    (hs : T.keys.Sorted (· ≤ ·)) :
    (s.FindNode k = some none ∧ k ∉ T.keys) ∨
    (∃ fs a c l r, s.FindNode k = some (some a) ∧ T = plug fs (.node a c l k r) ∧
      SearchPath k fs) := by
  have F0 : Focus s [] T := Represents.focus [] hR
  rcases FindNodeLoop_spec k T [] s.fuel F0 trivial hR.height_lt_fuel with
    ⟨fs1, e1, hp1, hs1⟩ | ⟨fs1, a, c, l, r, e1, hp1, hs1⟩
  · left
    refine ⟨by simpa only [TreeSet.FindNode, hR.root] using e1, ?_⟩
    simp only [plug_nil] at hp1
    rw [← hp1] at hs ⊢
    have hb := searchPath_bounds _ hs hs1
    rw [keys_plug]
    simp only [RBT.keys, List.append_nil, List.mem_append, not_or]
    exact ⟨fun hm => lt_irrefl _ (hb.1 k hm), fun hm => lt_irrefl _ (hb.2 k hm)⟩
  · right
    exact ⟨fs1, a, c, l, r, by simpa only [TreeSet.FindNode, hR.root] using e1, hp1.symm, hs1⟩

/-! ## Duplicates and absent keys -/

theorem RBT.BST.sorted_lt : ∀ {t : RBT}, t.BST → t.keys.Sorted (· < ·)
  | .nil, _ => List.sorted_nil
  | .node a c l k r, h => by
    obtain ⟨h1, h2, h3, h4⟩ := h
    simp only [RBT.keys]
    refine List.pairwise_append.2 ⟨h3.sorted_lt, List.pairwise_cons.2 ⟨h2, h4.sorted_lt⟩, ?_⟩
    intro x hx y hy
    rcases List.mem_cons.1 hy with rfl | hy
    · exact h1 x hx
    · exact lt_trans (h1 x hx) (h2 y hy)

theorem RBT.BST.sorted_le {t : RBT} (h : t.BST) : t.keys.Sorted (· ≤ ·) :=
  h.sorted_lt.imp (fun hab => le_of_lt hab)

/-- C1 (the code departs from the specification): a key that is already present is inserted
again; the second `Insert(1)` returns `true`, `Count()` goes from 1 to 2 and the
in-order key sequence becomes `[1, 1]`. -/
theorem insert_duplicate_is_accepted :
    exampleOne.bind (fun r => r.2.Search 1) = some true ∧
    exampleOne.bind (fun r => r.2.Count) = some 1 ∧
    exampleOneOne.map Prod.fst = some true ∧
    exampleOneOne.bind (fun r => r.2.Count) = some 2 ∧
    exampleOneOne.bind (fun r => r.2.InOrder) = some [1, 1] := by
  decide

/-- C3 (the code departs from the specification): the tree reached by `Insert(1); Insert(1)` has
the in-order key sequence `[1, 1]`, which is not strictly increasing. -/
theorem reachable_inorder_not_strict :
    ∃ s, Reachable s ∧ s.InOrder = some [1, 1] ∧ ¬ ([1, 1] : List Int).Sorted (· < ·) := by
  have h1 : ∃ r, exampleOne = some r :=
    Option.isSome_iff_exists.1 (by decide)
  obtain ⟨r1, hr1⟩ := h1
  have h2 : ∃ r, exampleOneOne = some r :=
    Option.isSome_iff_exists.1 (by decide)
  obtain ⟨r2, hr2⟩ := h2
  have e2 : r1.2.Insert 1 = some r2 := by
    have := hr2
    simp only [exampleOneOne, hr1, Option.some_bind] at this
    exact this
  have hio : exampleOneOne.bind (fun r => r.2.InOrder) = some [1, 1] := by decide
  refine ⟨r2.2, ?_, ?_, by decide⟩
  · exact Reachable.insert (b := r2.1) 1 (Reachable.insert (b := r1.1) 1 Reachable.empty hr1) e2
  · simpa only [hr2, Option.some_bind] using hio

/-- C9 (the code departs from the specification): after `Insert(1); Insert(1)` the call
`Remove(1)` returns `true` and `Search(1)` still returns `true`. -/
theorem search_after_remove_of_duplicate :
    exampleOneOneRemoved.map Prod.fst = some true ∧
    exampleOneOneRemoved.bind (fun r => r.2.Search 1) = some true ∧
    exampleOneOneRemoved.bind (fun r => r.2.Count) = some 1 := by
  decide

/-- C2: on a tree in strict binary-search-tree order `Remove(k)` returns `false` exactly
when no node holds `k`, and then the state is left as it was. -/
theorem remove_false_iff_absent {s : TreeSet} {T : RBT} (k : Int) (hR : Represents s T)
    (hbst : T.BST) :
    ((∃ s1, s.Remove k = some (false, s1)) ↔ k ∉ T.keys) ∧
    (∀ s1, s.Remove k = some (false, s1) → s1 = s) := by
  rcases FindNode_spec k hR hbst.sorted_le with ⟨hf, hk⟩ | ⟨fs, a, c, l, r, hf, hT, -⟩
  · have e : s.Remove k = some (false, s) := by simp only [TreeSet.Remove, hf]
    refine ⟨⟨fun _ => hk, fun _ => ⟨s, e⟩⟩, fun s1 h1 => ?_⟩
    rw [e] at h1
    exact (congrArg Prod.snd (Option.some.inj h1)).symm
  · have hmem : k ∈ T.keys := by rw [hT, keys_plug]; simp [RBT.keys]
    have hne : ∀ s1, s.Remove k ≠ some (false, s1) := by
      intro s1 h1
      simp only [TreeSet.Remove, hf, Option.bind_eq_bind, Option.bind_eq_some] at h1
      obtain ⟨_, _, _, _, _, _, _, _, h2⟩ := h1
      simp at h2
    exact ⟨⟨fun ⟨s1, h1⟩ => absurd h1 (hne s1), fun h => absurd hmem h⟩,
      fun s1 h1 => absurd h1 (hne s1)⟩

theorem witnessState_represents : Represents witnessState witnessTree where
  root := rfl
  rep := by simp [witnessTree, witnessState, Layout]
  nodup := by decide
  bound := by decide

theorem witnessTree_bst : witnessTree.BST := by
  simp [witnessTree, RBT.BST, RBT.keys]

theorem remove_false_iff_absent_witness :
    Represents witnessState witnessTree ∧ witnessTree.BST ∧
    (((∃ s1, witnessState.Remove 5 = some (false, s1)) ↔ 5 ∉ witnessTree.keys) ∧
      (∀ s1, witnessState.Remove 5 = some (false, s1) → s1 = witnessState)) :=
  ⟨witnessState_represents, witnessTree_bst,
    remove_false_iff_absent 5 witnessState_represents witnessTree_bst⟩

/-! ## Heap-level effect of the steps of `Remove` -/

/-- A state whose heap agrees with `s` on the addresses of the tree holds the same tree. -/
theorem Focus.frame {s : TreeSet} {fs : List Frame} {t : RBT} (h : Focus s fs t) (h1 : Heap)
    (hx : ∀ x ∈ ctxAddrs fs ++ t.addrs, h1 x = s.heap x) :
    Focus ⟨h1, s.m_pRoot, s.fresh⟩ fs t where
  root := h.root
  path := PathLayout_congr (fun x hm => hx x (List.mem_append_left _ hm)) h.path
  sub := Layout_congr (fun x hm => hx x (List.mem_append_right _ hm)) h.sub
  nodup := h.nodup
  bound := h.bound

theorem Focus.root_iff_ptr {s : TreeSet} {fs : List Frame} {t : RBT} {a : Nat}
    (h : Focus s fs t) (ht : t.ptr = some a) : s.m_pRoot = some a ↔ fs = [] := by
  cases t with
  | nil => simp at ht
  | node a1 c l k r =>
    simp only [RBT.ptr_node, Option.some.injEq] at ht
    subst ht
    exact h.root_iff

/-- Overwriting the key of the focused node. -/
theorem Focus.setData {s : TreeSet} {fs : List Frame} {a c l k r}
    (h : Focus s fs (.node a c l k r)) (k1 : Int) :
    ∃ s1, s.setData a k1 = some s1 ∧ Focus s1 fs (.node a c l k1 r) ∧ s1.fresh = s.fresh := by
  have ha := h.heap_node
  have hnd := h.nodup
  simp only [RBT.addrs, List.nodup_append, List.nodup_cons, List.mem_append, List.mem_cons,
    List.disjoint_append_right, List.disjoint_cons_right, List.disjoint_append_left,
    List.disjoint_cons_left, not_or] at hnd
  refine ⟨{ s with heap := s.heap.write a ⟨k1, c, ctxPtr fs, l.ptr, r.ptr⟩ },
    by simp only [TreeSet.setData, ha], ⟨?_, ?_, ?_, ?_, ?_⟩, rfl⟩
  · exact h.root.trans (ptr_plug_same fs rfl)
  · exact (PathLayout_write (by tauto)).2 h.path
  · have hs := h.sub
    simp only [Layout] at hs ⊢
    exact ⟨by simp, (Layout_write (by tauto)).2 hs.2.1, (Layout_write (by tauto)).2 hs.2.2⟩
  · exact h.nodup
  · exact h.bound

/-- The one-child case of `Remove`: the child takes the place of the node, which stays in
memory with its fields as they were. -/
theorem Focus.spliceOut {s : TreeSet} {fs : List Frame} {x c kx l r q qc ql qk qr}
    (h : Focus s fs (.node x c l kx r))
    (hch : (l = .node q qc ql qk qr ∧ r = .nil) ∨ (l = .nil ∧ r = .node q qc ql qk qr)) :
    ∃ s2, s.removeOneChild x ⟨kx, c, ctxPtr fs, l.ptr, r.ptr⟩ (some q) = some (s2, x) ∧
      Focus s2 fs (.node q qc ql qk qr) ∧ s2.heap x = s.heap x ∧ s2.fresh = s.fresh := by
  have hx := h.heap_node
  have hnd := h.nodup
  have hbd := h.bound
  have hsub := h.sub
  have hpath := h.path
  have hr := h.root
  have hroot := h.root_iff
  have hnd2 : (ctxAddrs fs ++ (RBT.node q qc ql qk qr).addrs).Nodup := by
    refine hnd.sublist (List.Sublist.append (List.Sublist.refl _) ?_)
    rcases hch with ⟨rfl, rfl⟩ | ⟨rfl, rfl⟩ <;> simp [RBT.addrs]
  have hbd2 : ∀ y ∈ ctxAddrs fs ++ (RBT.node q qc ql qk qr).addrs, y < s.fresh := by
    intro y hy
    refine hbd y ?_
    rcases hch with ⟨rfl, rfl⟩ | ⟨rfl, rfl⟩ <;>
      simp only [RBT.addrs, List.mem_append, List.mem_cons] at hy ⊢ <;> tauto
  rcases fs with _ | ⟨f, fs⟩
  · rcases hch with ⟨rfl, rfl⟩ | ⟨rfl, rfl⟩
    all_goals
      simp only [RBT.addrs, ctxAddrs, List.nodup_append, List.nodup_cons, List.mem_append,
        List.mem_cons, List.disjoint_append_right, List.disjoint_cons_right,
        List.disjoint_append_left, List.disjoint_cons_left, not_or] at hnd
      try simp only [@eq_comm Nat] at hnd
      simp only [Layout, RBT.ptr_node, RBT.ptr_nil, ctxPtr_nil, ctxPtr_cons] at hsub hx
      simp only [TreeSet.removeOneChild, TreeSet.setParent, hsub, ctxPtr_nil,
        Option.bind_eq_bind, Option.some_bind, Option.some.injEq, exists_eq_left',
        Prod.mk.injEq, and_true]
      refine ⟨⟨rfl, trivial, ?_, hnd2, hbd2⟩, ?_⟩
      · simp [Layout, Heap.write, Layout_write, hnd, hsub, @eq_comm Nat]
      · simp [Heap.write, hnd, hx, @eq_comm Nat]
  · have hr2 : s.m_pRoot = (plug (f :: fs) (.node q qc ql qk qr)).ptr :=
      hr.trans (ptr_plug_cons _ _ _ _)
    have hsp : ¬ f.sib.ptr = some x := h.sib_ptr_ne rfl
    rcases f with ⟨p, pc, pk, pr⟩ | ⟨p, pc, pl, pk⟩ <;> rcases hch with ⟨rfl, rfl⟩ | ⟨rfl, rfl⟩
    all_goals
      simp only [RBT.addrs, ctxAddrs, List.nodup_append, List.nodup_cons, List.mem_append,
        List.mem_cons, List.disjoint_append_right, List.disjoint_cons_right,
        List.disjoint_append_left, List.disjoint_cons_left, not_or, Frame.addr_left,
        Frame.addr_right, Frame.sib_left, Frame.sib_right] at hnd hsp
      try simp only [@eq_comm Nat] at hnd
      simp only [Layout, PathLayout, RBT.ptr_node, RBT.ptr_nil, ctxPtr_nil, ctxPtr_cons,
        Frame.addr_left, Frame.addr_right] at hsub hx hpath
      simp only [TreeSet.removeOneChild, Prod.mk.injEq, and_true,
        TreeSet.setParent, TreeSet.setLeft, TreeSet.setRight, hsub, hpath, hsp,
        Heap.write, hnd, @eq_comm Nat, ctxPtr_cons, Frame.addr_left, Frame.addr_right,
        Option.bind_eq_bind, Option.some_bind, Option.some.injEq, exists_eq_left', ite_true,
        ite_false, if_true, if_false, reduceCtorEq, not_false_eq_true]
      refine ⟨hr2, ?_, ?_, hnd2, hbd2⟩
      · simp [PathLayout, Heap.write, Layout_write, PathLayout_write, hnd, hpath, @eq_comm Nat]
      · simp [Layout, Heap.write, Layout_write, hnd, hsub, @eq_comm Nat]

/-- `ConnectPredecessorChildToParent`: the left child of the predecessor takes the
predecessor's place; the predecessor stays in memory with its fields as they were. -/
theorem Focus.connectPredecessorChild {s : TreeSet} {f : Frame} {fs : List Frame}
    {p pc kp q qc ql qk qr}
    (h : Focus s (f :: fs) (.node p pc (.node q qc ql qk qr) kp .nil)) :
    ∃ s2, s.ConnectPredecessorChildToParent p q = some s2 ∧
      Focus s2 (f :: fs) (.node q qc ql qk qr) ∧ s2.heap p = s.heap p ∧
      s2.fresh = s.fresh := by
  have hx := h.heap_node
  have hnd := h.nodup
  have hbd := h.bound
  have hsub := h.sub
  have hpath := h.path
  have hr := h.root
  have hir := h.isRight rfl
  have hnd2 : (ctxAddrs (f :: fs) ++ (RBT.node q qc ql qk qr).addrs).Nodup := by
    refine hnd.sublist (List.Sublist.append (List.Sublist.refl _) ?_)
    simp [RBT.addrs]
  have hbd2 : ∀ y ∈ ctxAddrs (f :: fs) ++ (RBT.node q qc ql qk qr).addrs, y < s.fresh := by
    intro y hy
    refine hbd y ?_
    simp only [RBT.addrs, List.mem_append, List.mem_cons] at hy ⊢
    tauto
  have hr2 : s.m_pRoot = (plug (f :: fs) (.node q qc ql qk qr)).ptr :=
    hr.trans (ptr_plug_cons _ _ _ _)
  rcases f with ⟨a, ac, ak, ar⟩ | ⟨a, ac, al, ak⟩
  all_goals
    simp only [RBT.addrs, ctxAddrs, List.nodup_append, List.nodup_cons, List.mem_append,
      List.mem_cons, List.disjoint_append_right, List.disjoint_cons_right,
      List.disjoint_append_left, List.disjoint_cons_left, not_or, Frame.addr_left,
      Frame.addr_right, Frame.sib_left, Frame.sib_right] at hnd
    try simp only [@eq_comm Nat] at hnd
    simp only [Layout, PathLayout, RBT.ptr_node, RBT.ptr_nil, ctxPtr_nil, ctxPtr_cons,
      Frame.addr_left, Frame.addr_right, Frame.isLeft_left, Frame.isLeft_right, Bool.not_true,
      Bool.not_false] at hsub hx hpath hir
    simp only [TreeSet.ConnectPredecessorChildToParent, hir,
      TreeSet.setParent, TreeSet.setLeft, TreeSet.setRight, hsub, hpath,
      Heap.write, hnd, @eq_comm Nat, ctxPtr_cons, Frame.addr_left, Frame.addr_right,
      Option.bind_eq_bind, Option.some_bind, Option.some.injEq, exists_eq_left', ite_true,
      ite_false, if_true, if_false, reduceCtorEq, not_false_eq_true, Bool.false_eq_true,
      and_true]
    refine ⟨hr2, ?_, ?_, hnd2, hbd2⟩
    · simp [PathLayout, Heap.write, Layout_write, PathLayout_write, hnd, hpath, @eq_comm Nat]
    · simp [Layout, Heap.write, Layout_write, hnd, hsub, @eq_comm Nat]

theorem Layout_free {h : Heap} {t : RBT} {par : Option Nat} {a : Nat}
    (ha : a ∉ t.addrs) : Layout (h.free a) par t ↔ Layout h par t :=
  ⟨Layout_congr (fun x hx => by
      simp only [Heap.free]; rw [if_neg]; rintro rfl; exact ha hx),
   Layout_congr (fun x hx => by
      simp only [Heap.free]; rw [if_neg]; rintro rfl; exact ha hx)⟩

theorem PathLayout_free {h : Heap} {fs : List Frame} {p : Option Nat} {a : Nat}
    (ha : a ∉ ctxAddrs fs) : PathLayout (h.free a) fs p ↔ PathLayout h fs p :=
  ⟨PathLayout_congr (fun x hx => by
      simp only [Heap.free]; rw [if_neg]; rintro rfl; exact ha hx),
   PathLayout_congr (fun x hx => by
      simp only [Heap.free]; rw [if_neg]; rintro rfl; exact ha hx)⟩

/-- `DeleteNode` on a node that is no longer linked from the tree: its cell is released
and nothing else changes. -/
theorem Focus.deleteFloating {s : TreeSet} {fs : List Frame} {t : RBT} {x : Nat} {n : TreeNode}
    (h : Focus s fs t) (hx : x ∉ ctxAddrs fs ++ t.addrs) (hn : s.heap x = some n)
    (hp : n.Parent = ctxPtr fs) :
    ∃ s1, s.DeleteNode x = some s1 ∧ Focus s1 fs t ∧ s1.fresh = s.fresh := by
  have hroot : ¬ s.m_pRoot = some x := by
    intro hr
    have := RBT.ptr_mem (h.root.symm.trans hr)
    exact hx ((addrs_plug_perm fs t).mem_iff.1 this)
  have hF : Focus ⟨s.heap.free x, s.m_pRoot, s.fresh⟩ fs t :=
    h.frame _ (fun y hy => by
      simp only [Heap.free]; rw [if_neg]; rintro rfl; exact hx hy)
  refine ⟨_, ?_, hF, rfl⟩
  simp only [List.mem_append, not_or] at hx
  rcases fs with _ | ⟨f, fs⟩
  · simp only [ctxPtr_nil] at hp
    simp only [TreeSet.DeleteNode, hroot, hn, hp, if_false, Option.bind_eq_bind,
      Option.some_bind]
  · have hf := h.heap_frame
    have h1 : ¬ t.ptr = some x := RBT.ptr_ne hx.2
    have h2 : ¬ f.sib.ptr = some x := RBT.ptr_ne (fun hm => hx.1 (by simp [ctxAddrs, hm]))
    simp only [ctxPtr_cons] at hp
    rcases f with ⟨a, ac, ak, ar⟩ | ⟨a, ac, al, ak⟩
    all_goals
      simp only [Frame.addr_left, Frame.addr_right, Frame.cell_left, Frame.cell_right,
        Frame.sib_left, Frame.sib_right] at hf hp h2
      simp only [TreeSet.DeleteNode, hroot, hn, hp, hf, h1, h2, if_false, Option.bind_eq_bind,
        Option.some_bind]

/-- `DeleteNode` on a leaf that hangs below its parent. -/
theorem Focus.deleteLeaf {s : TreeSet} {f : Frame} {fs : List Frame} {x c k}
    (h : Focus s (f :: fs) (.node x c .nil k .nil)) :
    ∃ s1, s.DeleteNode x = some s1 ∧ Focus s1 (f :: fs) .nil ∧ s1.fresh = s.fresh := by
  have hroot : ¬ s.m_pRoot = some x := by rw [h.root_iff]; simp
  have hx := h.heap_node
  have hf := h.heap_frame
  have hnd := h.nodup
  have hbd := h.bound
  have hpath := h.path
  have hsp := h.sib_ptr_ne rfl
  have hnd2 : (ctxAddrs (f :: fs) ++ RBT.nil.addrs).Nodup := by
    refine hnd.sublist (List.Sublist.append (List.Sublist.refl _) ?_)
    simp [RBT.addrs]
  have hbd2 : ∀ y ∈ ctxAddrs (f :: fs) ++ RBT.nil.addrs, y < s.fresh := by
    intro y hy
    refine hbd y ?_
    simp only [RBT.addrs, List.mem_append, List.mem_cons] at hy ⊢
    tauto
  have hr2 : s.m_pRoot = (plug (f :: fs) .nil).ptr := h.root.trans (ptr_plug_cons _ _ _ _)
  rcases f with ⟨a, ac, ak, ar⟩ | ⟨a, ac, al, ak⟩
  all_goals
    simp only [RBT.addrs, ctxAddrs, List.nodup_append, List.nodup_cons, List.mem_append,
      List.mem_cons, List.disjoint_append_right, List.disjoint_cons_right,
      List.disjoint_append_left, List.disjoint_cons_left, not_or, Frame.addr_left,
      Frame.addr_right, Frame.sib_left, Frame.sib_right, List.nil_append, List.append_nil,
      List.disjoint_nil_right, List.not_mem_nil, not_false_eq_true, List.nodup_nil, and_true,
      true_and] at hnd hsp
    try simp only [@eq_comm Nat] at hnd
    simp only [PathLayout, RBT.ptr_node, RBT.ptr_nil, ctxPtr_nil, ctxPtr_cons,
      Frame.addr_left, Frame.addr_right, Frame.cell_left, Frame.cell_right] at hx hpath hf
    simp only [TreeSet.DeleteNode, hroot, hx, hf, hsp, TreeSet.setLeft, TreeSet.setRight,
      Option.bind_eq_bind, Option.some_bind, Option.some.injEq, exists_eq_left', ite_true,
      ite_false, if_true, if_false, reduceCtorEq, not_false_eq_true, and_true]
    refine ⟨hr2, ?_, trivial, hnd2, hbd2⟩
    simp only [PathLayout, RBT.ptr_nil, ctxPtr_cons]
    refine ⟨by simp [Heap.free, Heap.write, hnd, @eq_comm Nat], ?_, ?_⟩
    · rw [Layout_free (by tauto), Layout_write (by tauto)]; exact hpath.2.1
    · rw [PathLayout_free (by tauto), PathLayout_write (by tauto)]; exact hpath.2.2

/-- `DeleteNode` on the last node: the tree becomes empty. -/
theorem Focus.deleteRoot {s : TreeSet} {x c l k r} (h : Focus s [] (.node x c l k r)) :
    ∃ s1, s.DeleteNode x = some s1 ∧ Represents s1 .nil ∧ s1.fresh = s.fresh := by
  have hroot : s.m_pRoot = some x := h.root_iff.2 rfl
  refine ⟨⟨s.heap.free x, none, s.fresh⟩, by simp only [TreeSet.DeleteNode, hroot, if_true],
    ⟨rfl, trivial, ?_, ?_⟩, rfl⟩
  · simp [RBT.addrs]
  · simp [RBT.addrs]

/-! ## The double-black repair on the heap: single steps -/

@[simp] theorem Frame.like_left (a c k r a1 c1 k1 t) :
    (Frame.left a c k r).like a1 c1 k1 t = .left a1 c1 k1 t := rfl
@[simp] theorem Frame.like_right (a c l k a1 c1 k1 t) :
    (Frame.right a c l k).like a1 c1 k1 t = .right a1 c1 t k1 := rfl
@[simp] theorem Frame.sibNode_left (a c k r a1 c1 k1 n f) :
    (Frame.left a c k r).sibNode a1 c1 k1 n f = .node a1 c1 n k1 f := rfl
@[simp] theorem Frame.sibNode_right (a c l k a1 c1 k1 n f) :
    (Frame.right a c l k).sibNode a1 c1 k1 n f = .node a1 c1 f k1 n := rfl
@[simp] theorem Frame.sib_setSib (f : Frame) (t : RBT) : (f.setSib t).sib = t := by
  cases f <;> rfl
@[simp] theorem Frame.color_setSib (f : Frame) (t : RBT) : (f.setSib t).color = f.color := by
  cases f <;> rfl
@[simp] theorem Frame.color_setColor (f : Frame) (c) : (f.setColor c).color = c := by
  cases f <;> rfl
@[simp] theorem Frame.sib_setColor (f : Frame) (c) : (f.setColor c).sib = f.sib := by
  cases f <;> rfl
@[simp] theorem Frame.isLeft_setSib (f : Frame) (t : RBT) : (f.setSib t).isLeft = f.isLeft := by
  cases f <;> rfl
@[simp] theorem Frame.isLeft_setColor (f : Frame) (c) : (f.setColor c).isLeft = f.isLeft := by
  cases f <;> rfl
@[simp] theorem Frame.isLeft_swap (f : Frame) (t : RBT) : (f.swap t).isLeft = !f.isLeft := by
  cases f <;> rfl
@[simp] theorem Frame.ptr_sibNode (f : Frame) (a c k n t) :
    (f.sibNode a c k n t).ptr = some a := by
  cases f <;> rfl
@[simp] theorem Frame.color_sibNode (f : Frame) (a c k n t) :
    (f.sibNode a c k n t).color = c := by
  cases f <;> rfl

theorem Focus.heap_ptr {s : TreeSet} {fs : List Frame} {t : RBT} {a : Nat}
    (h : Focus s fs t) (ht : t.ptr = some a) :
    ∃ n, s.heap a = some n ∧ n.Parent = ctxPtr fs ∧ n.Color = t.color := by
  cases t with
  | nil => simp at ht
  | node a1 c l k r =>
    simp only [RBT.ptr_node, Option.some.injEq] at ht
    subst ht
    exact ⟨_, h.heap_node, rfl, rfl⟩

/-- What the constructor of `TreeNodeFamily` gathers around the focused node. -/
theorem Focus.family {s : TreeSet} {f : Frame} {fs : List Frame} {X : RBT} {x : Nat}
    (h : Focus s (f :: fs) X) (hx : X.ptr = some x) (sb sc sk near far)
    (hs : f.sib = f.sibNode sb sc sk near far) :
    s.family x = some ⟨f.addr, sb, far.ptr, near.ptr, f.color, sc, far.color, near.color⟩ := by
  obtain ⟨n, hn, hnp, -⟩ := h.heap_ptr hx
  have hir := h.isRight hx
  have hf := h.heap_frame
  have hsw := h.swap
  rw [hs] at hsw
  have hil := hsw.isLeft (Frame.ptr_sibNode _ _ _ _ _ _)
  have hspn := h.sib_ptr_ne hx
  rw [hs] at hspn
  rw [hx] at hf
  simp only [ctxPtr_cons] at hnp
  rcases f with ⟨p, pc, pk, pr⟩ | ⟨p, pc, pl, pk⟩
  · simp only [Frame.sib_left, Frame.sibNode_left] at hs
    subst hs
    have hsb := hsw.heap_node
    have hnear := (Focus.down (f := .left sb sc sk far) hsw).colorOrBlack
    have hfar := (Focus.down (f := .right sb sc near sk) hsw).colorOrBlack
    simp only [Frame.isLeft_left, Frame.swap_left, Frame.isLeft_right, Frame.cell_left,
      Frame.addr_left, Frame.addr_right, Bool.not_true, ctxPtr_cons, Frame.sibNode_left,
      RBT.ptr_node, Frame.color_left] at hir hil hf hsb hnear hfar hspn hnp ⊢
    simp only [TreeSet.family, hir, hn, hnp, hf, hsb, hil, hnear, hfar, Option.bind_eq_bind,
      Option.some_bind, Bool.false_eq_true, if_false]
  · simp only [Frame.sib_right, Frame.sibNode_right] at hs
    subst hs
    have hsb := hsw.heap_node
    have hnear := (Focus.down (f := .right sb sc far sk) hsw).colorOrBlack
    have hfar := (Focus.down (f := .left sb sc sk near) hsw).colorOrBlack
    simp only [Frame.isLeft_left, Frame.swap_right, Frame.isLeft_right, Frame.cell_right,
      Frame.addr_left, Frame.addr_right, Bool.not_false, ctxPtr_cons, Frame.sibNode_right,
      RBT.ptr_node, Frame.color_right] at hir hil hf hsb hnear hfar hspn hnp ⊢
    simp only [TreeSet.family, hir, hn, hnp, hf, hsb, hil, hnear, hfar, Option.bind_eq_bind,
      Option.some_bind, if_true]

@[simp] theorem Frame.sibNode_setColor (f : Frame) (c) :
    (f.setColor c).sibNode = f.sibNode := by
  cases f <;> rfl
@[simp] theorem Frame.sibNode_setSib (f : Frame) (t) : (f.setSib t).sibNode = f.sibNode := by
  cases f <;> rfl
@[simp] theorem Frame.like_setColor (f : Frame) (c) : (f.setColor c).like = f.like := by
  cases f <;> rfl
@[simp] theorem Frame.like_setSib (f : Frame) (t) : (f.setSib t).like = f.like := by
  cases f <;> rfl
@[simp] theorem Frame.setSib_setSib (f : Frame) (t u) : (f.setSib t).setSib u = f.setSib u := by
  cases f <;> rfl
@[simp] theorem Frame.setSib_setColor (f : Frame) (t c) :
    (f.setSib t).setColor c = (f.setColor c).setSib t := by
  cases f <;> rfl
@[simp] theorem Frame.setColor_setColor (f : Frame) (c d) :
    (f.setColor c).setColor d = f.setColor d := by
  cases f <;> rfl
@[simp] theorem Frame.addr_setSib_simp (f : Frame) (t) : (f.setSib t).addr = f.addr := by
  cases f <;> rfl
@[simp] theorem Frame.addr_setColor_simp (f : Frame) (c) : (f.setColor c).addr = f.addr := by
  cases f <;> rfl
@[simp] theorem Frame.addr_like (f : Frame) (a c k t) : (f.like a c k t).addr = a := by
  cases f <;> rfl
@[simp] theorem Frame.color_like (f : Frame) (a c k t) : (f.like a c k t).color = c := by
  cases f <;> rfl
@[simp] theorem Frame.sib_like (f : Frame) (a c k t) : (f.like a c k t).sib = t := by
  cases f <;> rfl
@[simp] theorem Frame.isLeft_like (f : Frame) (a c k t) :
    (f.like a c k t).isLeft = f.isLeft := by
  cases f <;> rfl

/-- Recolouring the sibling of the focused subtree. -/
theorem Focus.setColor_sib {s : TreeSet} {f : Frame} {fs : List Frame} {X : RBT}
    (h : Focus s (f :: fs) X) (sb sc sk near far) (hs : f.sib = f.sibNode sb sc sk near far)
    (c1 : TreeNodeColor) :
    ∃ s1, s.setColor sb c1 = some s1 ∧
      Focus s1 (f.setSib (f.sibNode sb c1 sk near far) :: fs) X ∧ s1.fresh = s.fresh := by
  have hsw := h.swap
  rw [hs] at hsw
  rcases f with ⟨p, pc, pk, pr⟩ | ⟨p, pc, pl, pk⟩
  · obtain ⟨s1, e1, F1, hf1, -, -⟩ := Focus.setColor hsw c1
    exact ⟨s1, e1, Focus.swap (f := .right p pc X pk) F1, hf1⟩
  · obtain ⟨s1, e1, F1, hf1, -, -⟩ := Focus.setColor hsw c1
    exact ⟨s1, e1, Focus.swap (f := .left p pc pk X) F1, hf1⟩

/-- Recolouring the far ("line") nephew. -/
theorem Focus.setColor_far {s : TreeSet} {f : Frame} {fs : List Frame} {X : RBT}
    (h : Focus s (f :: fs) X) (sb sc sk near n nc nk nn nf)
    (hs : f.sib = f.sibNode sb sc sk near (f.sibNode n nc nk nn nf)) (c1 : TreeNodeColor) :
    ∃ s1, s.setColor n c1 = some s1 ∧
      Focus s1 (f.setSib (f.sibNode sb sc sk near (f.sibNode n c1 nk nn nf)) :: fs) X ∧
      s1.fresh = s.fresh := by
  have hsw := h.swap
  rw [hs] at hsw
  rcases f with ⟨p, pc, pk, pr⟩ | ⟨p, pc, pl, pk⟩
  · obtain ⟨s1, e1, F1, hf1, -, -⟩ := (Focus.down (f := .right sb sc near sk) hsw).setColor c1
    exact ⟨s1, e1, Focus.swap (f := .right p pc X pk) F1.up, hf1⟩
  · obtain ⟨s1, e1, F1, hf1, -, -⟩ := (Focus.down (f := .left sb sc sk near) hsw).setColor c1
    exact ⟨s1, e1, Focus.swap (f := .left p pc pk X) F1.up, hf1⟩

/-- Recolouring the near ("tri") nephew. -/
theorem Focus.setColor_near {s : TreeSet} {f : Frame} {fs : List Frame} {X : RBT}
    (h : Focus s (f :: fs) X) (sb sc sk far n nc nk nn nf)
    (hs : f.sib = f.sibNode sb sc sk (f.sibNode n nc nk nn nf) far) (c1 : TreeNodeColor) :
    ∃ s1, s.setColor n c1 = some s1 ∧
      Focus s1 (f.setSib (f.sibNode sb sc sk (f.sibNode n c1 nk nn nf) far) :: fs) X ∧
      s1.fresh = s.fresh := by
  have hsw := h.swap
  rw [hs] at hsw
  rcases f with ⟨p, pc, pk, pr⟩ | ⟨p, pc, pl, pk⟩
  · obtain ⟨s1, e1, F1, hf1, -, -⟩ := (Focus.down (f := .left sb sc sk far) hsw).setColor c1
    exact ⟨s1, e1, Focus.swap (f := .right p pc X pk) F1.up, hf1⟩
  · obtain ⟨s1, e1, F1, hf1, -, -⟩ := (Focus.down (f := .right sb sc far sk) hsw).setColor c1
    exact ⟨s1, e1, Focus.swap (f := .left p pc pk X) F1.up, hf1⟩

theorem Frame.exists_sibNode (f : Frame) {t : RBT} (ht : t ≠ .nil) :
    ∃ a c k near far, t = f.sibNode a c k near far := by
  cases t with
  | nil => exact absurd rfl ht
  | node a c l k r =>
    cases f
    · exact ⟨a, c, k, l, r, rfl⟩
    · exact ⟨a, c, k, r, l, rfl⟩

/-- Rotating the parent toward the focused subtree: the sibling moves up. -/
theorem Focus.rotateToward {s : TreeSet} {f : Frame} {fs : List Frame} {X : RBT}
    (h : Focus s (f :: fs) X) (sb sc sk near far)
    (hs : f.sib = f.sibNode sb sc sk near far) :
    ∃ s1, s.RotateNode f.addr (if (!f.isLeft) = true then .LL else .RR) = some s1 ∧
      Focus s1 (f.setSib near :: f.like sb sc sk far :: fs) X ∧ s1.fresh = s.fresh := by
  rcases f with ⟨p, pc, pk, pr⟩ | ⟨p, pc, pl, pk⟩
  · simp only [Frame.sib_left, Frame.sibNode_left] at hs
    subst hs
    obtain ⟨s1, e1, F1, hf1⟩ := h.up.rotateRR
    exact ⟨s1, e1, Focus.down (f := .left p pc pk near) (Focus.down (f := .left sb sc sk far) F1),
      hf1⟩
  · simp only [Frame.sib_right, Frame.sibNode_right] at hs
    subst hs
    obtain ⟨s1, e1, F1, hf1⟩ := h.up.rotateLL
    exact ⟨s1, e1,
      Focus.down (f := .right p pc near pk) (Focus.down (f := .right sb sc far sk) F1), hf1⟩

/-- Rotating the sibling away from the focused subtree: the near nephew moves up. -/
theorem Focus.rotateAway {s : TreeSet} {f : Frame} {fs : List Frame} {X : RBT}
    (h : Focus s (f :: fs) X) (sb sc sk far n nc nk nnear nfar)
    (hs : f.sib = f.sibNode sb sc sk (f.sibNode n nc nk nnear nfar) far) :
    ∃ s1, s.RotateNode sb (if (!f.isLeft) = true then .RR else .LL) = some s1 ∧
      Focus s1 (f.setSib (f.sibNode n nc nk nnear (f.sibNode sb sc sk nfar far)) :: fs) X ∧
      s1.fresh = s.fresh := by
  have hsw := h.swap
  rw [hs] at hsw
  rcases f with ⟨p, pc, pk, pr⟩ | ⟨p, pc, pl, pk⟩
  · obtain ⟨s1, e1, F1, hf1⟩ := Focus.rotateLL hsw
    exact ⟨s1, e1, Focus.swap (f := .right p pc X pk) F1, hf1⟩
  · obtain ⟨s1, e1, F1, hf1⟩ := Focus.rotateRR hsw
    exact ⟨s1, e1, Focus.swap (f := .left p pc pk X) F1, hf1⟩

/-! ## The double-black repair on the heap: the cases of `RemoveFixupExtraBlack` -/

/-- Parent Black, sibling Red: two recolourings, the parent is rotated toward the node,
and the function calls itself on the same node. -/
theorem ExtraBlack_siblingRed {s : TreeSet} {f : Frame} {fs : List Frame} {X : RBT}
    {x : Nat} (fuel : Nat) (h : Focus s (f :: fs) X) (hx : X.ptr = some x)
    (sb sk near far)
    (hf : f.color = .Black) (hs : f.sib = f.sibNode sb .Red sk near far) :
    ∃ s3, Focus s3 ((f.setColor .Red).setSib near :: f.like sb .Black sk far :: fs) X ∧
      s3.fresh = s.fresh ∧
      TreeSet.RemoveFixupExtraBlack (fuel + 1) s x = TreeSet.RemoveFixupExtraBlack fuel s3 x := by
  have hroot : ¬ s.m_pRoot = some x := by rw [h.root_iff_ptr hx]; simp
  have hir := h.isRight hx
  have hfam := h.family hx _ _ _ _ _ hs
  obtain ⟨s1, e1, F1, hf1⟩ := h.setColor_frame .Red
  obtain ⟨s2, e2, F2, hf2⟩ := F1.setColor_sib sb .Red sk near far (by simpa using hs) .Black
  obtain ⟨s3, e3, F3, hf3⟩ := F2.rotateToward sb .Black sk near far (by simp)
  simp only [Frame.sibNode_setColor, Frame.sibNode_setSib, Frame.like_setColor,
    Frame.like_setSib, Frame.setSib_setSib, Frame.addr_setSib_simp, Frame.addr_setColor_simp,
    Frame.isLeft_setSib, Frame.isLeft_setColor] at e1 e2 e3 F3
  refine ⟨s3, F3, by rw [hf3, hf2, hf1], ?_⟩
  rw [TreeSet.RemoveFixupExtraBlack]
  simp only [hroot, hir, hfam, hf, e1, e2, e3, Option.bind_eq_bind, Option.some_bind,
    if_true, if_false, ite_true, ite_false]

/-- Parent Black, sibling Black, both nephews Black: the sibling becomes Red and the
function calls itself on the parent. -/
theorem ExtraBlack_blackBlack {s : TreeSet} {f : Frame} {fs : List Frame} {X : RBT}
    {x : Nat} (fuel : Nat) (h : Focus s (f :: fs) X) (hx : X.ptr = some x)
    (sb sk near far)
    (hf : f.color = .Black) (hs : f.sib = f.sibNode sb .Black sk near far)
    (hn : near.color = .Black) (hfa : far.color = .Black) :
    ∃ s1, Focus s1 (f.setSib (f.sibNode sb .Red sk near far) :: fs) X ∧
      s1.fresh = s.fresh ∧
      TreeSet.RemoveFixupExtraBlack (fuel + 1) s x =
        TreeSet.RemoveFixupExtraBlack fuel s1 f.addr := by
  have hroot : ¬ s.m_pRoot = some x := by rw [h.root_iff_ptr hx]; simp
  have hir := h.isRight hx
  have hfam := h.family hx _ _ _ _ _ hs
  obtain ⟨s1, e1, F1, hf1⟩ := h.setColor_sib sb .Black sk near far hs .Red
  refine ⟨s1, F1, hf1, ?_⟩
  rw [TreeSet.RemoveFixupExtraBlack]
  simp only [hroot, hir, hfam, hf, hn, hfa, e1, Option.bind_eq_bind, Option.some_bind,
    if_true, if_false, ite_true, ite_false, reduceCtorEq, and_self]

/-- Parent Black, sibling Black, line nephew Red: one recolouring and the rotation of the
parent; the repair is complete. -/
theorem ExtraBlack_blackLine {s : TreeSet} {f : Frame} {fs : List Frame} {X : RBT}
    {x : Nat} (fuel : Nat) (h : Focus s (f :: fs) X) (hx : X.ptr = some x)
    (sb sk near n nk nn nf)
    (hf : f.color = .Black)
    (hs : f.sib = f.sibNode sb .Black sk near (f.sibNode n .Red nk nn nf)) :
    ∃ s2, TreeSet.RemoveFixupExtraBlack (fuel + 1) s x = some s2 ∧
      Focus s2 (f.setSib near :: f.like sb .Black sk (f.sibNode n .Black nk nn nf) :: fs) X ∧
      s2.fresh = s.fresh := by
  have hroot : ¬ s.m_pRoot = some x := by rw [h.root_iff_ptr hx]; simp
  have hir := h.isRight hx
  have hfam := h.family hx _ _ _ _ _ hs
  obtain ⟨s1, e1, F1, hf1⟩ := h.setColor_far sb .Black sk near n .Red nk nn nf hs .Black
  obtain ⟨s2, e2, F2, hf2⟩ := F1.rotateToward sb .Black sk near (f.sibNode n .Black nk nn nf)
    (by simp)
  simp only [Frame.sibNode_setColor, Frame.sibNode_setSib, Frame.like_setColor,
    Frame.like_setSib, Frame.setSib_setSib, Frame.addr_setSib_simp, Frame.addr_setColor_simp,
    Frame.isLeft_setSib, Frame.isLeft_setColor] at e1 e2 F2
  refine ⟨s2, ?_, F2, by rw [hf2, hf1]⟩
  rw [TreeSet.RemoveFixupExtraBlack]
  simp only [hroot, hir, hfam, hf, e1, e2, Option.bind_eq_bind, Option.some_bind,
    if_true, if_false, ite_true, ite_false, reduceCtorEq, and_false, RBT.color_node,
    RBT.ptr_node, Frame.color_sibNode, Frame.ptr_sibNode]

/-- Parent Black, sibling Black, line nephew Black, tri nephew Red: two recolourings, the
sibling is rotated away from the node, and the function calls itself on the same node. -/
theorem ExtraBlack_blackTri {s : TreeSet} {f : Frame} {fs : List Frame} {X : RBT}
    {x : Nat} (fuel : Nat) (h : Focus s (f :: fs) X) (hx : X.ptr = some x)
    (sb sk far n nk nn nf)
    (hf : f.color = .Black)
    (hs : f.sib = f.sibNode sb .Black sk (f.sibNode n .Red nk nn nf) far)
    (hfa : far.color = .Black) :
    ∃ s3, Focus s3 (f.setSib (f.sibNode n .Black nk nn (f.sibNode sb .Red sk nf far)) :: fs) X ∧
      s3.fresh = s.fresh ∧
      TreeSet.RemoveFixupExtraBlack (fuel + 1) s x = TreeSet.RemoveFixupExtraBlack fuel s3 x := by
  have hroot : ¬ s.m_pRoot = some x := by rw [h.root_iff_ptr hx]; simp
  have hir := h.isRight hx
  have hfam := h.family hx _ _ _ _ _ hs
  obtain ⟨s1, e1, F1, hf1⟩ := h.setColor_near sb .Black sk far n .Red nk nn nf hs .Black
  obtain ⟨s2, e2, F2, hf2⟩ := F1.setColor_sib sb .Black sk (f.sibNode n .Black nk nn nf) far
    (by simp) .Red
  obtain ⟨s3, e3, F3, hf3⟩ := F2.rotateAway sb .Red sk far n .Black nk nn nf (by simp)
  simp only [Frame.sibNode_setColor, Frame.sibNode_setSib, Frame.like_setColor,
    Frame.like_setSib, Frame.setSib_setSib, Frame.addr_setSib_simp, Frame.addr_setColor_simp,
    Frame.isLeft_setSib, Frame.isLeft_setColor] at e1 e2 e3 F3
  refine ⟨s3, F3, by rw [hf3, hf2, hf1], ?_⟩
  rw [TreeSet.RemoveFixupExtraBlack]
  simp only [hroot, hir, hfam, hf, hfa, e1, e2, e3, Option.bind_eq_bind, Option.some_bind,
    if_true, if_false, ite_true, ite_false, reduceCtorEq, and_false, false_and,
    Frame.color_sibNode, Frame.ptr_sibNode]

/-- Parent Red, both nephews Black: the sibling becomes Red, the parent Black; the repair
is complete. -/
theorem ExtraBlack_redBlack {s : TreeSet} {f : Frame} {fs : List Frame} {X : RBT}
    {x : Nat} (fuel : Nat) (h : Focus s (f :: fs) X) (hx : X.ptr = some x)
    (sb sk near far)
    (hf : f.color = .Red) (hs : f.sib = f.sibNode sb .Black sk near far)
    (hn : near.color = .Black) (hfa : far.color = .Black) :
    ∃ s2, TreeSet.RemoveFixupExtraBlack (fuel + 1) s x = some s2 ∧
      Focus s2 ((f.setColor .Black).setSib (f.sibNode sb .Red sk near far) :: fs) X ∧
      s2.fresh = s.fresh := by
  have hroot : ¬ s.m_pRoot = some x := by rw [h.root_iff_ptr hx]; simp
  have hir := h.isRight hx
  have hfam := h.family hx _ _ _ _ _ hs
  obtain ⟨s1, e1, F1, hf1⟩ := h.setColor_sib sb .Black sk near far hs .Red
  obtain ⟨s2, e2, F2, hf2⟩ := F1.setColor_frame .Black
  simp only [Frame.setSib_setColor, Frame.addr_setSib_simp] at e2 F2
  refine ⟨s2, ?_, F2, by rw [hf2, hf1]⟩
  rw [TreeSet.RemoveFixupExtraBlack]
  simp only [hroot, hir, hfam, hf, hn, hfa, e1, e2, Option.bind_eq_bind, Option.some_bind,
    if_true, if_false, ite_true, ite_false, reduceCtorEq, and_self, ne_eq, not_true_eq_false]

/-- Parent Red, line nephew Red: three recolourings and the rotation of the parent; the
repair is complete. -/
theorem ExtraBlack_redLine {s : TreeSet} {f : Frame} {fs : List Frame} {X : RBT}
    {x : Nat} (fuel : Nat) (h : Focus s (f :: fs) X) (hx : X.ptr = some x)
    (sb sk near n nk nn nf)
    (hf : f.color = .Red)
    (hs : f.sib = f.sibNode sb .Black sk near (f.sibNode n .Red nk nn nf)) :
    ∃ s4, TreeSet.RemoveFixupExtraBlack (fuel + 1) s x = some s4 ∧
      Focus s4 ((f.setColor .Black).setSib near ::
        f.like sb .Red sk (f.sibNode n .Black nk nn nf) :: fs) X ∧
      s4.fresh = s.fresh := by
  have hroot : ¬ s.m_pRoot = some x := by rw [h.root_iff_ptr hx]; simp
  have hir := h.isRight hx
  have hfam := h.family hx _ _ _ _ _ hs
  obtain ⟨s1, e1, F1, hf1⟩ := h.setColor_far sb .Black sk near n .Red nk nn nf hs .Black
  obtain ⟨s2, e2, F2, hf2⟩ := F1.setColor_sib sb .Black sk near (f.sibNode n .Black nk nn nf)
    (by simp) .Red
  obtain ⟨s3, e3, F3, hf3⟩ := F2.setColor_frame .Black
  obtain ⟨s4, e4, F4, hf4⟩ := F3.rotateToward sb .Red sk near (f.sibNode n .Black nk nn nf)
    (by simp)
  simp only [Frame.sibNode_setColor, Frame.sibNode_setSib, Frame.like_setColor,
    Frame.like_setSib, Frame.setSib_setSib, Frame.addr_setSib_simp, Frame.addr_setColor_simp,
    Frame.isLeft_setSib, Frame.isLeft_setColor, Frame.setSib_setColor] at e1 e2 e3 e4 F4
  refine ⟨s4, ?_, F4, by rw [hf4, hf3, hf2, hf1]⟩
  rw [TreeSet.RemoveFixupExtraBlack]
  simp only [hroot, hir, hfam, hf, e1, e2, e3, e4, Option.bind_eq_bind, Option.some_bind,
    if_true, if_false, ite_true, ite_false, reduceCtorEq, and_false, RBT.color_node,
    RBT.ptr_node, ne_eq, not_true_eq_false, Frame.color_sibNode, Frame.ptr_sibNode]

/-- Parent Red, line nephew Black, tri nephew Red: as under a Black parent. -/
theorem ExtraBlack_redTri {s : TreeSet} {f : Frame} {fs : List Frame} {X : RBT}
    {x : Nat} (fuel : Nat) (h : Focus s (f :: fs) X) (hx : X.ptr = some x)
    (sb sk far n nk nn nf)
    (hf : f.color = .Red)
    (hs : f.sib = f.sibNode sb .Black sk (f.sibNode n .Red nk nn nf) far)
    (hfa : far.color = .Black) :
    ∃ s3, Focus s3 (f.setSib (f.sibNode n .Black nk nn (f.sibNode sb .Red sk nf far)) :: fs) X ∧
      s3.fresh = s.fresh ∧
      TreeSet.RemoveFixupExtraBlack (fuel + 1) s x = TreeSet.RemoveFixupExtraBlack fuel s3 x := by
  have hroot : ¬ s.m_pRoot = some x := by rw [h.root_iff_ptr hx]; simp
  have hir := h.isRight hx
  have hfam := h.family hx _ _ _ _ _ hs
  obtain ⟨s1, e1, F1, hf1⟩ := h.setColor_near sb .Black sk far n .Red nk nn nf hs .Black
  obtain ⟨s2, e2, F2, hf2⟩ := F1.setColor_sib sb .Black sk (f.sibNode n .Black nk nn nf) far
    (by simp) .Red
  obtain ⟨s3, e3, F3, hf3⟩ := F2.rotateAway sb .Red sk far n .Black nk nn nf (by simp)
  simp only [Frame.sibNode_setColor, Frame.sibNode_setSib, Frame.like_setColor,
    Frame.like_setSib, Frame.setSib_setSib, Frame.addr_setSib_simp, Frame.addr_setColor_simp,
    Frame.isLeft_setSib, Frame.isLeft_setColor] at e1 e2 e3 F3
  refine ⟨s3, F3, by rw [hf3, hf2, hf1], ?_⟩
  rw [TreeSet.RemoveFixupExtraBlack]
  simp only [hroot, hir, hfam, hf, hfa, e1, e2, e3, Option.bind_eq_bind, Option.some_bind,
    if_true, if_false, ite_true, ite_false, reduceCtorEq, and_false, false_and,
    Frame.color_sibNode, Frame.ptr_sibNode, ne_eq, not_true_eq_false]

/-- On the root the double-black repair has nothing to do. -/
theorem ExtraBlack_root {s : TreeSet} {X : RBT} {x : Nat} (fuel : Nat) (h : Focus s [] X)
    (hx : X.ptr = some x) : TreeSet.RemoveFixupExtraBlack (fuel + 1) s x = some s := by
  have hroot : s.m_pRoot = some x := (h.root_iff_ptr hx).2 rfl
  rw [TreeSet.RemoveFixupExtraBlack]
  simp only [hroot, if_true]

/-! ## The double-black repair restores the red-black invariants -/

theorem rootColor_black_of_red : ∀ {fs : List Frame},
    rootColor fs .Red = .Black → rootColor fs .Black = .Black
  | [], h => by simp at h
  | _ :: _, h => h

/-- The repair below a Red parent finishes after at most two calls. -/
theorem ExtraBlack_underRed {s : TreeSet} {f : Frame} {fs : List Frame} {X : RBT} {x n : Nat}
    (fuel : Nat) (h : Focus s (f :: fs) X) (hx : X.ptr = some x) (hf : f.color = .Red)
    (hpb : PathBalanced (f :: fs) (n + 1)) (hpn : PathNoRedRed (f :: fs))
    (hrc : rootColor (f :: fs) .Black = .Black) :
    ∃ s1 fs1, TreeSet.RemoveFixupExtraBlack (fuel + 2) s x = some s1 ∧ Focus s1 fs1 X ∧
      s1.fresh = s.fresh ∧ Repairs (f :: fs) fs1 n := by
  have hsne : f.sib ≠ .nil := by
    intro he
    have := hpb.1
    rw [he] at this
    simp [RBT.bh] at this
  have hrc2 : rootColor fs .Black = .Black :=
    rootColor_black_of_red (by simpa [hf] using hrc)
  obtain ⟨sb, sc, sk, near, far, hs⟩ := f.exists_sibNode hsne
  have hsc : sc = .Black := by
    have := (hpn.2.1 hf).1
    rw [hs] at this
    simpa using this
  subst hsc
  cases hfar : far.color with
  | Red =>
    have hfne : far ≠ .nil := by rintro rfl; simp at hfar
    obtain ⟨m, mc, mk, mn, mf, rfl⟩ := f.exists_sibNode hfne
    obtain rfl : mc = .Red := by simpa using hfar
    obtain ⟨s1, e1, F1, hf1⟩ := ExtraBlack_redLine (fuel + 1) h hx _ _ _ _ _ _ _ hf hs
    refine ⟨s1, _, e1, F1, hf1, ?_⟩
    intro Y hYb hYn hYc hYh
    rw [RedBlack_plug]
    clear h F1 e1
    rcases f with ⟨p, pc, pk, pr⟩ | ⟨p, pc, pl, pk⟩
    all_goals
      simp only [Frame.sib_left, Frame.sib_right, Frame.sibNode_left, Frame.sibNode_right,
        Frame.color_left, Frame.color_right] at hs hf
      subst hs hf
      simp_all [RBT.NoRedRed, RBT.Balanced, RBT.bh, PathBalanced, PathNoRedRed, keys_plug,
        size_plug, RBT.keys, RBT.size, ctxKeysBefore, ctxKeysAfter, ctxSize]
      try omega
  | Black =>
    cases hnear : near.color with
    | Red =>
      have hnne : near ≠ .nil := by rintro rfl; simp at hnear
      obtain ⟨m, mc, mk, mn, mf, rfl⟩ := f.exists_sibNode hnne
      obtain rfl : mc = .Red := by simpa using hnear
      obtain ⟨s0, F0, hf0, e0⟩ := ExtraBlack_redTri (fuel + 1) h hx _ _ _ _ _ _ _ hf hs hfar
      obtain ⟨s1, e1, F1, hf1⟩ := ExtraBlack_redLine fuel F0 hx m mk mn sb sk mf far
        (by simpa using hf) (by simp)
      simp only [Frame.sibNode_setSib, Frame.like_setSib, Frame.setSib_setSib,
        Frame.setSib_setColor] at F1
      refine ⟨s1, _, by rw [e0]; exact e1, F1, by rw [hf1, hf0], ?_⟩
      intro Y hYb hYn hYc hYh
      rw [RedBlack_plug]
      clear F1 e1
      clear h
      rcases f with ⟨p, pc, pk, pr⟩ | ⟨p, pc, pl, pk⟩
      all_goals
        simp only [Frame.sib_left, Frame.sib_right, Frame.sibNode_left, Frame.sibNode_right,
          Frame.color_left, Frame.color_right] at hs hf
        subst hs hf
        simp_all [RBT.NoRedRed, RBT.Balanced, RBT.bh, PathBalanced, PathNoRedRed, keys_plug,
          size_plug, RBT.keys, RBT.size, ctxKeysBefore, ctxKeysAfter, ctxSize]
        try omega
    | Black =>
      obtain ⟨s1, e1, F1, hf1⟩ := ExtraBlack_redBlack (fuel + 1) h hx _ _ _ _ hf hs hnear hfar
      refine ⟨s1, _, e1, F1, hf1, ?_⟩
      intro Y hYb hYn hYc hYh
      rw [RedBlack_plug]
      clear F1 e1
      clear h
      rcases f with ⟨p, pc, pk, pr⟩ | ⟨p, pc, pl, pk⟩
      all_goals
        simp only [Frame.sib_left, Frame.sib_right, Frame.sibNode_left, Frame.sibNode_right,
          Frame.color_left, Frame.color_right] at hs hf
        subst hs hf
        simp_all [RBT.NoRedRed, RBT.Balanced, RBT.bh, PathBalanced, PathNoRedRed, keys_plug,
          size_plug, RBT.keys, RBT.size, ctxKeysBefore, ctxKeysAfter, ctxSize]
        try omega

theorem Repairs.of_eq {fs gs fs1 : List Frame} {n : Nat} (h : Repairs gs fs1 n)
    (he : ∀ Y : RBT, (plug gs Y).keys = (plug fs Y).keys ∧ (plug gs Y).size = (plug fs Y).size) :
    Repairs fs fs1 n := by
  intro Y h1 h2 h3 h4
  obtain ⟨r1, r2, r3⟩ := h Y h1 h2 h3 h4
  exact ⟨r1, r2.trans (he Y).1, r3.trans (he Y).2⟩

/-- `RemoveFixupExtraBlack` returns, keeps the node it was called on in the tree, and
turns the path above it into one that makes up for the missing Black node. -/
theorem ExtraBlack_spec (m : Nat) : ∀ (fuel : Nat) (s : TreeSet) (fs : List Frame) (X : RBT)
    (x n : Nat), fs.length ≤ m → m + 3 ≤ fuel → Focus s fs X → X.ptr = some x →
    PathBalanced fs (n + 1) → PathNoRedRed fs → rootColor fs .Black = .Black →
    ∃ s1 fs1, TreeSet.RemoveFixupExtraBlack fuel s x = some s1 ∧ Focus s1 fs1 X ∧
      s1.fresh = s.fresh ∧ Repairs fs fs1 n := by
  induction m with
  | zero =>
    intro fuel s fs X x n hlen hfuel h hx hpb hpn hrc
    obtain ⟨fuel, rfl⟩ : ∃ k, fuel = k + 1 := ⟨fuel - 1, by omega⟩
    obtain rfl : fs = [] := List.length_eq_zero.1 (Nat.le_zero.1 hlen)
    refine ⟨s, [], ExtraBlack_root fuel h hx, h, rfl, ?_⟩
    intro Y h1 h2 h3 _
    exact ⟨⟨h3, h2, h1⟩, rfl, rfl⟩
  | succ m ih =>
    intro fuel s fs X x n hlen hfuel h hx hpb hpn hrc
    obtain ⟨fuel, rfl⟩ : ∃ k, fuel = k + 3 := ⟨fuel - 3, by omega⟩
    rcases fs with _ | ⟨f, fs⟩
    · refine ⟨s, [], ExtraBlack_root (fuel + 2) h hx, h, rfl, ?_⟩
      intro Y h1 h2 h3 _
      exact ⟨⟨h3, h2, h1⟩, rfl, rfl⟩
    · cases hf : f.color with
      | Red => exact ExtraBlack_underRed (fuel + 1) h hx hf hpb hpn hrc
      | Black =>
        have hsne : f.sib ≠ .nil := by
          intro he
          have := hpb.1
          rw [he] at this
          simp [RBT.bh] at this
        have hrc2 : rootColor fs .Black = .Black := by simpa [hf] using hrc
        obtain ⟨sb, sc, sk, near, far, hs⟩ := f.exists_sibNode hsne
        cases sc with
        | Red =>
          obtain ⟨s0, F0, hf0, e0⟩ := ExtraBlack_siblingRed (fuel + 2) h hx _ _ _ _ hf hs
          obtain ⟨s1, fs1, e1, F1, hf1, hR⟩ := ExtraBlack_underRed (n := n) fuel F0 hx (by simp)
            (by
              clear h F0 e0 ih
              rcases f with ⟨p, pc, pk, pr⟩ | ⟨p, pc, pl, pk⟩
              all_goals
                simp only [Frame.sib_left, Frame.sib_right, Frame.sibNode_left,
                  Frame.sibNode_right, Frame.color_left, Frame.color_right] at hs hf
                subst hs hf
                simp_all [RBT.NoRedRed, RBT.Balanced, RBT.bh, PathBalanced, PathNoRedRed]
                try omega)
            (by
              clear h F0 e0 ih
              rcases f with ⟨p, pc, pk, pr⟩ | ⟨p, pc, pl, pk⟩
              all_goals
                simp only [Frame.sib_left, Frame.sib_right, Frame.sibNode_left,
                  Frame.sibNode_right, Frame.color_left, Frame.color_right] at hs hf
                subst hs hf
                simp_all [RBT.NoRedRed, RBT.Balanced, RBT.bh, PathBalanced, PathNoRedRed])
            (by simpa using hrc2)
          refine ⟨s1, fs1, by rw [e0]; exact e1, F1, by rw [hf1, hf0], hR.of_eq ?_⟩
          intro Y
          clear h F0 e0 ih hR F1
          rcases f with ⟨p, pc, pk, pr⟩ | ⟨p, pc, pl, pk⟩
          all_goals
            simp only [Frame.sib_left, Frame.sib_right, Frame.sibNode_left,
              Frame.sibNode_right, Frame.color_left, Frame.color_right] at hs hf
            subst hs hf
            simp [keys_plug, size_plug, RBT.keys, RBT.size, ctxKeysBefore, ctxKeysAfter, ctxSize]
            try omega
        | Black =>
          cases hfar : far.color with
          | Red =>
            have hfne : far ≠ .nil := by rintro rfl; simp at hfar
            obtain ⟨a, ac, ak, an, af, rfl⟩ := f.exists_sibNode hfne
            obtain rfl : ac = .Red := by simpa using hfar
            obtain ⟨s1, e1, F1, hf1⟩ := ExtraBlack_blackLine (fuel + 2) h hx _ _ _ _ _ _ _ hf hs
            refine ⟨s1, _, e1, F1, hf1, ?_⟩
            intro Y hYb hYn hYc hYh
            rw [RedBlack_plug]
            clear F1 e1
            clear h ih
            rcases f with ⟨p, pc, pk, pr⟩ | ⟨p, pc, pl, pk⟩
            all_goals
              simp only [Frame.sib_left, Frame.sib_right, Frame.sibNode_left, Frame.sibNode_right,
                Frame.color_left, Frame.color_right] at hs hf
              subst hs hf
              simp_all [RBT.NoRedRed, RBT.Balanced, RBT.bh, PathBalanced, PathNoRedRed, keys_plug,
                size_plug, RBT.keys, RBT.size, ctxKeysBefore, ctxKeysAfter, ctxSize]
              try omega
          | Black =>
            cases hnear : near.color with
            | Red =>
              have hnne : near ≠ .nil := by rintro rfl; simp at hnear
              obtain ⟨a, ac, ak, an, af, rfl⟩ := f.exists_sibNode hnne
              obtain rfl : ac = .Red := by simpa using hnear
              obtain ⟨s0, F0, hf0, e0⟩ :=
                ExtraBlack_blackTri (fuel + 2) h hx _ _ _ _ _ _ _ hf hs hfar
              obtain ⟨s1, e1, F1, hf1⟩ := ExtraBlack_blackLine (fuel + 1) F0 hx a ak an sb sk af far
                (by simpa using hf) (by simp)
              simp only [Frame.sibNode_setSib, Frame.like_setSib, Frame.setSib_setSib,
                Frame.setSib_setColor] at F1
              refine ⟨s1, _, by rw [e0]; exact e1, F1, by rw [hf1, hf0], ?_⟩
              clear F0 e0
              intro Y hYb hYn hYc hYh
              rw [RedBlack_plug]
              clear F1 e1
              clear h ih
              rcases f with ⟨p, pc, pk, pr⟩ | ⟨p, pc, pl, pk⟩
              all_goals
                simp only [Frame.sib_left, Frame.sib_right, Frame.sibNode_left, Frame.sibNode_right,
                  Frame.color_left, Frame.color_right] at hs hf
                subst hs hf
                simp_all [RBT.NoRedRed, RBT.Balanced, RBT.bh, PathBalanced, PathNoRedRed, keys_plug,
                  size_plug, RBT.keys, RBT.size, ctxKeysBefore, ctxKeysAfter, ctxSize]
                try omega
            | Black =>
              obtain ⟨s0, F0, hf0, e0⟩ :=
                ExtraBlack_blackBlack (fuel + 2) h hx _ _ _ _ hf hs hnear hfar
              obtain ⟨s1, fs1, e1, F1, hf1, hR⟩ := ih (fuel + 2) s0 fs _ f.addr (n + 1)
                (by simp only [List.length_cons] at hlen; omega) (by omega) F0.up (by simp)
                (by simpa [hf] using hpb.2.2) hpn.2.2 hrc2
              refine ⟨s1, _, by rw [e0]; exact e1, Focus.down F1, by rw [hf1, hf0], ?_⟩
              intro Y hYb hYn hYc hYh
              have hY := hR ((f.setSib (f.sibNode sb .Red sk near far)).fill Y)
              clear h ih F0 e0 F1 e1 hR
              rcases f with ⟨p, pc, pk, pr⟩ | ⟨p, pc, pl, pk⟩
              all_goals
                simp only [Frame.sib_left, Frame.sib_right, Frame.sibNode_left,
                  Frame.sibNode_right, Frame.color_left, Frame.color_right] at hs hf
                subst hs hf
                simp_all [RBT.NoRedRed, RBT.Balanced, RBT.bh, PathBalanced, PathNoRedRed,
                  keys_plug, size_plug, RBT.keys, RBT.size, ctxKeysBefore, ctxKeysAfter, ctxSize]
                exact hY (by omega)

/-! ## `Remove` on the heap -/

theorem Focus.down_append {s : TreeSet} {gs fs : List Frame} {t : RBT}
    (h : Focus s fs (plug gs t)) : Focus s (gs ++ fs) t :=
  Represents.focus (gs ++ fs) (by rw [plug_append]; exact h.represents)

theorem Focus.up_append {s : TreeSet} {gs fs : List Frame} {t : RBT}
    (h : Focus s (gs ++ fs) t) : Focus s fs (plug gs t) :=
  Represents.focus fs (by rw [← plug_append]; exact h.represents)

/-- The loop of `FindBiggestNode` walks down the right spine and returns its last node. -/
theorem FindBiggestNodeLoop_spec {s : TreeSet} : ∀ (t : RBT) (fs : List Frame) (fuel : Nat),
    t ≠ .nil → Focus s fs t → t.height < fuel →
    ∃ gs p pc pl kp, FindBiggestNodeLoop fuel s.heap t.ptr = some (some p) ∧
      t = plug gs (.node p pc pl kp .nil) ∧ ctxKeysAfter gs = []
  | .nil, _, _, hne, _, _ => absurd rfl hne
  | .node a c l k .nil, fs, fuel, _, h, hfuel => by
    obtain ⟨fuel, rfl⟩ : ∃ m, fuel = m + 1 := ⟨fuel - 1, by omega⟩
    have ha := h.heap_node
    refine ⟨[], a, c, l, k, ?_, rfl, rfl⟩
    simp only [FindBiggestNodeLoop, RBT.ptr_node, ha, RBT.ptr_nil]
  | .node a c l k (.node b bc bl bk br), fs, fuel, _, h, hfuel => by
    obtain ⟨fuel, rfl⟩ : ∃ m, fuel = m + 1 := ⟨fuel - 1, by omega⟩
    have ha := h.heap_node
    simp only [RBT.height] at hfuel
    obtain ⟨gs, p, pc, pl, kp, e, ht, hk⟩ := FindBiggestNodeLoop_spec (.node b bc bl bk br)
      (.right a c l k :: fs) fuel (by simp) (Focus.down (f := .right a c l k) h)
      (by simp only [RBT.height]; omega)
    refine ⟨gs ++ [.right a c l k], p, pc, pl, kp, ?_, ?_, ?_⟩
    · simp only [FindBiggestNodeLoop, RBT.ptr_node, ha]
      exact e
    · rw [plug_append, ← ht]; rfl
    · clear e ht h
      induction gs with
      | nil => rfl
      | cons g gs ih =>
        cases g
        · simp [ctxKeysAfter] at hk
        · simp only [ctxKeysAfter, List.cons_append] at hk ⊢
          exact ih hk

/-- The invariants do not look at the keys. -/
theorem RedBlack_plug_node_key (fs : List Frame) (a c l k k1 r) :
    (plug fs (.node a c l k r)).RedBlack ↔ (plug fs (.node a c l k1 r)).RedBlack := by
  simp only [RedBlack_plug, RBT.NoRedRed, RBT.Balanced, RBT.bh, RBT.color_node]

/-- `RemoveFixup` and `DeleteNode` on a node that was unlinked in favour of its only
child, a Red node: the child becomes Black and the cell of the node is released. -/
theorem finish_floating {s : TreeSet} {fs : List Frame} {x : Nat} {n : TreeNode} {q ql qk qr}
    (h : Focus s fs (.node q .Red ql qk qr))
    (hx : x ∉ ctxAddrs fs ++ (RBT.node q .Red ql qk qr).addrs) (hn : s.heap x = some n)
    (hp : n.Parent = ctxPtr fs) (hc : n.Color = .Black) (hany : n.Any = some q)
    (hcnt : n.Count = 1) :
    ∃ s3, (s.RemoveFixup x).bind (fun s2 => s2.DeleteNode x) = some s3 ∧
      Focus s3 fs (.node q .Black ql qk qr) ∧ s3.fresh = s.fresh := by
  have hq := h.heap_node
  have hxq : x ≠ q := by
    rintro rfl
    exact hx (by simp [RBT.addrs])
  obtain ⟨s1, e1, F1, hf1, -, hh1⟩ := h.setColor .Black
  have hn1 : s1.heap x = some n := by rw [hh1 x hxq]; exact hn
  obtain ⟨s2, e2, F2, hf2⟩ := F1.deleteFloating (by simpa [RBT.addrs] using hx) hn1 hp
  refine ⟨s2, ?_, F2, by rw [hf2, hf1]⟩
  simp only [TreeSet.RemoveFixup, hn, hc, hany, hq, hcnt, e1, e2, Option.bind_eq_bind,
    Option.some_bind, reduceCtorEq, if_false, ne_eq, not_true_eq_false]

/-- `RemoveFixup` and `DeleteNode` on a leaf of a red-black tree: what is left is a
red-black tree without that leaf. -/
theorem finish_leaf {s : TreeSet} {fs : List Frame} {d c kd}
    (h : Focus s fs (.node d c .nil kd .nil))
    (hrb : (plug fs (.node d c .nil kd .nil)).RedBlack) :
    ∃ s3 T3, (s.RemoveFixup d).bind (fun s2 => s2.DeleteNode d) = some s3 ∧
      Represents s3 T3 ∧ T3.RedBlack ∧ T3.keys = (plug fs .nil).keys ∧
      T3.size = (plug fs .nil).size ∧ s3.fresh = s.fresh := by
  have hd := h.heap_node
  rw [RedBlack_plug] at hrb
  obtain ⟨hrc, -, hcc, hpn, -, hpb⟩ := hrb
  simp only [RBT.color_node, RBT.bh, RBT.ptr_nil] at hrc hcc hpb hd
  cases c with
  | Red =>
    have hrc2 := rootColor_black_of_red hrc
    rcases fs with _ | ⟨f, fs⟩
    · simp at hrc
    · obtain ⟨s1, e1, F1, hf1⟩ := h.deleteLeaf
      refine ⟨s1, _, ?_, F1.represents, ?_, rfl, rfl, hf1⟩
      · simp only [TreeSet.RemoveFixup, hd, e1, Option.bind_eq_bind, Option.some_bind, if_true]
      · rw [RedBlack_plug]
        refine ⟨hrc2, trivial, fun _ => rfl, hpn, trivial, ?_⟩
        simpa [RBT.bh] using hpb
  | Black =>
    rcases fs with _ | ⟨f, fs⟩
    · have hroot : s.m_pRoot = some d := h.root_iff.2 rfl
      obtain ⟨s1, e1, R1, hf1⟩ := h.deleteRoot
      refine ⟨s1, .nil, ?_, R1, ?_, rfl, rfl, hf1⟩
      · simp only [TreeSet.RemoveFixup, hd, TreeNode.Any, hroot, e1, Option.bind_eq_bind,
          Option.some_bind, reduceCtorEq, if_false, if_true]
      · simp [RBT.RedBlack, RBT.NoRedRed, RBT.Balanced]
    · have hroot : ¬ s.m_pRoot = some d := by rw [h.root_iff]; simp
      have hlen := h.length_le
      obtain ⟨s1, fs1, e1, F1, hf1, hR⟩ := ExtraBlack_spec (f :: fs).length s.fuel s (f :: fs) _ d 0
        (le_refl _) (by simp only [TreeSet.fuel]; omega) h rfl
        (by simpa using hpb) hpn hrc
      obtain ⟨hr1, hr2, hr3⟩ := hR .nil trivial trivial rfl rfl
      have hne : fs1 ≠ [] := by
        rintro rfl
        cases f <;> simp [size_plug, ctxSize, RBT.size] at hr3 <;> omega
      obtain ⟨g, gs, rfl⟩ : ∃ g gs, fs1 = g :: gs := by
        cases fs1 with
        | nil => exact absurd rfl hne
        | cons g gs => exact ⟨g, gs, rfl⟩
      obtain ⟨s2, e2, F2, hf2⟩ := F1.deleteLeaf
      refine ⟨s2, _, ?_, F2.represents, hr1, hr2, hr3, by rw [hf2, hf1]⟩
      simp only [TreeSet.RemoveFixup, hd, TreeNode.Any, hroot, e1, e2, Option.bind_eq_bind,
        Option.some_bind, reduceCtorEq, if_false]

/-- Replacing a subtree by a Black one of the same black count keeps the invariants. -/
theorem RedBlack_plug_replace {fs : List Frame} {t u : RBT} (h : (plug fs t).RedBlack)
    (hc : u.color = .Black) (hn : u.NoRedRed) (hb : u.Balanced) (hbh : u.bh = t.bh) :
    (plug fs u).RedBlack := by
  rw [RedBlack_plug] at h ⊢
  obtain ⟨h1, -, -, h4, -, h6⟩ := h
  refine ⟨?_, hn, fun _ => hc, h4, hb, by rw [hbh]; exact h6⟩
  cases fs with
  | nil => simpa using hc
  | cons f fs => simpa using h1

theorem finish_bind {m : Option TreeSet} {f : TreeSet → Option TreeSet} {s3 : TreeSet}
    (e : m.bind f = some s3) :
    m.bind (fun s2 => (f s2).bind (fun s4 => some (true, s4))) = some (true, s3) := by
  cases m with
  | none => simp at e
  | some s2 =>
    simp only [Option.some_bind] at e ⊢
    rw [e]; rfl

/-- `Remove` of a key that `FindNode` located: the call returns `true`, the result is a
red-black tree, exactly one occurrence of the key is gone. -/
theorem Remove_found {s : TreeSet} {fs : List Frame} {a c l k r}
    (h : Focus s fs (.node a c l k r)) (hrb : (plug fs (.node a c l k r)).RedBlack)
    (hfind : s.FindNode k = some (some a)) :
    ∃ s3 T3 L R, s.Remove k = some (true, s3) ∧ Represents s3 T3 ∧ T3.RedBlack ∧
      (plug fs (.node a c l k r)).keys = L ++ k :: R ∧ T3.keys = L ++ R ∧
      T3.size + 1 = (plug fs (.node a c l k r)).size ∧ s3.fresh = s.fresh := by
  have ha := h.heap_node
  rcases l with _ | ⟨la, lc, ll, lk, lr⟩ <;> rcases r with _ | ⟨ra, rc, rl, rk, rr⟩
  · -- no child
    obtain ⟨s3, T3, e3, R3, hrb3, hk3, hs3, hf3⟩ := finish_leaf h hrb
    refine ⟨s3, T3, ctxKeysBefore fs, ctxKeysAfter fs, ?_, R3, hrb3, ?_, ?_, ?_, hf3⟩
    · simp only [TreeSet.Remove, hfind, ha, RBT.ptr_nil, TreeNode.AnyWithChildrenCount,
        Option.bind_eq_bind, Option.some_bind]
      rw [if_neg (by decide), if_neg (by decide)]
      exact finish_bind e3
    · simp [keys_plug, RBT.keys]
    · rw [hk3]; simp [keys_plug, RBT.keys]
    · rw [hs3]; simp [size_plug, RBT.size]
  · -- only a right child
    have hrb0 := hrb
    rw [RedBlack_plug] at hrb0
    obtain ⟨-, hnr, -, -, hbal, -⟩ := hrb0
    simp only [RBT.NoRedRed, RBT.Balanced, RBT.bh, RBT.color_node, RBT.color_nil] at hnr hbal
    have hrc : rc = .Red := by
      cases rc
      · rfl
      · simp at hbal
    subst hrc
    have hc : c = .Black := by
      cases c
      · simp at hnr
      · rfl
    subst hc
    obtain ⟨s2, e2, F2, hh2, hf2⟩ := h.spliceOut (Or.inr ⟨rfl, rfl⟩)
    have hnd := h.nodup
    obtain ⟨s3, e3, F3, hf3⟩ := finish_floating F2
      (by
        simp only [RBT.addrs, List.nodup_append, List.nodup_cons, List.mem_append,
          List.mem_cons, List.disjoint_append_right, List.disjoint_cons_right,
          List.disjoint_append_left, List.disjoint_cons_left, not_or, List.nil_append,
          List.not_mem_nil, not_false_eq_true, true_and, List.disjoint_nil_right] at hnd ⊢
        tauto)
      (hh2.trans ha) rfl rfl (by simp [TreeNode.Any]) (by simp [TreeNode.Count])
    refine ⟨s3, _, ctxKeysBefore fs, rl.keys ++ rk :: rr.keys ++ ctxKeysAfter fs, ?_,
      F3.represents, ?_, ?_, ?_, ?_, by rw [hf3, hf2]⟩
    · simp only [TreeSet.Remove, hfind, ha, RBT.ptr_nil, RBT.ptr_node,
        TreeNode.AnyWithChildrenCount, Option.bind_eq_bind, Option.some_bind, if_true]
      simp only [RBT.ptr_nil, RBT.ptr_node] at e2
      rw [e2]
      exact finish_bind e3
    · refine RedBlack_plug_replace hrb rfl ?_ ?_ ?_
      · simp_all [RBT.NoRedRed]
      · simp_all [RBT.Balanced]
        try omega
      · simp_all [RBT.bh]
    · simp [keys_plug, RBT.keys]
    · simp [keys_plug, RBT.keys]
    · simp [size_plug, RBT.size]; omega
  · -- only a left child
    have hrb0 := hrb
    rw [RedBlack_plug] at hrb0
    obtain ⟨-, hnr, -, -, hbal, -⟩ := hrb0
    simp only [RBT.NoRedRed, RBT.Balanced, RBT.bh, RBT.color_node, RBT.color_nil] at hnr hbal
    have hlc : lc = .Red := by
      cases lc
      · rfl
      · simp at hbal
    subst hlc
    have hc : c = .Black := by
      cases c
      · simp at hnr
      · rfl
    subst hc
    obtain ⟨s2, e2, F2, hh2, hf2⟩ := h.spliceOut (Or.inl ⟨rfl, rfl⟩)
    have hnd := h.nodup
    obtain ⟨s3, e3, F3, hf3⟩ := finish_floating F2
      (by
        simp only [RBT.addrs, List.nodup_append, List.nodup_cons, List.mem_append,
          List.mem_cons, List.disjoint_append_right, List.disjoint_cons_right,
          List.disjoint_append_left, List.disjoint_cons_left, not_or, List.append_nil,
          List.not_mem_nil, not_false_eq_true, true_and, List.disjoint_nil_right] at hnd ⊢
        tauto)
      (hh2.trans ha) rfl rfl (by simp [TreeNode.Any]) (by simp [TreeNode.Count])
    refine ⟨s3, _, ctxKeysBefore fs ++ (ll.keys ++ lk :: lr.keys), ctxKeysAfter fs, ?_,
      F3.represents, ?_, ?_, ?_, ?_, by rw [hf3, hf2]⟩
    · simp only [TreeSet.Remove, hfind, ha, RBT.ptr_nil, RBT.ptr_node,
        TreeNode.AnyWithChildrenCount, Option.bind_eq_bind, Option.some_bind, if_true]
      simp only [RBT.ptr_nil, RBT.ptr_node] at e2
      rw [e2]
      exact finish_bind e3
    · refine RedBlack_plug_replace hrb rfl ?_ ?_ ?_
      · simp_all [RBT.NoRedRed]
      · simp_all [RBT.Balanced]
        try omega
      · simp_all [RBT.bh]
    · simp [keys_plug, RBT.keys]
    · simp [keys_plug, RBT.keys]
    · simp [size_plug, RBT.size]; omega
  · -- two children
    have hlen := h.length_le
    have hLp : (RBT.node la lc ll lk lr).ptr = some la := rfl
    have hLne : RBT.node la lc ll lk lr ≠ .nil := by simp
    have hLh : (RBT.node la lc ll lk lr).height < s.fuel := by
      have h1 := RBT.height_le_size (RBT.node la lc ll lk lr)
      simp only [RBT.size, TreeSet.fuel] at hlen ⊢
      simp only [RBT.size] at h1
      omega
    generalize RBT.node la lc ll lk lr = L at h hrb ha hLp hLne hLh hlen
    generalize hR0 : RBT.node ra rc rl rk rr = R0 at h hrb ha hlen
    have hRp : R0.ptr = some ra := by rw [← hR0]; rfl
    obtain ⟨gs, p, pc, pl, kp, eb, rfl, hka⟩ := FindBiggestNodeLoop_spec L _ s.fuel hLne
      (Focus.down (f := .left a c k R0) h) hLh
    have Fp : Focus s (gs ++ .left a c k R0 :: fs) (.node p pc pl kp .nil) :=
      Focus.down_append (Focus.down (f := .left a c k R0) h)
    have hp := Fp.heap_node
    obtain ⟨s1, e1, F1, hf1⟩ := h.setData kp
    have Fp1 : Focus s1 (gs ++ .left a c kp R0 :: fs) (.node p pc pl kp .nil) :=
      Focus.down_append (Focus.down (f := .left a c kp R0) F1)
    have hp1 := Fp1.heap_node
    have hrb1 : (plug (gs ++ .left a c kp R0 :: fs) (.node p pc pl kp .nil)).RedBlack := by
      rw [plug_append]
      exact (RedBlack_plug_node_key fs a c _ k kp R0).1 hrb
    have hkeys : (plug fs (.node a c (plug gs (.node p pc pl kp .nil)) k R0)).keys =
        (ctxKeysBefore fs ++ (ctxKeysBefore gs ++ (pl.keys ++ [kp]))) ++
          k :: (R0.keys ++ ctxKeysAfter fs) := by
      simp [keys_plug, RBT.keys, hka]
    have hsize : (plug fs (.node a c (plug gs (.node p pc pl kp .nil)) k R0)).size =
        ctxSize fs + (ctxSize gs + (pl.size + 1) + 1 + R0.size) := by
      simp [size_plug, RBT.size]
    rw [hLp, hRp] at ha
    rw [hLp] at eb
    have hfuel1 : s1.fuel = s.fuel := by simp only [TreeSet.fuel, hf1]
    rcases pl with _ | ⟨q, qc, ql, qk, qr⟩
    · -- the predecessor is a leaf
      obtain ⟨s3, T3, e3, R3, hrb3, hk3, hs3, hf3⟩ := finish_leaf Fp1 hrb1
      refine ⟨s3, T3, _, _, ?_, R3, hrb3, hkeys, ?_, ?_, by rw [hf3, hf1]⟩
      · simp only [RBT.ptr_nil] at hp hp1
        simp only [TreeSet.Remove, hfind, ha, TreeNode.AnyWithChildrenCount,
          TreeSet.removeTwoChildren, eb, hp, e1, hp1, Option.bind_eq_bind, Option.some_bind,
          if_true]
        exact finish_bind e3
      · rw [hk3, plug_append]
        simp [keys_plug, RBT.keys, hka]
      · rw [hs3, plug_append, hsize]
        simp [size_plug, RBT.size]
        omega
    · -- the predecessor has a left child
      have hrb0 := hrb1
      rw [RedBlack_plug] at hrb0
      obtain ⟨-, hnr, -, -, hbal, -⟩ := hrb0
      simp only [RBT.NoRedRed, RBT.Balanced, RBT.bh, RBT.color_node, RBT.color_nil] at hnr hbal
      have hqc : qc = .Red := by
        cases qc
        · rfl
        · simp at hbal
      subst hqc
      have hpc : pc = .Black := by
        cases pc
        · simp at hnr
        · rfl
      subst hpc
      have hnd := Fp1.nodup
      obtain ⟨f, fs1, hW⟩ : ∃ f fs1, gs ++ .left a c kp R0 :: fs = f :: fs1 := by
        cases gs with
        | nil => exact ⟨_, _, rfl⟩
        | cons g gs => exact ⟨_, _, rfl⟩
      rw [hW] at Fp1 hp1 hrb1 hnd
      obtain ⟨s2, e2, F2, hh2, hf2⟩ := Fp1.connectPredecessorChild
      obtain ⟨s3, e3, F3, hf3⟩ := finish_floating F2
        (by
          simp only [RBT.addrs, List.nodup_append, List.nodup_cons, List.mem_append,
            List.mem_cons, List.disjoint_append_right, List.disjoint_cons_right,
            List.disjoint_append_left, List.disjoint_cons_left, not_or, List.append_nil,
            List.not_mem_nil, not_false_eq_true, true_and, List.disjoint_nil_right] at hnd ⊢
          tauto)
        (hh2.trans hp1) rfl rfl (by simp [TreeNode.Any]) (by simp [TreeNode.Count])
      refine ⟨s3, _, _, _, ?_, F3.represents, ?_, hkeys, ?_, ?_, by rw [hf3, hf2, hf1]⟩
      · simp only [RBT.ptr_nil, RBT.ptr_node] at hp hp1
        simp only [TreeSet.Remove, hfind, ha, TreeNode.AnyWithChildrenCount,
          TreeSet.removeTwoChildren, eb, hp, e1, hp1, e2, Option.bind_eq_bind,
          Option.some_bind, if_true]
        exact finish_bind e3
      · refine RedBlack_plug_replace hrb1 rfl ?_ ?_ ?_
        · simp_all [RBT.NoRedRed]
        · simp_all [RBT.Balanced]
          try omega
        · simp_all [RBT.bh]
      · rw [← hW, plug_append]
        simp [keys_plug, RBT.keys, hka]
      · rw [← hW, plug_append, hsize]
        simp [size_plug, RBT.size]
        omega

/-! ## The public operations on a red-black tree, and the observers -/

/-- `Remove` on a sorted red-black tree: either the key is absent and nothing happens, or
one occurrence of it disappears and the result is again a red-black tree. -/
theorem Remove_spec {s : TreeSet} {T : RBT} (k : Int) (hR : Represents s T) (hrb : T.RedBlack)
    (hs : T.keys.Sorted (· ≤ ·)) :
    (k ∉ T.keys ∧ s.Remove k = some (false, s)) ∨
    (∃ s3 T3 L R, s.Remove k = some (true, s3) ∧ Represents s3 T3 ∧ T3.RedBlack ∧
      T.keys = L ++ k :: R ∧ T3.keys = L ++ R ∧ T3.size + 1 = T.size ∧ s3.fresh = s.fresh) := by
  rcases FindNode_spec k hR hs with ⟨hf, hk⟩ | ⟨fs, a, c, l, r, hf, rfl, -⟩
  · exact Or.inl ⟨hk, by simp only [TreeSet.Remove, hf]⟩
  · exact Or.inr (Remove_found (Represents.focus fs hR) hrb hf)

theorem CountRecursive_spec {h : Heap} : ∀ (t : RBT) (par : Option Nat) (fuel c : Nat),
    Layout h par t → t.height < fuel → CountRecursive fuel h t.ptr c = some (c + t.size)
  | .nil, _, fuel, c, _, hfuel => by
    obtain ⟨fuel, rfl⟩ : ∃ m, fuel = m + 1 := ⟨fuel - 1, by omega⟩
    rfl
  | .node a col l k r, par, fuel, c, hl, hfuel => by
    obtain ⟨fuel, rfl⟩ : ∃ m, fuel = m + 1 := ⟨fuel - 1, by omega⟩
    simp only [RBT.height] at hfuel
    simp only [Layout] at hl
    simp only [CountRecursive, RBT.ptr_node, hl.1, Option.bind_eq_bind, Option.some_bind,
      CountRecursive_spec l (some a) fuel (c + 1) hl.2.1 (by omega),
      CountRecursive_spec r (some a) fuel _ hl.2.2 (by omega), RBT.size]
    congr 1
    omega

theorem Represents.count {s : TreeSet} {T : RBT} (h : Represents s T) :
    s.Count = some T.size := by
  have := CountRecursive_spec T none s.fuel 0 h.rep h.height_lt_fuel
  simpa only [TreeSet.Count, h.root, Nat.zero_add] using this

theorem InOrderNodes_spec {h : Heap} : ∀ (t : RBT) (par : Option Nat) (fuel : Nat),
    Layout h par t → t.height < fuel →
    ∃ ns, InOrderNodes fuel h t.ptr = some ns ∧ ns.map (fun n => n.Data) = t.keys
  | .nil, _, fuel, _, hfuel => by
    obtain ⟨fuel, rfl⟩ : ∃ m, fuel = m + 1 := ⟨fuel - 1, by omega⟩
    exact ⟨[], rfl, rfl⟩
  | .node a col l k r, par, fuel, hl, hfuel => by
    obtain ⟨fuel, rfl⟩ : ∃ m, fuel = m + 1 := ⟨fuel - 1, by omega⟩
    simp only [RBT.height] at hfuel
    simp only [Layout] at hl
    obtain ⟨n1, e1, h1⟩ := InOrderNodes_spec l (some a) fuel hl.2.1 (by omega)
    obtain ⟨n2, e2, h2⟩ := InOrderNodes_spec r (some a) fuel hl.2.2 (by omega)
    refine ⟨n1 ++ ⟨k, col, par, l.ptr, r.ptr⟩ :: n2, by simp only [InOrderNodes, RBT.ptr_node,
      hl.1, Option.bind_eq_bind, Option.some_bind, e1, e2], ?_⟩
    simp [RBT.keys, h1, h2]

theorem Represents.inOrder {s : TreeSet} {T : RBT} (h : Represents s T) :
    s.InOrder = some T.keys := by
  obtain ⟨ns, e, hk⟩ := InOrderNodes_spec T none s.fuel h.rep h.height_lt_fuel
  simp only [TreeSet.InOrder, h.root, e, Option.map_some', hk]

theorem Represents.search {s : TreeSet} {T : RBT} (k : Int) (h : Represents s T)
    (hs : T.keys.Sorted (· ≤ ·)) : s.Search k = some (decide (k ∈ T.keys)) := by
  rcases FindNode_spec k h hs with ⟨hf, hk⟩ | ⟨fs, a, c, l, r, hf, rfl, -⟩
  · simp [TreeSet.Search, hf, hk]
  · have : k ∈ (plug fs (.node a c l k r)).keys := by simp [keys_plug, RBT.keys]
    simp [TreeSet.Search, hf, this]

theorem orderedInsert_append (k : Int) : ∀ (L R : List Int), (∀ x ∈ L, x < k) →
    (∀ y ∈ R, k ≤ y) → (L ++ R).orderedInsert (· ≤ ·) k = L ++ k :: R
  | [], [], _, _ => rfl
  | [], y :: R, _, h => by simp [List.orderedInsert, h y]
  | x :: L, R, h1, h2 => by
    have hx : ¬ k ≤ x := not_le.2 (h1 x (List.mem_cons_self _ _))
    have ih := orderedInsert_append k L R (fun z hz => h1 z (List.mem_cons_of_mem _ hz)) h2
    rw [List.cons_append, List.orderedInsert, if_neg hx, ih, List.cons_append]

/-- `Insert` on a sorted red-black tree always succeeds and puts the key at its sorted
position. -/
theorem Insert_inv {s : TreeSet} {T : RBT} (k : Int) (hR : Represents s T) (hrb : T.RedBlack)
    (hs : T.keys.Sorted (· ≤ ·)) :
    ∃ s1 T1, s.Insert k = some (true, s1) ∧ Represents s1 T1 ∧ T1.RedBlack ∧
      T1.keys = T.keys.orderedInsert (· ≤ ·) k ∧ T1.keys.Sorted (· ≤ ·) ∧
      T1.size = T.size + 1 := by
  obtain ⟨s1, T1, fs, e1, R1, hrb1, hT, hip, hk1, hsz, -⟩ := Insert_spec k hR hrb
  have hb := insertPath_bounds fs (hT ▸ hs) hip
  have hk : T1.keys = T.keys.orderedInsert (· ≤ ·) k := by
    rw [hk1, hT, keys_plug]
    simp only [RBT.keys, List.append_nil]
    exact (orderedInsert_append k _ _ hb.1 hb.2).symm
  exact ⟨s1, T1, e1, R1, hrb1, hk, hk ▸ hs.orderedInsert k _, hsz⟩

/-- `Remove` on a sorted red-black tree always returns, and leaves a sorted red-black
tree. -/
theorem Remove_inv {s : TreeSet} {T : RBT} (k : Int) (hR : Represents s T) (hrb : T.RedBlack)
    (hs : T.keys.Sorted (· ≤ ·)) :
    ∃ b s1 T1, s.Remove k = some (b, s1) ∧ Represents s1 T1 ∧ T1.RedBlack ∧
      T1.keys.Sorted (· ≤ ·) ∧ T1.size + (if b then 1 else 0) = T.size := by
  rcases Remove_spec k hR hrb hs with ⟨-, e1⟩ | ⟨s3, T3, L, R, e1, R3, hrb3, hk, hk3, hsz, -⟩
  · exact ⟨false, s, T, e1, hR, hrb, hs, rfl⟩
  · refine ⟨true, s3, T3, e1, R3, hrb3, ?_, hsz⟩
    rw [hk3]
    rw [hk] at hs
    exact hs.sublist (List.Sublist.append (List.Sublist.refl _) (List.sublist_cons_self _ _))

/-- What holds of every tree the public operations can build. -/
theorem Reachable.invariant {s : TreeSet} (h : Reachable s) :
    ∃ T, Represents s T ∧ T.RedBlack ∧ T.keys.Sorted (· ≤ ·) := by
  induction h with
  | empty =>
    exact ⟨.nil, ⟨rfl, trivial, List.nodup_nil, by simp [RBT.addrs]⟩,
      ⟨rfl, trivial, trivial⟩, List.sorted_nil⟩
  | @insert s s1 b k _ e ih =>
    obtain ⟨T, hR, hrb, hs⟩ := ih
    obtain ⟨s2, T1, e1, R1, hrb1, -, hs1, -⟩ := Insert_inv k hR hrb hs
    rw [e1] at e
    obtain rfl : s2 = s1 := congrArg Prod.snd (Option.some.inj e)
    exact ⟨T1, R1, hrb1, hs1⟩
  | @remove s s1 b k _ e ih =>
    obtain ⟨T, hR, hrb, hs⟩ := ih
    obtain ⟨b2, s2, T1, e1, R1, hrb1, hs1, -⟩ := Remove_inv k hR hrb hs
    rw [e1] at e
    obtain rfl : s2 = s1 := congrArg Prod.snd (Option.some.inj e)
    exact ⟨T1, R1, hrb1, hs1⟩

/-! ### Black counts of paths -/

theorem RBT.pathBlacks_of_balanced : ∀ {t : RBT}, t.Balanced → ∀ x ∈ t.pathBlacks, x = t.bh
  | .nil, _, x, hx => by simpa [RBT.pathBlacks, RBT.bh] using hx
  | .node a c l k r, h, x, hx => by
    obtain ⟨h1, h2, h3⟩ := h
    simp only [RBT.pathBlacks, List.mem_map, List.mem_append] at hx
    obtain ⟨y, hy, rfl⟩ := hx
    simp only [RBT.bh]
    rcases hy with hy | hy
    · rw [RBT.pathBlacks_of_balanced h2 y hy]
    · rw [RBT.pathBlacks_of_balanced h3 y hy, h1]

theorem RBT.bh_mem_pathBlacks : ∀ (t : RBT), t.bh ∈ t.pathBlacks
  | .nil => by simp [RBT.pathBlacks, RBT.bh]
  | .node a c l k r => by
    simp only [RBT.pathBlacks, RBT.bh, List.mem_map, List.mem_append]
    exact ⟨l.bh, Or.inl (RBT.bh_mem_pathBlacks l), rfl⟩

theorem RBT.self_mem_subtrees : ∀ (t : RBT), t ∈ t.subtrees
  | .nil => by simp [RBT.subtrees]
  | .node a c l k r => by simp [RBT.subtrees]

theorem RBT.balanced_of_mem_subtrees : ∀ {t : RBT}, t.Balanced → ∀ u ∈ t.subtrees, u.Balanced
  | .nil, _, u, hu => by
    simp only [RBT.subtrees, List.mem_singleton] at hu
    subst hu
    trivial
  | .node a c l k r, h, u, hu => by
    simp only [RBT.subtrees, List.mem_cons, List.mem_append] at hu
    rcases hu with rfl | hu | hu
    · exact h
    · exact RBT.balanced_of_mem_subtrees h.2.1 u hu
    · exact RBT.balanced_of_mem_subtrees h.2.2 u hu

theorem RBT.uniform_of_balanced {t : RBT} (h : t.Balanced) : t.UniformBlackHeight := by
  intro u hu x hx y hy
  have hb := RBT.balanced_of_mem_subtrees h u hu
  rw [RBT.pathBlacks_of_balanced hb x hx, RBT.pathBlacks_of_balanced hb y hy]

theorem RBT.balanced_of_uniform : ∀ {t : RBT}, t.UniformBlackHeight → t.Balanced
  | .nil, _ => trivial
  | .node a c l k r, h => by
    have hl : l.UniformBlackHeight := fun u hu =>
      h u (by simp only [RBT.subtrees, List.mem_cons, List.mem_append]; exact Or.inr (Or.inl hu))
    have hr : r.UniformBlackHeight := fun u hu =>
      h u (by simp only [RBT.subtrees, List.mem_cons, List.mem_append]; exact Or.inr (Or.inr hu))
    refine ⟨?_, RBT.balanced_of_uniform hl, RBT.balanced_of_uniform hr⟩
    have h0 := h _ (RBT.self_mem_subtrees _)
    have e := h0 (l.bh + (if c = .Black then 1 else 0))
      (by simp only [RBT.pathBlacks, List.mem_map, List.mem_append]
          exact ⟨l.bh, Or.inl (RBT.bh_mem_pathBlacks l), rfl⟩)
      (r.bh + (if c = .Black then 1 else 0))
      (by simp only [RBT.pathBlacks, List.mem_map, List.mem_append]
          exact ⟨r.bh, Or.inr (RBT.bh_mem_pathBlacks r), rfl⟩)
    omega

/-! ### The colour invariant read off the heap -/

theorem Layout_noRedParentOfRed {h : Heap} : ∀ (t : RBT) (par : Option Nat),
    Layout h par t → t.NoRedRed →
    (∀ p pn, par = some p → h p = some pn → pn.Color = .Red → t.color = .Black) →
    ∀ a ∈ t.addrs, ∀ n p pn, h a = some n → n.Parent = some p → h p = some pn →
      n.Color = .Red → pn.Color = .Black
  | .nil, _, _, _, _ => by simp [RBT.addrs]
  | .node a c l k r, par, hl, hn, hp => by
    intro a1 ha1 n p pn e1 e2 e3 e4
    simp only [Layout] at hl
    simp only [RBT.NoRedRed] at hn
    simp only [RBT.addrs, List.mem_append, List.mem_cons] at ha1
    have hsub : ∀ p pn, some a = some p → h p = some pn → pn.Color = .Red →
        l.color = .Black ∧ r.color = .Black := by
      intro p pn e5 e6 e7
      obtain rfl : a = p := Option.some.inj e5
      rw [hl.1] at e6
      obtain rfl := Option.some.inj e6
      exact hn.1 e7
    rcases ha1 with ha1 | rfl | ha1
    · exact Layout_noRedParentOfRed l (some a) hl.2.1 hn.2.1
        (fun p pn e5 e6 e7 => (hsub p pn e5 e6 e7).1) a1 ha1 n p pn e1 e2 e3 e4
    · rw [hl.1] at e1
      obtain rfl := Option.some.inj e1
      by_contra hc
      have := hp p pn e2 e3 (TreeNodeColor.eq_red_of_ne_black hc)
      simp only [RBT.color_node] at this
      simp only at e4
      rw [this] at e4
      exact absurd e4 (by decide)
    · exact Layout_noRedParentOfRed r (some a) hl.2.2 hn.2.2
        (fun p pn e5 e6 e7 => (hsub p pn e5 e6 e7).2) a1 ha1 n p pn e1 e2 e3 e4

theorem Represents.rootIsBlack {s : TreeSet} {T : RBT} (h : Represents s T)
    (hc : T.color = .Black) : s.RootIsBlack := by
  intro r n e1 e2
  cases T with
  | nil =>
    have := h.root
    simp only [RBT.ptr_nil] at this
    rw [this] at e1
    exact absurd e1 (by simp)
  | node a c l k r1 =>
    have h1 := h.root
    have h2 := h.rep
    simp only [RBT.ptr_node] at h1
    simp only [Layout] at h2
    rw [h1] at e1
    obtain rfl : a = r := Option.some.inj e1
    rw [h2.1] at e2
    obtain rfl := Option.some.inj e2
    exact hc

theorem Represents.noRedParentOfRed {s : TreeSet} {T : RBT} (h : Represents s T)
    (hn : T.NoRedRed) : ∀ a ∈ T.addrs, s.NoRedParentOfRed a := by
  intro a ha n p pn e1 e2 e3 e4
  exact Layout_noRedParentOfRed T none h.rep hn (fun p pn e => absurd e (by simp))
    a ha n p pn e1 e2 e3 e4

/-! ### Concrete states -/

theorem exampleState_reachable : Reachable exampleState := by
  have h1 : ∃ r, exampleOne = some r := Option.isSome_iff_exists.1 (by decide)
  obtain ⟨r1, hr1⟩ := h1
  have h2 : ∃ r, exampleOneOne = some r := Option.isSome_iff_exists.1 (by decide)
  obtain ⟨r2, hr2⟩ := h2
  have e2 : r1.2.Insert 1 = some r2 := by
    have := hr2
    simp only [exampleOneOne, hr1, Option.some_bind] at this
    exact this
  have e : exampleState = r2.2 := by simp only [exampleState, hr2]
  rw [e]
  exact Reachable.insert (b := r2.1) 1 (Reachable.insert (b := r1.1) 1 Reachable.empty hr1) e2

theorem witnessTree_redBlack : witnessTree.RedBlack := by
  simp [witnessTree, RBT.RedBlack, RBT.NoRedRed, RBT.Balanced, RBT.bh, RBT.color]

/-! ## Sequences of calls -/

theorem runOps_reachable : ∀ (ops : List Op) (s s1 : TreeSet) (ni nr : Nat),
    Reachable s → runOps s ops = some (s1, ni, nr) → Reachable s1
  | [], s, s1, ni, nr, h, e => by
    simp only [runOps, Option.some.injEq, Prod.mk.injEq] at e
    exact e.1 ▸ h
  | .insert k :: ops, s, s1, ni, nr, h, e => by
    simp only [runOps, Option.bind_eq_bind, Option.bind_eq_some] at e
    obtain ⟨⟨b, s2⟩, e1, ⟨s3, ni3, nr3⟩, e2, e6⟩ := e
    simp only [Option.some.injEq, Prod.mk.injEq] at e6
    exact runOps_reachable ops s2 s1 ni3 nr3 (Reachable.insert k h e1) (by rw [e2, ← e6.1])
  | .remove k :: ops, s, s1, ni, nr, h, e => by
    simp only [runOps, Option.bind_eq_bind, Option.bind_eq_some] at e
    obtain ⟨⟨b, s2⟩, e1, ⟨s3, ni3, nr3⟩, e2, e6⟩ := e
    simp only [Option.some.injEq, Prod.mk.injEq] at e6
    exact runOps_reachable ops s2 s1 ni3 nr3 (Reachable.remove k h e1) (by rw [e2, ← e6.1])

/-- Any sequence of calls runs to the end, and the node count moves by one with every call
that returns `true`. -/
theorem runOps_size : ∀ (ops : List Op) (s : TreeSet) (T : RBT), Represents s T → T.RedBlack →
    T.keys.Sorted (· ≤ ·) →
    ∃ s1 ni nr T1, runOps s ops = some (s1, ni, nr) ∧ Represents s1 T1 ∧
      T1.size + nr = T.size + ni
  | [], s, T, hR, _, _ => ⟨s, 0, 0, T, rfl, hR, rfl⟩
  | .insert k :: ops, s, T, hR, hrb, hs => by
    obtain ⟨s1, T1, e1, R1, hrb1, -, hs1, hsz⟩ := Insert_inv k hR hrb hs
    obtain ⟨s2, ni, nr, T2, e2, R2, h2⟩ := runOps_size ops s1 T1 R1 hrb1 hs1
    refine ⟨s2, ni + 1, nr, T2, ?_, R2, by omega⟩
    simp only [runOps, e1, Option.bind_eq_bind, Option.some_bind, e2, if_true]
  | .remove k :: ops, s, T, hR, hrb, hs => by
    obtain ⟨b, s1, T1, e1, R1, hrb1, hs1, hsz⟩ := Remove_inv k hR hrb hs
    obtain ⟨s2, ni, nr, T2, e2, R2, h2⟩ := runOps_size ops s1 T1 R1 hrb1 hs1
    refine ⟨s2, ni, nr + (if b then 1 else 0), T2, ?_, R2, by omega⟩
    simp only [runOps, e1, Option.bind_eq_bind, Option.some_bind, e2]

theorem exampleRepairState_reachable : Reachable exampleRepairState := by
  have h1 : ∃ r, exampleRepair = some r := Option.isSome_iff_exists.1 (by decide)
  obtain ⟨⟨s1, ni, nr⟩, hr⟩ := h1
  have e : exampleRepairState = s1 := by simp only [exampleRepairState, hr]
  rw [e]
  exact runOps_reachable _ _ _ _ _ Reachable.empty hr

theorem witnessTree_uniform : witnessTree.UniformBlackHeight :=
  RBT.uniform_of_balanced witnessTree_redBlack.2.2

/-! ## The invariants of reachable trees and the effect of the calls -/

/-- C4: in every tree reachable from the empty tree by `Insert` and `Remove` calls no Red
node has a Red parent and the root, if there is one, is Black; this holds of the picture
of the tree and of the `Parent` pointers and colours in the heap alike. -/
theorem reachable_no_red_red_and_black_root (s : TreeSet) (h : Reachable s) :
    ∃ T, Represents s T ∧ T.NoRedRed ∧ T.color = .Black ∧ s.RootIsBlack ∧
      ∀ a ∈ T.addrs, s.NoRedParentOfRed a := by
  obtain ⟨T, hR, hrb, -⟩ := h.invariant
  exact ⟨T, hR, hrb.2.1, hrb.1, hR.rootIsBlack hrb.1, hR.noRedParentOfRed hrb.2.1⟩

theorem reachable_no_red_red_and_black_root_witness :
    Reachable exampleRepairState ∧
    ∃ T, Represents exampleRepairState T ∧ T.NoRedRed ∧ T.color = .Black ∧
      exampleRepairState.RootIsBlack ∧ ∀ a ∈ T.addrs, exampleRepairState.NoRedParentOfRed a :=
  ⟨exampleRepairState_reachable,
    reachable_no_red_red_and_black_root exampleRepairState exampleRepairState_reachable⟩

/-- C5: in every tree reachable from the empty tree by `Insert` and `Remove` calls, all
paths from any one node down to an absent child carry the same number of Black nodes;
removals that go through the double-black repair are included, being reachable. -/
theorem reachable_uniform_black_height (s : TreeSet) (h : Reachable s) :
    ∃ T, Represents s T ∧ T.UniformBlackHeight := by
  obtain ⟨T, hR, hrb, -⟩ := h.invariant
  exact ⟨T, hR, RBT.uniform_of_balanced hrb.2.2⟩

theorem reachable_uniform_black_height_witness :
    Reachable exampleRepairState ∧
    ∃ T, Represents exampleRepairState T ∧ T.UniformBlackHeight :=
  ⟨exampleRepairState_reachable,
    reachable_uniform_black_height exampleRepairState exampleRepairState_reachable⟩

/-- C6: on a tree in strict binary-search-tree order that satisfies the red-black
invariants (Black root, no Red-Red, uniform black-height, parent links as laid out by
`Represents`), `Insert(k)` of a key `k` not in the tree returns `true`, and the in-order
key sequence afterwards is the one before with `k` put at its sorted position: it is
strictly increasing and a permutation of `k` and the old keys. -/
theorem insert_absent_key {s : TreeSet} {T : RBT} (k : Int) (hR : Represents s T)
    (hbst : T.BST) (hc : T.color = .Black) (hn : T.NoRedRed) (hu : T.UniformBlackHeight)
    (hk : k ∉ T.keys) :
    s.InOrder = some T.keys ∧
    ∃ s1, s.Insert k = some (true, s1) ∧
      s1.InOrder = some (T.keys.orderedInsert (· ≤ ·) k) ∧
      (T.keys.orderedInsert (· ≤ ·) k).Sorted (· < ·) ∧
      (T.keys.orderedInsert (· ≤ ·) k).Perm (k :: T.keys) := by
  obtain ⟨s1, T1, e1, R1, -, hk1, hs1, -⟩ :=
    Insert_inv k hR ⟨hc, hn, RBT.balanced_of_uniform hu⟩ hbst.sorted_le
  have hp := List.perm_orderedInsert (· ≤ ·) k T.keys
  have hnd : (T.keys.orderedInsert (· ≤ ·) k).Nodup :=
    hp.nodup_iff.2 (List.nodup_cons.2 ⟨hk, hbst.sorted_lt.nodup⟩)
  refine ⟨hR.inOrder, s1, e1, ?_, ?_, hp⟩
  · rw [R1.inOrder, hk1]
  · exact (hk1 ▸ hs1).lt_of_le hnd

theorem insert_absent_key_witness :
    Represents witnessState witnessTree ∧ witnessTree.BST ∧ witnessTree.color = .Black ∧
    witnessTree.NoRedRed ∧ witnessTree.UniformBlackHeight ∧ (5 : Int) ∉ witnessTree.keys ∧
    (witnessState.InOrder = some witnessTree.keys ∧
      ∃ s1, witnessState.Insert 5 = some (true, s1) ∧
        s1.InOrder = some (witnessTree.keys.orderedInsert (· ≤ ·) 5) ∧
        (witnessTree.keys.orderedInsert (· ≤ ·) 5).Sorted (· < ·) ∧
        (witnessTree.keys.orderedInsert (· ≤ ·) 5).Perm (5 :: witnessTree.keys)) :=
  ⟨witnessState_represents, witnessTree_bst, rfl, witnessTree_redBlack.2.1, witnessTree_uniform,
    by decide,
    insert_absent_key 5 witnessState_represents witnessTree_bst rfl witnessTree_redBlack.2.1
      witnessTree_uniform (by decide)⟩

/-- C7: on a tree in strict binary-search-tree order that satisfies the red-black
invariants (Black root, no Red-Red, uniform black-height, parent links as laid out by
`Represents`), `Remove(k)` of a key `k` in the tree returns `true`, and the in-order key
sequence afterwards is the one before with `k` erased; the case of a node with two
children, where the key of the in-order predecessor is copied, is included. -/
theorem remove_present_key {s : TreeSet} {T : RBT} (k : Int) (hR : Represents s T)
    (hbst : T.BST) (hc : T.color = .Black) (hn : T.NoRedRed) (hu : T.UniformBlackHeight)
    (hk : k ∈ T.keys) :
    s.InOrder = some T.keys ∧
    ∃ s1, s.Remove k = some (true, s1) ∧ s1.InOrder = some (T.keys.erase k) ∧
      (T.keys.erase k).length + 1 = T.keys.length := by
  rcases Remove_spec k hR ⟨hc, hn, RBT.balanced_of_uniform hu⟩ hbst.sorted_le with
    ⟨hk', -⟩ | ⟨s3, T3, L, R, e1, R3, -, hkk, hk3, -, -⟩
  · exact absurd hk hk'
  · have hs := hbst.sorted_lt
    rw [hkk] at hs
    have hL : k ∉ L := fun hm =>
      lt_irrefl k ((List.pairwise_append.1 hs).2.2 k hm k (List.mem_cons_self _ _))
    have he : T.keys.erase k = L ++ R := by
      rw [hkk, List.erase_append_right _ hL, List.erase_cons_head]
    refine ⟨hR.inOrder, s3, e1, ?_, ?_⟩
    · rw [R3.inOrder, hk3, he]
    · rw [he, hkk]
      simp only [List.length_append, List.length_cons]
      omega

theorem remove_present_key_witness :
    Represents witnessState witnessTree ∧ witnessTree.BST ∧ witnessTree.color = .Black ∧
    witnessTree.NoRedRed ∧ witnessTree.UniformBlackHeight ∧ (2 : Int) ∈ witnessTree.keys ∧
    (witnessState.InOrder = some witnessTree.keys ∧
      ∃ s1, witnessState.Remove 2 = some (true, s1) ∧
        s1.InOrder = some (witnessTree.keys.erase 2) ∧
        (witnessTree.keys.erase 2).length + 1 = witnessTree.keys.length) :=
  ⟨witnessState_represents, witnessTree_bst, rfl, witnessTree_redBlack.2.1, witnessTree_uniform,
    by decide,
    remove_present_key 2 witnessState_represents witnessTree_bst rfl witnessTree_redBlack.2.1
      witnessTree_uniform (by decide)⟩

/-- C8: on every tree reachable from the empty tree by `Insert` and `Remove` calls and
for every key `k`, the call `Insert(k)` returns, and `Search(k)` on the state it leaves
returns `true`. -/
theorem search_after_insert (s : TreeSet) (h : Reachable s) (k : Int) :
    ∃ b s1, s.Insert k = some (b, s1) ∧ s1.Search k = some true := by
  obtain ⟨T, hR, hrb, hs⟩ := h.invariant
  obtain ⟨s1, T1, e1, R1, -, hk1, hs1, -⟩ := Insert_inv k hR hrb hs
  refine ⟨true, s1, e1, ?_⟩
  have hm : k ∈ T1.keys := by
    rw [hk1]
    exact (List.perm_orderedInsert (· ≤ ·) k T.keys).mem_iff.2 (List.mem_cons_self _ _)
  rw [R1.search k hs1]
  simp [hm]

theorem search_after_insert_witness :
    Reachable exampleState ∧
    ∃ b s1, exampleState.Insert 7 = some (b, s1) ∧ s1.Search 7 = some true :=
  ⟨exampleState_reachable, search_after_insert exampleState exampleState_reachable 7⟩

/-- C10: every sequence of `Insert` and `Remove` calls on the empty tree runs to the end,
and `Count()` afterwards is the number of `Insert` calls that returned `true` minus the
number of `Remove` calls that returned `true`. -/
theorem count_is_inserts_minus_removes (ops : List Op) :
    ∃ s ni nr, runOps TreeSet.empty ops = some (s, ni, nr) ∧ nr ≤ ni ∧
      s.Count = some (ni - nr) := by
  obtain ⟨s1, ni, nr, T1, e, R1, h⟩ := runOps_size ops TreeSet.empty .nil
    ⟨rfl, trivial, List.nodup_nil, by simp [RBT.addrs]⟩ ⟨rfl, trivial, trivial⟩ List.sorted_nil
  simp only [RBT.size, Nat.zero_add] at h
  refine ⟨s1, ni, nr, e, by omega, ?_⟩
  rw [R1.count]
  congr 1
  omega

/-! ## Search, parent links, and runs without faults -/

/-- Whatever the order of the keys, `FindNode` returns null or a node of the tree that
holds the key. -/
theorem FindNode_cases {s : TreeSet} {T : RBT} (k : Int) (hR : Represents s T) :
    s.FindNode k = some none ∨
    (∃ fs a c l r, s.FindNode k = some (some a) ∧ T = plug fs (.node a c l k r)) := by
  have F0 : Focus s [] T := Represents.focus [] hR
  rcases FindNodeLoop_spec k T [] s.fuel F0 trivial hR.height_lt_fuel with
    ⟨fs1, e1, -, -⟩ | ⟨fs1, a, c, l, r, e1, hp1, -⟩
  · exact Or.inl (by simpa only [TreeSet.FindNode, hR.root] using e1)
  · exact Or.inr ⟨fs1, a, c, l, r, by simpa only [TreeSet.FindNode, hR.root] using e1, hp1.symm⟩

/-- `Remove` returns on every red-black tree, sorted or not, and leaves a red-black
tree. -/
theorem Remove_total {s : TreeSet} {T : RBT} (k : Int) (hR : Represents s T)
    (hrb : T.RedBlack) :
    ∃ b s1 T1, s.Remove k = some (b, s1) ∧ Represents s1 T1 ∧ T1.RedBlack := by
  rcases FindNode_cases k hR with hf | ⟨fs, a, c, l, r, hf, rfl⟩
  · exact ⟨false, s, T, by simp only [TreeSet.Remove, hf], hR, hrb⟩
  · obtain ⟨s3, T3, -, -, e, R3, hrb3, -⟩ := Remove_found (Represents.focus fs hR) hrb hf
    exact ⟨true, s3, T3, e, R3, hrb3⟩

theorem Layout_child_parent {h : Heap} : ∀ (t : RBT) (par : Option Nat), Layout h par t →
    ∀ p ∈ t.addrs, ∀ pn c, h p = some pn → (pn.Left = some c ∨ pn.Right = some c) →
      ∃ cn, h c = some cn ∧ cn.Parent = some p
  | .nil, _, _ => by simp [RBT.addrs]
  | .node a col l k r, par, hl => by
    intro p hp pn c e1 e2
    simp only [Layout] at hl
    simp only [RBT.addrs, List.mem_append, List.mem_cons] at hp
    rcases hp with hp | rfl | hp
    · exact Layout_child_parent l (some a) hl.2.1 p hp pn c e1 e2
    · rw [hl.1] at e1
      obtain rfl := Option.some.inj e1
      simp only at e2
      rcases e2 with e2 | e2
      · cases l with
        | nil => simp at e2
        | node a1 c1 l1 k1 r1 =>
          simp only [RBT.ptr_node, Option.some.injEq] at e2
          subst e2
          have := hl.2.1
          simp only [Layout] at this
          exact ⟨_, this.1, rfl⟩
      · cases r with
        | nil => simp at e2
        | node a1 c1 l1 k1 r1 =>
          simp only [RBT.ptr_node, Option.some.injEq] at e2
          subst e2
          have := hl.2.2
          simp only [Layout] at this
          exact ⟨_, this.1, rfl⟩
    · exact Layout_child_parent r (some a) hl.2.2 p hp pn c e1 e2

theorem Layout_parentless {h : Heap} : ∀ (t : RBT) (par : Option Nat), Layout h par t →
    ∀ a ∈ t.addrs, ∀ n, h a = some n → n.Parent = none → par = none ∧ t.ptr = some a
  | .nil, _, _ => by simp [RBT.addrs]
  | .node a col l k r, par, hl => by
    intro a1 ha1 n e1 e2
    simp only [Layout] at hl
    simp only [RBT.addrs, List.mem_append, List.mem_cons] at ha1
    rcases ha1 with ha1 | rfl | ha1
    · exact absurd (Layout_parentless l (some a) hl.2.1 a1 ha1 n e1 e2).1 (by simp)
    · rw [hl.1] at e1
      obtain rfl := Option.some.inj e1
      exact ⟨e2, rfl⟩
    · exact absurd (Layout_parentless r (some a) hl.2.2 a1 ha1 n e1 e2).1 (by simp)

theorem Layout_root_cell {h : Heap} {t : RBT} {par : Option Nat} {a : Nat}
    (hl : Layout h par t) (ha : t.ptr = some a) : ∃ n, h a = some n ∧ n.Parent = par := by
  cases t with
  | nil => simp at ha
  | node a1 c l k r =>
    simp only [RBT.ptr_node, Option.some.injEq] at ha
    subst ha
    simp only [Layout] at hl
    exact ⟨_, hl.1, rfl⟩

theorem siblingRedState_represents : Represents siblingRedState siblingRedTree where
  root := rfl
  rep := by simp [siblingRedTree, siblingRedState, Layout]
  nodup := by decide
  bound := by decide

theorem siblingRedTree_redBlack : siblingRedTree.RedBlack := by
  simp [siblingRedTree, RBT.RedBlack, RBT.NoRedRed, RBT.Balanced, RBT.bh, RBT.color]

/-- C13: on a tree in strict binary-search-tree order `Search(k)` returns `true` exactly
when some node holds `k` and `false` exactly when none does; `Search` only reads the
heap, the state it is called on is the state afterwards. -/
theorem search_iff_present {s : TreeSet} {T : RBT} (k : Int) (hR : Represents s T)
    (hbst : T.BST) :
    (s.Search k = some true ↔ k ∈ T.keys) ∧ (s.Search k = some false ↔ k ∉ T.keys) := by
  rw [hR.search k hbst.sorted_le]
  by_cases hk : k ∈ T.keys <;> simp [hk]

theorem search_iff_present_witness :
    Represents witnessState witnessTree ∧ witnessTree.BST ∧
    ((witnessState.Search 3 = some true ↔ (3 : Int) ∈ witnessTree.keys) ∧
      (witnessState.Search 3 = some false ↔ (3 : Int) ∉ witnessTree.keys)) :=
  ⟨witnessState_represents, witnessTree_bst,
    search_iff_present 3 witnessState_represents witnessTree_bst⟩

/-- C14: in every tree reachable from the empty tree by `Insert` and `Remove` calls,
every node that is the `Left` or `Right` child of a node `p` has `p` in its `Parent`
field, the root has no parent, and a node of the tree without a parent is the root. -/
theorem reachable_parent_links (s : TreeSet) (h : Reachable s) :
    ∃ T, Represents s T ∧
      (∀ p ∈ T.addrs, ∀ pn c, s.heap p = some pn → (pn.Left = some c ∨ pn.Right = some c) →
        ∃ cn, s.heap c = some cn ∧ cn.Parent = some p) ∧
      (∀ r, s.m_pRoot = some r → ∃ rn, s.heap r = some rn ∧ rn.Parent = none) ∧
      (∀ a ∈ T.addrs, ∀ n, s.heap a = some n → n.Parent = none → s.m_pRoot = some a) := by
  obtain ⟨T, hR, -, -⟩ := h.invariant
  refine ⟨T, hR, Layout_child_parent T none hR.rep, ?_, ?_⟩
  · intro r hr
    exact Layout_root_cell hR.rep (hR.root ▸ hr)
  · intro a ha n e1 e2
    rw [hR.root]
    exact (Layout_parentless T none hR.rep a ha n e1 e2).2

theorem reachable_parent_links_witness :
    Reachable exampleRepairState ∧
    ∃ T, Represents exampleRepairState T ∧
      (∀ p ∈ T.addrs, ∀ pn c, exampleRepairState.heap p = some pn →
        (pn.Left = some c ∨ pn.Right = some c) →
        ∃ cn, exampleRepairState.heap c = some cn ∧ cn.Parent = some p) ∧
      (∀ r, exampleRepairState.m_pRoot = some r →
        ∃ rn, exampleRepairState.heap r = some rn ∧ rn.Parent = none) ∧
      (∀ a ∈ T.addrs, ∀ n, exampleRepairState.heap a = some n → n.Parent = none →
        exampleRepairState.m_pRoot = some a) :=
  ⟨exampleRepairState_reachable,
    reachable_parent_links exampleRepairState exampleRepairState_reachable⟩

/-- The assertions of the removal do fail on a heap that is not a red-black tree: the
Black leaf 1 of `faultyState` has no sibling, and `Remove(1)` does not return. -/
theorem faultyState_remove : faultyState.Remove 1 = none :=
  Option.isNone_iff_eq_none.1 (by decide)

/-- C16: on a tree that satisfies the red-black invariants `Remove(k)` returns for every
key `k`, in the tree or not; that is, none of its assertions fails and no null pointer
is followed: the parent and the sibling exist whenever `TreeNodeFamily` is built, a Black
node deleted with a child has exactly one child and that child is Red, and the sibling is
Black whenever the parent is Red; the tree it leaves satisfies the invariants again. -/
theorem remove_never_faults {s : TreeSet} {T : RBT} (k : Int) (hR : Represents s T)
    (hc : T.color = .Black) (hn : T.NoRedRed) (hu : T.UniformBlackHeight) :
    ∃ b s1 T1, s.Remove k = some (b, s1) ∧ Represents s1 T1 ∧ T1.color = .Black ∧
      T1.NoRedRed ∧ T1.UniformBlackHeight := by
  obtain ⟨b, s1, T1, e, R1, hrb1⟩ := Remove_total k hR ⟨hc, hn, RBT.balanced_of_uniform hu⟩
  exact ⟨b, s1, T1, e, R1, hrb1.1, hrb1.2.1, RBT.uniform_of_balanced hrb1.2.2⟩

theorem remove_never_faults_witness :
    Represents siblingRedState siblingRedTree ∧ siblingRedTree.color = .Black ∧
    siblingRedTree.NoRedRed ∧ siblingRedTree.UniformBlackHeight ∧
    ∃ b s1 T1, siblingRedState.Remove 0 = some (b, s1) ∧ Represents s1 T1 ∧
      T1.color = .Black ∧ T1.NoRedRed ∧ T1.UniformBlackHeight :=
  ⟨siblingRedState_represents, rfl, siblingRedTree_redBlack.2.1,
    RBT.uniform_of_balanced siblingRedTree_redBlack.2.2,
    remove_never_faults 0 siblingRedState_represents rfl siblingRedTree_redBlack.2.1
      (RBT.uniform_of_balanced siblingRedTree_redBlack.2.2)⟩

/-- C17: on a tree that satisfies the red-black invariants `Insert(k)` returns (with
`true`) for every key, that is, no assertion of `InsertFixup` fails and no null pointer
is followed: every call that finds the node and its parent Red finds a grandparent, and
the uncle exists in the branch that recolours it; the tree it leaves satisfies the
invariants again. -/
theorem insert_never_faults {s : TreeSet} {T : RBT} (k : Int) (hR : Represents s T)
    (hc : T.color = .Black) (hn : T.NoRedRed) (hu : T.UniformBlackHeight) :
    ∃ s1 T1, s.Insert k = some (true, s1) ∧ Represents s1 T1 ∧ T1.color = .Black ∧
      T1.NoRedRed ∧ T1.UniformBlackHeight := by
  obtain ⟨s1, T1, -, e, R1, hrb1, -⟩ := Insert_spec k hR ⟨hc, hn, RBT.balanced_of_uniform hu⟩
  exact ⟨s1, T1, e, R1, hrb1.1, hrb1.2.1, RBT.uniform_of_balanced hrb1.2.2⟩

theorem insert_never_faults_witness :
    Represents siblingRedState siblingRedTree ∧ siblingRedTree.color = .Black ∧
    siblingRedTree.NoRedRed ∧ siblingRedTree.UniformBlackHeight ∧
    ∃ s1 T1, siblingRedState.Insert 6 = some (true, s1) ∧ Represents s1 T1 ∧
      T1.color = .Black ∧ T1.NoRedRed ∧ T1.UniformBlackHeight :=
  ⟨siblingRedState_represents, rfl, siblingRedTree_redBlack.2.1,
    RBT.uniform_of_balanced siblingRedTree_redBlack.2.2,
    insert_never_faults 6 siblingRedState_represents rfl siblingRedTree_redBlack.2.1
      (RBT.uniform_of_balanced siblingRedTree_redBlack.2.2)⟩

/-- C20: in every tree reachable from the empty tree by `Insert` and `Remove` calls,
inserts of keys already present included, the in-order traversal is non-decreasing. -/
theorem reachable_inorder_nondecreasing (s : TreeSet) (h : Reachable s) :
    ∃ ks, s.InOrder = some ks ∧ ks.Sorted (· ≤ ·) := by
  obtain ⟨T, hR, -, hs⟩ := h.invariant
  exact ⟨T.keys, hR.inOrder, hs⟩

theorem reachable_inorder_nondecreasing_witness :
    Reachable exampleState ∧ ∃ ks, exampleState.InOrder = some ks ∧ ks.Sorted (· ≤ ·) :=
  ⟨exampleState_reachable, reachable_inorder_nondecreasing exampleState exampleState_reachable⟩

/-! ## Height against size -/

theorem height_step (c cp : TreeNodeColor) (hp cb sp sq : Nat)
    (hq1 : 2 ^ cb ≤ sq + 1) (hcol : c = .Red → cp = .Black) (hpos : cp = .Red → 1 ≤ hp)
    (hB : cp = .Black → hp ≤ 2 * cb ∧
      ∀ b, (hp = 2 * b → 2 * 2 ^ b ≤ sp + 2) ∧ (hp = 2 * b + 1 → 3 * 2 ^ b ≤ sp + 2))
    (hR : cp = .Red → hp ≤ 2 * cb + 1 ∧
      ∀ b, (hp = 2 * b + 1 → 3 * 2 ^ b ≤ sp + 2) ∧ (hp = 2 * b + 2 → 5 * 2 ^ b ≤ sp + 2)) :
    (c = .Black → hp + 1 ≤ 2 * (cb + 1) ∧
      ∀ b, (hp + 1 = 2 * b → 2 * 2 ^ b ≤ sp + sq + 3) ∧
        (hp + 1 = 2 * b + 1 → 3 * 2 ^ b ≤ sp + sq + 3)) ∧
    (c = .Red → hp + 1 ≤ 2 * cb + 1 ∧
      ∀ b, (hp + 1 = 2 * b + 1 → 3 * 2 ^ b ≤ sp + sq + 3) ∧
        (hp + 1 = 2 * b + 2 → 5 * 2 ^ b ≤ sp + sq + 3)) := by
  have pw : ∀ i j : Nat, i ≤ j → 2 ^ i ≤ 2 ^ j := fun i j h => Nat.pow_le_pow_right (by decide) h
  have ps : ∀ i : Nat, 2 ^ (i + 1) = 2 * 2 ^ i := fun i => by rw [pow_succ]; omega
  cases cp with
  | Black =>
    obtain ⟨h1, h2⟩ := hB rfl
    refine ⟨fun _ => ⟨by omega, fun b => ⟨fun e => ?_, fun e => ?_⟩⟩,
      fun _ => ⟨by omega, fun b => ⟨fun e => ?_, fun e => ?_⟩⟩⟩
    · obtain ⟨b, rfl⟩ : ∃ j, b = j + 1 := ⟨b - 1, by omega⟩
      have := (h2 b).2 (by omega)
      have := pw (b + 1) cb (by omega)
      have := ps b
      omega
    · have := (h2 b).1 (by omega)
      have := pw b cb (by omega)
      omega
    · have := (h2 b).1 (by omega)
      have := pw b cb (by omega)
      omega
    · have := (h2 b).2 (by omega)
      have := pw (b + 1) cb (by omega)
      have := ps b
      omega
  | Red =>
    obtain ⟨h1, h2⟩ := hR rfl
    have h0 := hpos rfl
    have hc : c = .Black := by
      cases c with
      | Black => rfl
      | Red => exact absurd (hcol rfl) (by decide)
    subst hc
    refine ⟨fun _ => ⟨by omega, fun b => ⟨fun e => ?_, fun e => ?_⟩⟩,
      fun h => absurd h (by decide)⟩
    · obtain ⟨b, rfl⟩ : ∃ j, b = j + 1 := ⟨b - 1, by omega⟩
      have := (h2 b).1 (by omega)
      have := pw b cb (by omega)
      have := ps b
      omega
    · obtain ⟨b, rfl⟩ : ∃ j, b = j + 1 := ⟨b - 1, by omega⟩
      have := (h2 b).2 (by omega)
      have := pw (b + 1) cb (by omega)
      have := ps b
      omega

theorem RBT.height_pos_of_red {t : RBT} (h : t.color = .Red) : 1 ≤ t.height := by
  cases t with
  | nil => exact absurd h (by decide)
  | node a c l k r => simp [RBT.height]

/-- Size against height in a balanced tree without Red-Red: a Black-rooted tree of
height `2b` has at least `2^(b+1) - 2` nodes, one of height `2b+1` at least
`3 * 2^b - 2`. -/
theorem RBT.size_height_bound : ∀ (t : RBT), t.Balanced → t.NoRedRed →
    2 ^ t.bh ≤ t.size + 1 ∧
    (t.color = .Black → t.height ≤ 2 * t.bh ∧
      ∀ b, (t.height = 2 * b → 2 * 2 ^ b ≤ t.size + 2) ∧
        (t.height = 2 * b + 1 → 3 * 2 ^ b ≤ t.size + 2)) ∧
    (t.color = .Red → t.height ≤ 2 * t.bh + 1 ∧
      ∀ b, (t.height = 2 * b + 1 → 3 * 2 ^ b ≤ t.size + 2) ∧
        (t.height = 2 * b + 2 → 5 * 2 ^ b ≤ t.size + 2))
  | .nil, _, _ => by
    refine ⟨by simp [RBT.bh, RBT.size],
      fun _ => ⟨by simp [RBT.height], fun b => ⟨fun e => ?_, fun e => ?_⟩⟩,
      fun h => absurd h (by simp [RBT.color])⟩
    · simp only [RBT.height] at e
      obtain rfl : b = 0 := by omega
      simp [RBT.size]
    · simp only [RBT.height] at e
      omega
  | .node a c l k r, hb, hn => by
    obtain ⟨hbh, hbl, hbr⟩ := hb
    obtain ⟨hc, hnl, hnr⟩ := hn
    obtain ⟨l1, l2, l3⟩ := RBT.size_height_bound l hbl hnl
    obtain ⟨r1, r2, r3⟩ := RBT.size_height_bound r hbr hnr
    have ps : ∀ i : Nat, 2 ^ (i + 1) = 2 * 2 ^ i := fun i => by rw [pow_succ]; omega
    refine ⟨?_, ?_⟩
    · simp only [RBT.bh, RBT.size]
      rw [hbh] at l1 ⊢
      split
      · have := ps r.bh
        omega
      · simp only [Nat.add_zero]
        omega
    · by_cases hle : l.height ≤ r.height
      · have key := height_step c r.color r.height r.bh r.size l.size (hbh ▸ l1)
          (fun h => (hc h).2) RBT.height_pos_of_red r2 r3
        simp only [RBT.color_node, RBT.height, RBT.bh, RBT.size, Nat.max_eq_right hle, hbh]
        have e1 : l.size + 1 + r.size + 2 = r.size + l.size + 3 := by omega
        rw [e1]
        refine ⟨fun h => ?_, fun h => ?_⟩
        · simpa only [h, if_true] using key.1 h
        · simpa only [h, if_false, Nat.add_zero, reduceCtorEq] using key.2 h
      · have hge : r.height ≤ l.height := by omega
        have key := height_step c l.color l.height l.bh l.size r.size (hbh ▸ r1)
          (fun h => (hc h).1) RBT.height_pos_of_red l2 l3
        simp only [RBT.color_node, RBT.height, RBT.bh, RBT.size, Nat.max_eq_left hge]
        have e1 : l.size + 1 + r.size + 2 = l.size + r.size + 3 := by omega
        rw [e1]
        refine ⟨fun h => ?_, fun h => ?_⟩
        · simpa only [h, if_true] using key.1 h
        · simpa only [h, if_false, Nat.add_zero, reduceCtorEq] using key.2 h

/-- A non-empty red-black tree of height `h` with `n` nodes has `2^(h+1) ≤ (n+1)^2`. -/
theorem RBT.RedBlack.pow_height_succ_le {t : RBT} (h : t.RedBlack) (hpos : 1 ≤ t.size) :
    2 ^ (t.height + 1) ≤ (t.size + 1) ^ 2 := by
  obtain ⟨-, h2, -⟩ := RBT.size_height_bound t h.2.2 h.2.1
  obtain ⟨-, h3⟩ := h2 h.1
  have hh : 1 ≤ t.height := by
    cases t with
    | nil => simp [RBT.size] at hpos
    | node a c l k r => simp [RBT.height]
  rcases Nat.even_or_odd' t.height with ⟨b, e | e⟩
  · have hb := (h3 b).1 e
    have hx : 2 ≤ 2 ^ b := by
      obtain ⟨j, rfl⟩ : ∃ j, b = j + 1 := ⟨b - 1, by omega⟩
      have : 1 ≤ 2 ^ j := Nat.one_le_two_pow
      rw [pow_succ]; omega
    have e2 : 2 ^ (t.height + 1) = 2 * (2 ^ b * 2 ^ b) := by
      rw [e, ← pow_add, pow_succ]
      ring_nf
    rw [e2]
    generalize 2 ^ b = x at hb hx
    nlinarith
  · have hb := (h3 b).2 e
    have hx : 1 ≤ 2 ^ b := Nat.one_le_two_pow
    have e2 : 2 ^ (t.height + 1) = (2 * 2 ^ b) ^ 2 := by
      rw [e, mul_pow, ← pow_mul]
      ring_nf
    rw [e2]
    exact Nat.pow_le_pow_left (by omega) 2

/-! ## `GetMaxHeight`, and whole runs of inserts and removals -/

theorem GetMaxHeightRecursive_spec {h : Heap} : ∀ (t : RBT) (par : Option Nat) (fuel d m : Nat),
    Layout h par t → t.height < fuel →
    GetMaxHeightRecursive fuel h t.ptr d m = some (max m (d + t.height))
  | .nil, _, fuel, d, m, _, hfuel => by
    obtain ⟨fuel, rfl⟩ : ∃ j, fuel = j + 1 := ⟨fuel - 1, by omega⟩
    simp [GetMaxHeightRecursive, RBT.height]
  | .node a col l k r, par, fuel, d, m, hl, hfuel => by
    obtain ⟨fuel, rfl⟩ : ∃ j, fuel = j + 1 := ⟨fuel - 1, by omega⟩
    simp only [RBT.height] at hfuel
    simp only [Layout] at hl
    simp only [GetMaxHeightRecursive, RBT.ptr_node, hl.1, Option.bind_eq_bind, Option.some_bind,
      GetMaxHeightRecursive_spec l (some a) fuel (d + 1) m hl.2.1 (by omega),
      GetMaxHeightRecursive_spec r (some a) fuel (d + 1) _ hl.2.2 (by omega), RBT.height]
    congr 1
    omega

/-- `GetMaxHeight` is one more than the number of nodes on the longest downward path. -/
theorem Represents.getMaxHeight {s : TreeSet} {T : RBT} (h : Represents s T) :
    s.GetMaxHeight = some (T.height + 1) := by
  have := GetMaxHeightRecursive_spec T none s.fuel 1 0 h.rep h.height_lt_fuel
  rw [TreeSet.GetMaxHeight, h.root, this]
  congr 1
  omega

theorem RBT.length_keys : ∀ (t : RBT), t.keys.length = t.size
  | .nil => rfl
  | .node a c l k r => by
    simp only [RBT.keys, RBT.size, List.length_append, List.length_cons, RBT.length_keys l,
      RBT.length_keys r]
    omega

theorem RBT.bst_of_sorted : ∀ {t : RBT}, t.keys.Sorted (· < ·) → t.BST
  | .nil, _ => trivial
  | .node a c l k r, h => by
    simp only [RBT.keys] at h
    obtain ⟨h1, h2, h3⟩ := List.pairwise_append.1 h
    obtain ⟨h4, h5⟩ := List.pairwise_cons.1 h2
    exact ⟨fun x hx => h3 x hx k (List.mem_cons_self _ _), h4,
      RBT.bst_of_sorted h1, RBT.bst_of_sorted h5⟩

/-- A run of inserts on a sorted red-black tree returns and leaves a sorted red-black
tree that holds the old keys and the inserted ones. -/
theorem insertAll_spec : ∀ (ks : List Int) (s : TreeSet) (T : RBT), Represents s T →
    T.RedBlack → T.keys.Sorted (· ≤ ·) →
    ∃ s1 T1, insertAll s ks = some s1 ∧ Represents s1 T1 ∧ T1.RedBlack ∧
      T1.keys.Sorted (· ≤ ·) ∧ T1.keys.Perm (ks ++ T.keys) ∧ T1.size = T.size + ks.length
  | [], s, T, hR, hrb, hs => ⟨s, T, rfl, hR, hrb, hs, List.Perm.refl _, rfl⟩
  | k :: ks, s, T, hR, hrb, hs => by
    obtain ⟨s1, T1, e1, R1, hrb1, hk1, hs1, hsz1⟩ := Insert_inv k hR hrb hs
    obtain ⟨s2, T2, e2, R2, hrb2, hs2, hp2, hsz2⟩ := insertAll_spec ks s1 T1 R1 hrb1 hs1
    refine ⟨s2, T2, ?_, R2, hrb2, hs2, ?_, ?_⟩
    · simp only [insertAll, e1, Option.bind_eq_bind, Option.some_bind, e2]
    · refine hp2.trans ?_
      rw [hk1]
      refine (List.Perm.append_left ks (List.perm_orderedInsert (· ≤ ·) k T.keys)).trans ?_
      exact List.perm_middle
    · rw [hsz2, hsz1, List.length_cons]
      omega

/-- Removing, one after another, all keys of a strictly sorted red-black tree: every call
returns `true`, every state on the way is a red-black tree in strict order, and nothing
is left at the end. -/
theorem removeEach_spec : ∀ (rs : List Int) (s : TreeSet) (T : RBT), Represents s T →
    T.RedBlack → T.keys.Sorted (· < ·) → T.keys.Perm rs →
    ∃ sEnd tr, removeEach s rs = some (sEnd, tr) ∧ tr.length = rs.length ∧
      (∀ r ∈ tr, r.1 = true ∧ ∃ T1, Represents r.2 T1 ∧ T1.BST ∧ T1.color = .Black ∧
        T1.NoRedRed ∧ T1.UniformBlackHeight) ∧
      sEnd.Count = some 0
  | [], s, T, hR, _, _, hp => by
    refine ⟨s, [], rfl, rfl, by simp, ?_⟩
    rw [hR.count, ← RBT.length_keys, List.Perm.eq_nil hp]
    rfl
  | k :: rs, s, T, hR, hrb, hs, hp => by
    have hk : k ∈ T.keys := hp.mem_iff.2 (List.mem_cons_self _ _)
    rcases Remove_spec k hR hrb (hs.imp (fun hab => le_of_lt hab)) with
      ⟨hk', -⟩ | ⟨s3, T3, L, R, e1, R3, hrb3, hkk, hk3, -, -⟩
    · exact absurd hk hk'
    · have hs3 : T3.keys.Sorted (· < ·) := by
        rw [hk3]
        rw [hkk] at hs
        exact hs.sublist (List.Sublist.append (List.Sublist.refl _) (List.sublist_cons_self _ _))
      have hp3 : T3.keys.Perm rs := by
        rw [hk3]
        rw [hkk] at hp
        exact (List.perm_middle.symm.trans hp).cons_inv
      obtain ⟨sEnd, tr, e2, hlen, hall, hcnt⟩ := removeEach_spec rs s3 T3 R3 hrb3 hs3 hp3
      refine ⟨sEnd, (true, s3) :: tr, ?_, by simp [hlen], ?_, hcnt⟩
      · simp only [removeEach, e1, Option.bind_eq_bind, Option.some_bind, e2]
      · intro r hr
        rcases List.mem_cons.1 hr with rfl | hr
        · exact ⟨rfl, T3, R3, RBT.bst_of_sorted hs3, hrb3.1, hrb3.2.1,
            RBT.uniform_of_balanced hrb3.2.2⟩
        · exact hall r hr

theorem Represents.empty : Represents TreeSet.empty .nil :=
  ⟨rfl, trivial, List.nodup_nil, by simp [RBT.addrs]⟩

/-- C11: after the keys of a list without repetitions have been inserted one after
another into the empty tree, removing all of them in any order succeeds: every `Remove`
call returns `true`, after every single removal the tree is in strict
binary-search-tree order with a Black root, no Red-Red and uniform black-height, and
`Count()` is 0 at the end. -/
theorem remove_all_after_inserts (ks rs : List Int) (hnd : ks.Nodup) (hp : rs.Perm ks) :
    ∃ s0 sEnd tr, insertAll TreeSet.empty ks = some s0 ∧
      removeEach s0 rs = some (sEnd, tr) ∧ tr.length = rs.length ∧
      (∀ r ∈ tr, r.1 = true ∧ ∃ T, Represents r.2 T ∧ T.BST ∧ T.color = .Black ∧
        T.NoRedRed ∧ T.UniformBlackHeight) ∧
      sEnd.Count = some 0 := by
  obtain ⟨s0, T0, e0, R0, hrb0, hs0, hp0, -⟩ :=
    insertAll_spec ks TreeSet.empty .nil Represents.empty ⟨rfl, trivial, trivial⟩
      List.sorted_nil
  simp only [RBT.keys, List.append_nil] at hp0
  have hs : T0.keys.Sorted (· < ·) := hs0.lt_of_le (hp0.nodup_iff.2 hnd)
  obtain ⟨sEnd, tr, e1, h1, h2, h3⟩ := removeEach_spec rs s0 T0 R0 hrb0 hs (hp0.trans hp.symm)
  exact ⟨s0, sEnd, tr, e0, e1, h1, h2, h3⟩

theorem remove_all_after_inserts_witness :
    testInsertKeys.Nodup ∧ testRemoveKeys.Perm testInsertKeys ∧
    ∃ s0 sEnd tr, insertAll TreeSet.empty testInsertKeys = some s0 ∧
      removeEach s0 testRemoveKeys = some (sEnd, tr) ∧ tr.length = testRemoveKeys.length ∧
      (∀ r ∈ tr, r.1 = true ∧ ∃ T, Represents r.2 T ∧ T.BST ∧ T.color = .Black ∧
        T.NoRedRed ∧ T.UniformBlackHeight) ∧
      sEnd.Count = some 0 :=
  ⟨by decide, by decide,
    remove_all_after_inserts testInsertKeys testRemoveKeys (by decide) (by decide)⟩

/-- C12: after the keys `0, 1, ..., n-1` (`n ≥ 1`) have been inserted in ascending order
into the empty tree, `Count()` is `n`, the root exists and is Black, and
`GetMaxHeight()` returns an `h` with `2^h ≤ (n+1)^2`, that is `h ≤ 2*log2(n+1)`; for
`n = 16` this gives `h ≤ 8`. -/
theorem ascending_inserts (n : Nat) (hn : 1 ≤ n) :
    ∃ s, insertAll TreeSet.empty (ascendingKeys n) = some s ∧ s.Count = some n ∧
      (∃ r rn, s.m_pRoot = some r ∧ s.heap r = some rn ∧ rn.Color = .Black) ∧
      ∃ h, s.GetMaxHeight = some h ∧ 2 ^ h ≤ (n + 1) ^ 2 ∧ (n = 16 → h ≤ 8) := by
  obtain ⟨s, T, e, hR, hrb, -, -, hsz⟩ :=
    insertAll_spec (ascendingKeys n) TreeSet.empty .nil Represents.empty
      ⟨rfl, trivial, trivial⟩ List.sorted_nil
  have hlen : (ascendingKeys n).length = n := by
    rw [ascendingKeys, List.length_map, List.length_range]
  simp only [RBT.size, Nat.zero_add, hlen] at hsz
  have hb : 2 ^ (T.height + 1) ≤ (n + 1) ^ 2 := hsz ▸ hrb.pow_height_succ_le (by omega)
  refine ⟨s, e, by rw [hR.count, hsz], ?_, T.height + 1, hR.getMaxHeight, hb, ?_⟩
  · cases T with
    | nil => simp [RBT.size] at hsz; omega
    | node a c l k r =>
      have h1 := hR.root
      have h2 := hR.rep
      simp only [Layout] at h2
      exact ⟨a, _, h1, h2.1, hrb.1⟩
  · rintro rfl
    by_contra hc
    have : 2 ^ 9 ≤ 2 ^ (T.height + 1) := Nat.pow_le_pow_right (by decide) (by omega)
    omega

theorem ascending_inserts_witness :
    1 ≤ 16 ∧
    ∃ s, insertAll TreeSet.empty (ascendingKeys 16) = some s ∧ s.Count = some 16 ∧
      (∃ r rn, s.m_pRoot = some r ∧ s.heap r = some rn ∧ rn.Color = .Black) ∧
      ∃ h, s.GetMaxHeight = some h ∧ 2 ^ h ≤ (16 + 1) ^ 2 ∧ (16 = 16 → h ≤ 8) :=
  ⟨by decide, ascending_inserts 16 (by decide)⟩

/-! ## Rotations on their own -/

theorem keyColors_plug_congr : ∀ (fs : List Frame) {t u : RBT},
    t.keyColors = u.keyColors → (plug fs t).keyColors = (plug fs u).keyColors
  | [], _, _, h => h
  | .left a c k r :: fs, t, u, h => by
    simp only [plug, Frame.fill]
    exact keyColors_plug_congr fs (by simp [RBT.keyColors, h])
  | .right a c l k :: fs, t, u, h => by
    simp only [plug, Frame.fill]
    exact keyColors_plug_congr fs (by simp [RBT.keyColors, h])

theorem InOrderNodes_colored {h : Heap} : ∀ (t : RBT) (par : Option Nat) (fuel : Nat),
    Layout h par t → t.height < fuel →
    ∃ ns, InOrderNodes fuel h t.ptr = some ns ∧
      ns.map (fun n => (n.Data, n.Color)) = t.keyColors
  | .nil, _, fuel, _, hfuel => by
    obtain ⟨fuel, rfl⟩ : ∃ m, fuel = m + 1 := ⟨fuel - 1, by omega⟩
    exact ⟨[], rfl, rfl⟩
  | .node a col l k r, par, fuel, hl, hfuel => by
    obtain ⟨fuel, rfl⟩ : ∃ m, fuel = m + 1 := ⟨fuel - 1, by omega⟩
    simp only [RBT.height] at hfuel
    simp only [Layout] at hl
    obtain ⟨n1, e1, h1⟩ := InOrderNodes_colored l (some a) fuel hl.2.1 (by omega)
    obtain ⟨n2, e2, h2⟩ := InOrderNodes_colored r (some a) fuel hl.2.2 (by omega)
    refine ⟨n1 ++ ⟨k, col, par, l.ptr, r.ptr⟩ :: n2, by simp only [InOrderNodes, RBT.ptr_node,
      hl.1, Option.bind_eq_bind, Option.some_bind, e1, e2], ?_⟩
    simp [RBT.keyColors, h1, h2]

theorem Represents.inOrderColored {s : TreeSet} {T : RBT} (h : Represents s T) :
    s.InOrderColored = some T.keyColors := by
  obtain ⟨ns, e, hk⟩ := InOrderNodes_colored T none s.fuel h.rep h.height_lt_fuel
  simp only [TreeSet.InOrderColored, h.root, e, Option.map_some', hk]

/-- C15: in a tree with consistent parent links, `RotateLL(n)` on a node `n` with a left
child and `RotateRR(n)` on a node `n` with a right child return, leave a tree with
consistent parent links whose in-order sequence of (key, colour) pairs is the one
before, and make the former child of `n` the root when `n` was the root. -/
theorem rotation_keeps_inorder {s : TreeSet} {T : RBT} (hR : Represents s T) :
    (∀ fs a c b cb l1 kb r1 ka r, T = plug fs (.node a c (.node b cb l1 kb r1) ka r) →
      ∃ s1 T1, s.RotateLL a = some s1 ∧ Represents s1 T1 ∧
        s.InOrderColored = some T.keyColors ∧ s1.InOrderColored = some T.keyColors ∧
        (s.m_pRoot = some a → s1.m_pRoot = some b)) ∧
    (∀ fs a c l ka b cb l1 kb r1, T = plug fs (.node a c l ka (.node b cb l1 kb r1)) →
      ∃ s1 T1, s.RotateRR a = some s1 ∧ Represents s1 T1 ∧
        s.InOrderColored = some T.keyColors ∧ s1.InOrderColored = some T.keyColors ∧
        (s.m_pRoot = some a → s1.m_pRoot = some b)) := by
  constructor
  · rintro fs a c b cb l1 kb r1 ka r rfl
    have F := Represents.focus fs hR
    obtain ⟨s1, e1, F1, -⟩ := F.rotateLL
    refine ⟨s1, _, e1, F1.represents, hR.inOrderColored, ?_, ?_⟩
    · rw [F1.represents.inOrderColored]
      congr 1
      exact keyColors_plug_congr fs (by simp [RBT.keyColors])
    · intro hr
      obtain rfl : fs = [] := F.root_iff.1 hr
      exact F1.root
  · rintro fs a c l ka b cb l1 kb r1 rfl
    have F := Represents.focus fs hR
    obtain ⟨s1, e1, F1, -⟩ := F.rotateRR
    refine ⟨s1, _, e1, F1.represents, hR.inOrderColored, ?_, ?_⟩
    · rw [F1.represents.inOrderColored]
      congr 1
      exact keyColors_plug_congr fs (by simp [RBT.keyColors])
    · intro hr
      obtain rfl : fs = [] := F.root_iff.1 hr
      exact F1.root

theorem rotation_keeps_inorder_witness :
    Represents witnessState witnessTree ∧
    (∃ s1 T1, witnessState.RotateLL 0 = some s1 ∧ Represents s1 T1 ∧
      witnessState.InOrderColored = some witnessTree.keyColors ∧
      s1.InOrderColored = some witnessTree.keyColors ∧
      (witnessState.m_pRoot = some 0 → s1.m_pRoot = some 1)) ∧
    (∃ s1 T1, witnessState.RotateRR 0 = some s1 ∧ Represents s1 T1 ∧
      witnessState.InOrderColored = some witnessTree.keyColors ∧
      s1.InOrderColored = some witnessTree.keyColors ∧
      (witnessState.m_pRoot = some 0 → s1.m_pRoot = some 2)) :=
  ⟨witnessState_represents,
    (rotation_keeps_inorder witnessState_represents).1 [] 0 .Black 1 .Red .nil 1 .nil 2
      (.node 2 .Red .nil 3 .nil) rfl,
    (rotation_keeps_inorder witnessState_represents).2 [] 0 .Black (.node 1 .Red .nil 1 .nil) 2
      2 .Red .nil 3 .nil rfl⟩

/-! ## Termination of the fixups -/

/-- C18: on a tree that satisfies the red-black invariants the recursions of
`InsertFixup` and of `RemoveFixupExtraBlack` come to an end: `Insert(k)` and `Remove(k)`
return for every key, and wherever the fixups are entered under their preconditions, a
recursion depth of two more (insert) or three more (removal) than the depth of the node
is enough. -/
theorem fixup_recursions_terminate {s : TreeSet} {T : RBT} (k : Int) (hR : Represents s T)
    (hc : T.color = .Black) (hn : T.NoRedRed) (hu : T.UniformBlackHeight) :
    (∃ r, s.Insert k = some r) ∧ (∃ r, s.Remove k = some r) ∧
    (∀ (s1 : TreeSet) (fs : List Frame) (a : Nat) (l : RBT) (kk : Int) (r : RBT) (fuel : Nat),
      Focus s1 fs (.node a .Red l kk r) → l.RedBlack → r.RedBlack → l.bh = r.bh →
      PathBalanced fs l.bh → PathNoRedRed fs → rootColor fs .Black = .Black →
      fs.length + 2 ≤ fuel → ∃ s2, TreeSet.InsertFixup fuel s1 a = some s2) ∧
    (∀ (s1 : TreeSet) (fs : List Frame) (X : RBT) (x n fuel : Nat),
      Focus s1 fs X → X.ptr = some x → PathBalanced fs (n + 1) → PathNoRedRed fs →
      rootColor fs .Black = .Black → fs.length + 3 ≤ fuel →
      ∃ s2, TreeSet.RemoveFixupExtraBlack fuel s1 x = some s2) := by
  have hrb : T.RedBlack := ⟨hc, hn, RBT.balanced_of_uniform hu⟩
  refine ⟨?_, ?_, ?_, ?_⟩
  · obtain ⟨s1, -, -, e, -⟩ := Insert_spec k hR hrb
    exact ⟨_, e⟩
  · obtain ⟨b, s1, -, e, -⟩ := Remove_total k hR hrb
    exact ⟨_, e⟩
  · intro s1 fs a l kk r fuel F h1 h2 h3 h4 h5 h6 hfuel
    obtain ⟨s2, -, e, -⟩ :=
      InsertFixup_spec fs.length fuel s1 fs a l kk r le_rfl hfuel F h1 h2 h3 h4 h5 h6
    exact ⟨s2, e⟩
  · intro s1 fs X x n fuel F hx h4 h5 h6 hfuel
    obtain ⟨s2, -, e, -⟩ := ExtraBlack_spec fs.length fuel s1 fs X x n le_rfl hfuel F hx h4 h5 h6
    exact ⟨s2, e⟩

theorem fixup_recursions_terminate_witness :
    Represents siblingRedState siblingRedTree ∧ siblingRedTree.color = .Black ∧
    siblingRedTree.NoRedRed ∧ siblingRedTree.UniformBlackHeight ∧
    ((∃ r, siblingRedState.Insert 6 = some r) ∧ (∃ r, siblingRedState.Remove 6 = some r) ∧
    (∀ (s1 : TreeSet) (fs : List Frame) (a : Nat) (l : RBT) (kk : Int) (r : RBT) (fuel : Nat),
      Focus s1 fs (.node a .Red l kk r) → l.RedBlack → r.RedBlack → l.bh = r.bh →
      PathBalanced fs l.bh → PathNoRedRed fs → rootColor fs .Black = .Black →
      fs.length + 2 ≤ fuel → ∃ s2, TreeSet.InsertFixup fuel s1 a = some s2) ∧
    (∀ (s1 : TreeSet) (fs : List Frame) (X : RBT) (x n fuel : Nat),
      Focus s1 fs X → X.ptr = some x → PathBalanced fs (n + 1) → PathNoRedRed fs →
      rootColor fs .Black = .Black → fs.length + 3 ≤ fuel →
      ∃ s2, TreeSet.RemoveFixupExtraBlack fuel s1 x = some s2)) :=
  ⟨siblingRedState_represents, rfl, siblingRedTree_redBlack.2.1,
    RBT.uniform_of_balanced siblingRedTree_redBlack.2.2,
    fixup_recursions_terminate 6 siblingRedState_represents rfl siblingRedTree_redBlack.2.1
      (RBT.uniform_of_balanced siblingRedTree_redBlack.2.2)⟩

/-! ## The case "parent Black, sibling Red" of the double-black repair -/

/-- The statements of the case up to the recursive call, on the picture. -/
theorem siblingRedStep_spec {s : TreeSet} {f : Frame} {fs : List Frame} {X : RBT} {x : Nat}
    (h : Focus s (f :: fs) X) (hx : X.ptr = some x) (sb sk near far)
    (hs : f.sib = f.sibNode sb .Red sk near far) :
    ∃ s3, s.siblingRedStep x = some s3 ∧
      Focus s3 ((f.setColor .Red).setSib near :: f.like sb .Black sk far :: fs) X ∧
      ∀ fuel, f.color = .Black →
        TreeSet.RemoveFixupExtraBlack (fuel + 1) s x = TreeSet.RemoveFixupExtraBlack fuel s3 x := by
  have hroot : ¬ s.m_pRoot = some x := by rw [h.root_iff_ptr hx]; simp
  have hir := h.isRight hx
  have hfam := h.family hx _ _ _ _ _ hs
  obtain ⟨s1, e1, F1, hf1⟩ := h.setColor_frame .Red
  obtain ⟨s2, e2, F2, hf2⟩ := F1.setColor_sib sb .Red sk near far (by simpa using hs) .Black
  obtain ⟨s3, e3, F3, hf3⟩ := F2.rotateToward sb .Black sk near far (by simp)
  simp only [Frame.sibNode_setColor, Frame.sibNode_setSib, Frame.like_setColor,
    Frame.like_setSib, Frame.setSib_setSib, Frame.addr_setSib_simp, Frame.addr_setColor_simp,
    Frame.isLeft_setSib, Frame.isLeft_setColor] at e1 e2 e3 F3
  refine ⟨s3, ?_, F3, ?_⟩
  · simp only [TreeSet.siblingRedStep, hir, hfam, e1, e2, e3, Option.bind_eq_bind,
      Option.some_bind]
  · intro fuel hf
    rw [TreeSet.RemoveFixupExtraBlack]
    simp only [hroot, hir, hfam, hf, e1, e2, e3, Option.bind_eq_bind, Option.some_bind,
      if_true, if_false, ite_true, ite_false]

/-- C19, as stated, fails on the code: in the tree the inserts 0, ..., 5
build, the Black leaf 0 has a Black parent and a Red sibling; after the recolouring and
the rotation of the case "parent Black, sibling Red" the parent of that node is Red and
its sibling Black, on the hand-written state and on the state the inserts produce. -/
theorem sibling_red_leaves_parent_red :
    (siblingRedState.family 0).map (fun f => (f.ParentColor, f.SiblingColor))
      = some (.Black, .Red) ∧
    ((siblingRedState.siblingRedStep 0).bind (fun s => s.family 0)).map
      (fun f => (f.ParentColor, f.SiblingColor)) = some (.Red, .Black) ∧
    (exampleSiblingRed.bind (fun s => s.family 0)).map
      (fun f => (f.ParentColor, f.SiblingColor)) = some (.Black, .Red) ∧
    (exampleSiblingRed.bind (fun s => (s.siblingRedStep 0).bind (fun s3 => s3.family 0))).map
      (fun f => (f.ParentColor, f.SiblingColor)) = some (.Red, .Black) := by
  decide

/-- C19, amended: in the double-black repair, when the parent of the deficient node is
Black and its sibling is Red (the subtree of the sibling being balanced with black count
at least 1 and free of Red-Red), the recolouring and the rotation of the parent toward
the deficient side return, and the recursive call on the same node finds the same parent,
now Red, and a Black sibling: it is handled by the Parent-Red cases. -/
theorem sibling_red_then_parent_red {s : TreeSet} {f : Frame} {fs : List Frame} {X : RBT}
    {x : Nat} (fuel : Nat) (h : Focus s (f :: fs) X) (hx : X.ptr = some x)
    (hf : f.color = .Black) (hsc : f.sib.color = .Red) (hn : f.sib.NoRedRed)
    (hb : f.sib.Balanced) (hbh : 1 ≤ f.sib.bh) :
    ∃ fam s3 fam3, s.family x = some fam ∧ fam.ParentColor = .Black ∧
      fam.SiblingColor = .Red ∧ s.siblingRedStep x = some s3 ∧
      TreeSet.RemoveFixupExtraBlack (fuel + 1) s x = TreeSet.RemoveFixupExtraBlack fuel s3 x ∧
      s3.family x = some fam3 ∧ fam3.Parent = fam.Parent ∧ fam3.ParentColor = .Red ∧
      fam3.SiblingColor = .Black := by
  have hsne : f.sib ≠ .nil := by
    intro he
    rw [he] at hsc
    exact absurd hsc (by decide)
  obtain ⟨sb, sc, sk, near, far, hs⟩ := f.exists_sibNode hsne
  obtain rfl : sc = .Red := by
    rw [hs] at hsc
    simpa using hsc
  have hnear : near ≠ .nil ∧ near.color = .Black := by
    rw [hs] at hn hb hbh
    clear h hs
    rcases f with ⟨p, pc, pk, pr⟩ | ⟨p, pc, pl, pk⟩
    all_goals
      simp only [Frame.sibNode_left, Frame.sibNode_right, RBT.NoRedRed, RBT.Balanced,
        RBT.bh] at hn hb hbh
      refine ⟨?_, by simp_all⟩
      rintro rfl
      simp only [RBT.bh, reduceCtorEq, if_false, Nat.add_zero] at hb hbh
      omega
  obtain ⟨s3, e3, F3, heq⟩ := siblingRedStep_spec h hx sb sk near far hs
  obtain ⟨nb, nc, nk, n1, n2, hnn⟩ := ((f.setColor .Red).setSib near).exists_sibNode hnear.1
  have hfam := h.family hx _ _ _ _ _ hs
  have hfam3 := F3.family hx nb nc nk n1 n2 (by simpa using hnn)
  have hnc : nc = .Black := by
    have := hnear.2
    rw [hnn] at this
    simpa using this
  exact ⟨_, s3, _, hfam, hf, rfl, e3, heq fuel hf, hfam3, by simp, by simp, hnc⟩

theorem sibling_red_then_parent_red_witness :
    ∃ fam s3 fam3, siblingRedState.family 0 = some fam ∧ fam.ParentColor = .Black ∧
      fam.SiblingColor = .Red ∧ siblingRedState.siblingRedStep 0 = some s3 ∧
      TreeSet.RemoveFixupExtraBlack (2 + 1) siblingRedState 0
        = TreeSet.RemoveFixupExtraBlack 2 s3 0 ∧
      s3.family 0 = some fam3 ∧ fam3.Parent = fam.Parent ∧ fam3.ParentColor = .Red ∧
      fam3.SiblingColor = .Black :=
  sibling_red_then_parent_red (s := siblingRedState)
    (f := .left 1 .Black 1 (.node 3 .Red (.node 2 .Black .nil 2 .nil) 3
      (.node 4 .Black .nil 4 (.node 5 .Red .nil 5 .nil))))
    (X := .node 0 .Black .nil 0 .nil) 2
    (Represents.focus [.left 1 .Black 1 (.node 3 .Red (.node 2 .Black .nil 2 .nil) 3
      (.node 4 .Black .nil 4 (.node 5 .Red .nil 5 .nil)))] siblingRedState_represents)
    rfl rfl rfl (by simp [Frame.sib, RBT.NoRedRed, RBT.color])
    (by simp [Frame.sib, RBT.Balanced, RBT.bh]) (by simp [Frame.sib, RBT.bh])

/-! ## `GetMaxHeight` against `Count` -/

/-- A red-black tree of height `h` with `n` nodes has `2^h ≤ (n+1)^2`. -/
theorem RBT.RedBlack.pow_height_le {t : RBT} (h : t.RedBlack) :
    2 ^ t.height ≤ (t.size + 1) ^ 2 := by
  cases t with
  | nil => simp [RBT.height, RBT.size]
  | node a c l k r =>
    have h1 := h.pow_height_succ_le (by simp only [RBT.size]; omega)
    have h2 : 2 ^ (RBT.node a c l k r).height ≤ 2 ^ ((RBT.node a c l k r).height + 1) :=
      Nat.pow_le_pow_right (by decide) (Nat.le_succ _)
    exact le_trans h2 h1

/-- C21: `GetMaxHeight()` returns 1 plus the number of nodes on the longest path from the
root down to a leaf, so 1 on the empty tree and 2 on a tree of a single node; on a tree
that satisfies the red-black invariants (Black root, no Red-Red, uniform black-height)
the returned `h` and the `n` returned by `Count()` satisfy `2^(h-1) ≤ (n+1)^2`. -/
theorem maxHeight_is_height_plus_one {s : TreeSet} {T : RBT} (hR : Represents s T) :
    s.GetMaxHeight = some (T.height + 1) ∧
    TreeSet.empty.GetMaxHeight = some 1 ∧
    exampleOne.bind (fun r => r.2.GetMaxHeight) = some 2 ∧
    (T.color = .Black → T.NoRedRed → T.UniformBlackHeight →
      ∃ h n, s.GetMaxHeight = some h ∧ s.Count = some n ∧ 2 ^ (h - 1) ≤ (n + 1) ^ 2) := by
  refine ⟨hR.getMaxHeight, by decide, by decide, fun hc hn hu => ?_⟩
  have hrb : T.RedBlack := ⟨hc, hn, RBT.balanced_of_uniform hu⟩
  exact ⟨T.height + 1, T.size, hR.getMaxHeight, hR.count, by
    simpa only [Nat.add_sub_cancel] using hrb.pow_height_le⟩

theorem maxHeight_is_height_plus_one_witness :
    Represents witnessState witnessTree ∧
    witnessState.GetMaxHeight = some (witnessTree.height + 1) ∧
    TreeSet.empty.GetMaxHeight = some 1 ∧
    exampleOne.bind (fun r => r.2.GetMaxHeight) = some 2 ∧
    ∃ h n, witnessState.GetMaxHeight = some h ∧ witnessState.Count = some n ∧
      2 ^ (h - 1) ≤ (n + 1) ^ 2 :=
  ⟨witnessState_represents,
    (maxHeight_is_height_plus_one witnessState_represents).1,
    (maxHeight_is_height_plus_one witnessState_represents).2.1,
    (maxHeight_is_height_plus_one witnessState_represents).2.2.1,
    (maxHeight_is_height_plus_one witnessState_represents).2.2.2 rfl
      witnessTree_redBlack.2.1 witnessTree_uniform⟩
